import Mathlib

/-!
Minesweeper board engine (`script.js`)

A shallow embedding of the game logic of `script.js`: board creation, deferred mine
placement, neighbour counting, flood-fill reveal, flag toggling and win/loss detection.

Conventions of the embedding.

* `currentState` becomes the record `State`.  The entry `DIFFICULTIES[currentState.difficulty]`
  that every function looks up is the field `config`; it only changes together with a reset.
* `Math.floor(Math.random() * n)` is modelled by a list of pre-drawn pairs `(r, c)`; a loop
  that asks for a draw when the list is empty has not returned (`none`).
* `board[r][c]` outside the arrays raises a `TypeError` in JavaScript.  The click handlers
  check the index first and fail with `Fault.typeError`; the internal loops only index below
  `config.rows` / `config.cols`, which are the board dimensions (`WF`).
* The recursion of `revealCell` is modelled with a recursion-depth budget (`revealCellFuel`);
  `none` means the budget ran out.
* DOM effects are kept only where a claim observes them: the end-of-game message, the cells
  picked by `revealAllMines`, and the list of cells marked `revealed`.
-/

namespace Minesweeper

/-! ## Data model -/

/-- One entry of `DIFFICULTIES`. -/
structure Config where
  rows : Nat
  cols : Nat
  mines : Nat
deriving DecidableEq

/-- The three entries of `DIFFICULTIES`. -/
inductive Difficulty where
  | easy
  | medium
  | hard
deriving DecidableEq

/-- The table `DIFFICULTIES`. -/
def DIFFICULTIES : Difficulty → Config
  | .easy => ⟨9, 9, 10⟩
  | .medium => ⟨16, 16, 40⟩
  | .hard => ⟨16, 30, 99⟩

/-- The object `cellData` built in `createBoard`. -/
structure Cell where
  row : Nat
  col : Nat
  isMine : Bool
  isRevealed : Bool
  isFlagged : Bool
  neighborMines : Nat
deriving DecidableEq

/-- The field `currentState.board`: an array of rows. -/
abbrev Board := List (List Cell)

/-- A grid coordinate `(row, col)`. -/
abbrev Pos := Nat × Nat

/-- The text of `gameMessage`, as far as `gameOver` writes it. -/
inductive Message where
  | untouched
  | victory
  | defeat
deriving DecidableEq

/-- The variable `currentState`, with the DOM state the claims observe. -/
structure State where
  config : Config
  board : Board
  gameActive : Bool
  minesLeft : Int
  timeElapsed : Nat
  timerRunning : Bool
  firstClick : Bool
  gameMessage : Message
  mineReveal : List Pos
deriving DecidableEq

/-- Ways in which a handler fails to complete. -/
inductive Fault where
  | typeError
  | noReturn
deriving DecidableEq

/-! ## Board access -/

/-- The literal `cellData` of `createBoard`. -/
def blankCell (r c : Nat) : Cell :=
  { row := r, col := c, isMine := false, isRevealed := false, isFlagged := false,
    neighborMines := 0 }

/-- Read `board[r][c]`. -/
def cellAt (b : Board) (r c : Nat) : Cell :=
  (b.getD r []).getD c (blankCell r c)

/-- Replace `board[r][c]` by `f board[r][c]` (a field assignment on the cell object). -/
def modifyCell (b : Board) (r c : Nat) (f : Cell → Cell) : Board :=
  List.modify (List.modify f c) r b

/-- Whether `board[r][c]` exists. -/
def hasCell (b : Board) (r c : Nat) : Bool :=
  decide (r < b.length ∧ c < (b.getD r []).length)

/-- The board has `config.rows` rows of `config.cols` cells. -/
def WF (cfg : Config) (b : Board) : Prop :=
  b.length = cfg.rows ∧ ∀ row ∈ b, row.length = cfg.cols

/-- The cell coordinates in the order of the loops `for r ... for c ...`. -/
def positions (cfg : Config) : List Pos :=
  List.product (List.range cfg.rows) (List.range cfg.cols)

/-- The counting loop of `checkWin`, for an arbitrary test on the cell. -/
def countGrid (cfg : Config) (b : Board) (p : Cell → Bool) : Nat :=
  (List.range cfg.rows).foldl (fun n r =>
    (List.range cfg.cols).foldl (fun n c => if p (cellAt b r c) then n + 1 else n) n) 0

/-- Number of cells with `isRevealed`. -/
def revealedCount (cfg : Config) (b : Board) : Nat := countGrid cfg b (fun x => x.isRevealed)

/-- Number of cells with `isMine`. -/
def mineCount (cfg : Config) (b : Board) : Nat := countGrid cfg b (fun x => x.isMine)

/-- Number of cells with `isFlagged`. -/
def flagCount (cfg : Config) (b : Board) : Nat := countGrid cfg b (fun x => x.isFlagged)

/-- Number of cells without `isRevealed`. -/
def unrevealedCount (cfg : Config) (b : Board) : Nat := countGrid cfg b (fun x => !x.isRevealed)

/-! ## The functions of `script.js` -/

/-- The loops of `createBoard`: push `config.rows` rows of fresh cells onto the board. -/
def createBoard (s : State) : State :=
  { s with board := s.board ++
      (List.range s.config.rows).map (fun r =>
        (List.range s.config.cols).map (fun c => blankCell r c)) }

/-- The function `resetGame`. -/
def resetGame (s : State) : State :=
  createBoard { s with
    timerRunning := false, gameActive := true, firstClick := true, timeElapsed := 0,
    board := [], minesLeft := s.config.mines }

/-- The test `Math.abs(r - excludeRow) <= 1 && Math.abs(c - excludeCol) <= 1`. -/
def excluded (excludeRow excludeCol r c : Nat) : Bool :=
  decide (Int.natAbs ((r : Int) - excludeRow) ≤ 1 ∧ Int.natAbs ((c : Int) - excludeCol) ≤ 1)

/-- The `while` loop of `placeMines`, one draw `(r, c)` per iteration; returns the board and
the counter `minesPlaced` at loop exit. -/
def placeMinesLoop (cfg : Config) (excludeRow excludeCol : Nat) :
    List Pos → Board → Nat → Option (Board × Nat)
  | [], b, minesPlaced => if minesPlaced < cfg.mines then none else some (b, minesPlaced)
  | (r, c) :: rest, b, minesPlaced =>
    if minesPlaced < cfg.mines then
      if excluded excludeRow excludeCol r c then
        placeMinesLoop cfg excludeRow excludeCol rest b minesPlaced
      else if !(cellAt b r c).isMine then
        placeMinesLoop cfg excludeRow excludeCol rest
          (modifyCell b r c (fun x => { x with isMine := true })) (minesPlaced + 1)
      else
        placeMinesLoop cfg excludeRow excludeCol rest b minesPlaced
    else some (b, minesPlaced)

/-- The offsets `dr`, `dc` of the neighbour loops. -/
def deltas : List Int := [-1, 0, 1]

/-- The test `nr >= 0 && nr < config.rows && nc >= 0 && nc < config.cols`. -/
def inGrid (cfg : Config) (nr nc : Int) : Bool :=
  decide (0 ≤ nr ∧ nr < cfg.rows ∧ 0 ≤ nc ∧ nc < cfg.cols)

/-- The inner loops of `calculateNeighbors`: the value of `count` for cell `(r, c)`. -/
def countAround (cfg : Config) (b : Board) (r c : Nat) : Nat :=
  deltas.foldl (fun count dr =>
    deltas.foldl (fun count dc =>
      let nr := (r : Int) + dr
      let nc := (c : Int) + dc
      if inGrid cfg nr nc then
        if (cellAt b nr.toNat nc.toNat).isMine then count + 1 else count
      else count) count) 0

/-- The function `calculateNeighbors`. -/
def calculateNeighbors (cfg : Config) (b : Board) : Board :=
  (List.range cfg.rows).foldl (fun b r =>
    (List.range cfg.cols).foldl (fun b c =>
      if (cellAt b r c).isMine then b
      else modifyCell b r c (fun x => { x with neighborMines := countAround cfg b r c })) b) b

/-- The function `placeMines`; `none` when the draws run out before the loop exits. -/
def placeMines (s : State) (excludeRow excludeCol : Nat) (draws : List Pos) : Option State :=
  (placeMinesLoop s.config excludeRow excludeCol draws s.board 0).map
    (fun res => { s with board := calculateNeighbors s.config res.1 })

/-- The function `revealCell` with a bound on the recursion depth.  The second component of
the state is the list of cells marked `revealed`, in the order they are marked. -/
def revealCellFuel (cfg : Config) : Nat → Board × List Pos → Nat → Nat → Option (Board × List Pos)
  | 0, _, _, _ => none
  | fuel + 1, st, r, c =>
    let cell := cellAt st.1 r c
    if cell.isRevealed || cell.isFlagged then some st
    else
      let st1 : Board × List Pos :=
        (modifyCell st.1 r c (fun x => { x with isRevealed := true }), st.2 ++ [(r, c)])
      if cell.neighborMines > 0 then some st1
      else
        deltas.foldl (fun acc dr =>
          deltas.foldl (fun acc dc =>
            acc.bind (fun st2 =>
              let nr := (r : Int) + dr
              let nc := (c : Int) + dc
              if inGrid cfg nr nc then revealCellFuel cfg fuel st2 nr.toNat nc.toNat
              else some st2)) acc) (some st1)

/-- The function `revealCell`: the recursion may go as deep as there are cells. -/
def revealCell (cfg : Config) (b : Board) (r c : Nat) : Option (Board × List Pos) :=
  revealCellFuel cfg (cfg.rows * cfg.cols + 1) (b, []) r c

/-- The function `revealAllMines`: the cells whose element gets the class `mine-revealed`. -/
def revealAllMines (cfg : Config) (b : Board) : List Pos :=
  (positions cfg).filter (fun p => (cellAt b p.1 p.2).isMine)

/-- The function `gameOver`. -/
def gameOver (s : State) (win : Bool) : State :=
  let s1 := { s with gameActive := false, timerRunning := false }
  if win then { s1 with gameMessage := Message.victory }
  else { s1 with gameMessage := Message.defeat, mineReveal := revealAllMines s1.config s1.board }

/-- The function `checkWin`. -/
def checkWin (s : State) : State :=
  if (revealedCount s.config s.board : Int)
      = ((s.config.rows * s.config.cols : Nat) : Int) - (s.config.mines : Int) then
    gameOver s true
  else s

/-- The function `handleLeftClick`; `draws` are the values `Math.random` yields during it. -/
def handleLeftClick (s : State) (r c : Nat) (draws : List Pos) : Except Fault State :=
  if !s.gameActive then .ok s
  else if !hasCell s.board r c then .error Fault.typeError
  else if (cellAt s.board r c).isRevealed || (cellAt s.board r c).isFlagged then .ok s
  else
    let placed : Option State :=
      if s.firstClick then
        placeMines { s with firstClick := false, timerRunning := true } r c draws
      else some s
    match placed with
    | none => .error Fault.noReturn
    | some s1 =>
      if (cellAt s1.board r c).isMine then .ok (gameOver s1 false)
      else
        match revealCell s1.config s1.board r c with
        | none => .error Fault.noReturn
        | some res => .ok (checkWin { s1 with board := res.1 })

/-- The function `handleRightClick`. -/
def handleRightClick (s : State) (r c : Nat) : Except Fault State :=
  if !s.gameActive then .ok s
  else if !hasCell s.board r c then .error Fault.typeError
  else if (cellAt s.board r c).isRevealed then .ok s
  else
    let flagged := !(cellAt s.board r c).isFlagged
    .ok { s with
      board := modifyCell s.board r c (fun x => { x with isFlagged := flagged }),
      minesLeft := s.minesLeft + (if flagged then -1 else 1) }

/-! ## The 3×3 block around a cell -/

/-- The cell visited for the offsets `d = (dr, dc)`, when it passes the bounds test. -/
def shifted (cfg : Config) (r c : Nat) (d : Int × Int) : Option Pos :=
  if inGrid cfg ((r : Int) + d.1) ((c : Int) + d.2) then
    some (((r : Int) + d.1).toNat, ((c : Int) + d.2).toNat)
  else none

/-- The cells that the loops over `dr`, `dc` around `(r, c)` visit, in loop order: the
in-grid cells of the 3×3 block, `(r, c)` included. -/
def window (cfg : Config) (r c : Nat) : List Pos :=
  (List.product deltas deltas).filterMap (shifted cfg r c)

/-! ## Vocabulary of the flood fill -/

/-- The cell lies on the grid. -/
def inBounds (cfg : Config) (p : Pos) : Prop := p.1 < cfg.rows ∧ p.2 < cfg.cols

/-- The guard of `revealCell` lets the cell through: it is neither revealed nor flagged. -/
def isOpen (b : Board) (p : Pos) : Bool :=
  !(cellAt b p.1 p.2).isRevealed && !(cellAt b p.1 p.2).isFlagged

/-- Two different cells that touch, diagonals included. -/
def adjacent (p q : Pos) : Prop :=
  Int.natAbs ((p.1 : Int) - q.1) ≤ 1 ∧ Int.natAbs ((p.2 : Int) - q.2) ≤ 1 ∧ p ≠ q

/-- The assignment `cell.isRevealed = true`. -/
def markRevealed (x : Cell) : Cell := { x with isRevealed := true }

/-- Board `b2` is board `b` with exactly the cells of `new` marked revealed; each of them was
open, and none is listed twice. -/
structure Marked (cfg : Config) (b : Board) (new : List Pos) (b2 : Board) : Prop where
  wf : WF cfg b2
  nodup : new.Nodup
  fresh : ∀ p ∈ new, inBounds cfg p ∧ isOpen b p = true
  cells : ∀ r c, cellAt b2 r c = if (r, c) ∈ new then markRevealed (cellAt b r c) else cellAt b r c

/-- Cell `v` is reached from `o` along touching open cells, all but the last of which have
`neighborMines = 0`. -/
inductive FillReach (cfg : Config) (b : Board) (o : Pos) : Pos → Prop where
  | start : inBounds cfg o → isOpen b o = true → FillReach cfg b o o
  | step {u v : Pos} : FillReach cfg b o u → (cellAt b u.1 u.2).neighborMines = 0 →
      adjacent u v → inBounds cfg v → isOpen b v = true → FillReach cfg b o v

/-- What a run of `revealCell` over the cells `starts`, one after the other, achieves. -/
structure FillPost (cfg : Config) (b : Board) (starts new : List Pos) (b2 : Board) : Prop where
  marked : Marked cfg b new b2
  done : ∀ w ∈ starts, isOpen b2 w = false
  sound : ∀ p ∈ new, ∃ w ∈ starts, FillReach cfg b w p
  closed : ∀ p ∈ new, (cellAt b2 p.1 p.2).neighborMines = 0 →
      ∀ q ∈ window cfg p.1 p.2, isOpen b2 q = false

/-! ## Sessions: phases, commands, reachable states -/

/-- The phase of a session, read off `gameActive`, `firstClick` and the end-of-game message:
`gameOver(true)` leaves the message `victory`, `gameOver(false)` leaves `defeat`. -/
inductive Phase where
  | notStarted
  | inProgress
  | won
  | lost
deriving DecidableEq

/-- The phase a state is in. -/
def phase (s : State) : Phase :=
  if s.gameActive then
    if s.firstClick then Phase.notStarted else Phase.inProgress
  else
    match s.gameMessage with
    | Message.victory => Phase.won
    | Message.defeat => Phase.lost
    | Message.untouched => Phase.notStarted

/-- The two commands of the player; a reveal carries the values `Math.random` will yield. -/
inductive Command where
  | reveal (r c : Nat) (draws : List Pos)
  | toggleFlag (r c : Nat)

/-- The draws are possible values of `Math.floor(Math.random() * rows)` and
`Math.floor(Math.random() * cols)`. -/
def drawsValid (cfg : Config) (draws : List Pos) : Prop :=
  ∀ d ∈ draws, d.1 < cfg.rows ∧ d.2 < cfg.cols

/-- The random values carried by a command are possible ones. -/
def Command.valid (cfg : Config) : Command → Prop
  | Command.reveal _ _ draws => drawsValid cfg draws
  | Command.toggleFlag _ _ => True

/-- Run one command: a left click or a right click on cell `(r, c)`. -/
def step (s : State) : Command → Except Fault State
  | Command.reveal r c draws => handleLeftClick s r c draws
  | Command.toggleFlag r c => handleRightClick s r c

/-- The states reachable from `resetGame` by reveal and toggleFlag commands. -/
inductive Reachable : State → Prop where
  | reset (s0 : State) : Reachable (resetGame s0)
  | step {s s2 : State} (cmd : Command) : Reachable s → cmd.valid s.config →
      step s cmd = Except.ok s2 → Reachable s2

/-- The state a handler returns, or `s` when it fails. -/
def orElse (e : Except Fault State) (s : State) : State :=
  match e with
  | Except.ok s2 => s2
  | Except.error _ => s

/-! ## Specification vocabulary -/

/-- Chebyshev distance at most one. -/
def near (p q : Pos) : Prop :=
  Int.natAbs ((p.1 : Int) - q.1) ≤ 1 ∧ Int.natAbs ((p.2 : Int) - q.2) ≤ 1

instance (p q : Pos) : Decidable (near p q) := by unfold near; infer_instance

instance (p q : Pos) : Decidable (adjacent p q) := by unfold adjacent; infer_instance

instance (cfg : Config) (p : Pos) : Decidable (inBounds cfg p) := by
  unfold inBounds; infer_instance

/-- The number of in-bounds cells other than `(r, c)`, at most one step away in each
direction, that hold a mine: the count the specification asks `neighborMines` to equal. -/
def mineNeighbours (cfg : Config) (b : Board) (r c : Nat) : Nat :=
  ((positions cfg).filter (fun p =>
    decide (p ≠ (r, c) ∧ near p (r, c)) && (cellAt b p.1 p.2).isMine)).length

/-- The 8-connected region of cells with `neighborMines = 0` around `o`. -/
inductive ZeroRegion (cfg : Config) (b : Board) (o : Pos) : Pos → Prop where
  | start : inBounds cfg o → (cellAt b o.1 o.2).neighborMines = 0 → ZeroRegion cfg b o o
  | step {u v : Pos} : ZeroRegion cfg b o u → adjacent u v → inBounds cfg v →
      (cellAt b v.1 v.2).neighborMines = 0 → ZeroRegion cfg b o v

/-- The zero region of `o` together with the cells adjacent to it. -/
def FloodSet (cfg : Config) (b : Board) (o v : Pos) : Prop :=
  ∃ u, ZeroRegion cfg b o u ∧ (v = u ∨ (adjacent u v ∧ inBounds cfg v))

/-- The value `totalCells - config.mines` that `checkWin` compares the count with. -/
def winTarget (cfg : Config) : Int := ((cfg.rows * cfg.cols : Nat) : Int) - (cfg.mines : Int)

/-! ## Auxiliary notions for the loops -/

/-- The body of the loops of `calculateNeighbors` for one cell. -/
def neighborStep (cfg : Config) (b : Board) (p : Pos) : Board :=
  if (cellAt b p.1 p.2).isMine then b
  else modifyCell b p.1 p.2 (fun x => { x with neighborMines := countAround cfg b p.1 p.2 })

/-- Board `b2` is board `b` with more mines, none of the new ones in the 3×3 block around the
excluded cell; nothing but `isMine` differs. -/
structure Mined (cfg : Config) (excludeRow excludeCol : Nat) (b b2 : Board) : Prop where
  wf : WF cfg b2
  frame : ∀ r c, cellAt b2 r c = { cellAt b r c with isMine := (cellAt b2 r c).isMine }
  mono : ∀ r c, (cellAt b r c).isMine = true → (cellAt b2 r c).isMine = true
  outside : ∀ r c, (cellAt b2 r c).isMine = true → (cellAt b r c).isMine = false →
    excluded excludeRow excludeCol r c = false

/-! ## The session invariant -/

/-- What holds in every state reachable from `resetGame`. -/
structure Inv (s : State) : Prop where
  wf : WF s.config s.board
  minesLeft : s.minesLeft = (s.config.mines : Int) - (flagCount s.config s.board : Int)
  excl : ∀ r c, (cellAt s.board r c).isFlagged = true → (cellAt s.board r c).isRevealed = false
  fresh : s.firstClick = true → s.gameActive = true ∧
    ∀ r c, (cellAt s.board r c).isMine = false ∧ (cellAt s.board r c).isRevealed = false ∧
      (cellAt s.board r c).neighborMines = 0
  placed : s.firstClick = false → mineCount s.config s.board = s.config.mines

/-- The relation between `gameActive`, the message and the revealed count. -/
def WinInv (s : State) : Prop :=
  (s.gameActive = true → (revealedCount s.config s.board : Int) ≠ winTarget s.config) ∧
  (s.gameActive = false →
    (s.gameMessage = Message.victory ∧
      (revealedCount s.config s.board : Int) = winTarget s.config) ∨
    (s.gameMessage = Message.defeat ∧
      (revealedCount s.config s.board : Int) ≠ winTarget s.config))

/-- Further facts that hold in every state reachable from `resetGame`: no revealed cell holds
a mine, after placement the neighbour counts of the non-mine cells are the ones
`calculateNeighbors` computes, and after a win the revealed count is the target. -/
structure SafeInv (s : State) : Prop where
  covered : ∀ r c, (cellAt s.board r c).isRevealed = true → (cellAt s.board r c).isMine = false
  counts : s.firstClick = false → ∀ r c, inBounds s.config (r, c) →
    (cellAt s.board r c).isMine = false →
    (cellAt s.board r c).neighborMines = countAround s.config s.board r c
  wonCount : s.gameActive = false → s.gameMessage = Message.victory →
    (revealedCount s.config s.board : Int) = winTarget s.config

/-! ## A small session used to instantiate the theorems -/

/-- The initial value of `currentState`, before `init` runs. -/
def initialState (cfg : Config) : State :=
  { config := cfg, board := [], gameActive := false, minesLeft := 0, timeElapsed := 0,
    timerRunning := false, firstClick := true, gameMessage := Message.untouched,
    mineReveal := [] }

/-- A board of one row of five cells with one mine. -/
def demoConfig : Config := { rows := 1, cols := 5, mines := 1 }

/-- The session right after `resetGame`. -/
def demoFresh : State := resetGame (initialState demoConfig)

/-- The fresh session with a flag on the last cell. -/
def demoFlagged : State := orElse (handleRightClick demoFresh 0 4) demoFresh

/-- The random draws of the first click: one inside the excluded block, then the mine. -/
def demoDraws : List Pos := [(0, 1), (0, 3)]

/-- The session after the first click, on cell `(0, 0)`. -/
def demoPlayed : State := orElse (handleLeftClick demoFlagged 0 0 demoDraws) demoFlagged

/-- The session after a further click on the mine at `(0, 3)`. -/
def demoLost : State := orElse (handleLeftClick demoPlayed 0 3 []) demoPlayed

/-- The session after the flag is taken off the last cell. -/
def demoUnflagged : State := orElse (handleRightClick demoPlayed 0 4) demoPlayed

/-- The session after the last mine-free cell is revealed. -/
def demoWon : State := orElse (handleLeftClick demoUnflagged 0 4 []) demoUnflagged

/-- A board of one row of six cells with one mine. -/
def stripConfig : Config := { rows := 1, cols := 6, mines := 1 }

/-- The strip session right after `resetGame`. -/
def stripFresh : State := resetGame (initialState stripConfig)

/-- The strip session with a flag on cell `(0, 1)`, set before the first click. -/
def stripFlagged : State := orElse (handleRightClick stripFresh 0 1) stripFresh

/-- The flagged strip session after a first click on `(0, 5)` that puts the mine on `(0, 3)`. -/
def stripPlayed : State := orElse (handleLeftClick stripFlagged 0 5 [(0, 3)]) stripFlagged

/-- The strip session without flags after a first click on `(0, 0)`, mine on `(0, 3)`. -/
def stripOpened : State := orElse (handleLeftClick stripFresh 0 0 [(0, 3)]) stripFresh

/-- The flagged demo session with a second flag: more flags than mines. -/
def demoOverflagged : State := orElse (handleRightClick demoFlagged 0 3) demoFlagged

/-- The strip session with flags on `(0, 1)` and `(0, 3)`, set before the first click. -/
def stripTwoFlags : State := orElse (handleRightClick stripFlagged 0 3) stripFlagged

/-- The two-flag strip session after a first click on `(0, 2)` that puts the mine on `(0, 5)`:
only `(0, 2)` is revealed. -/
def stripMiddle : State := orElse (handleLeftClick stripTwoFlags 0 2 [(0, 5)]) stripTwoFlags

/-- The session `stripMiddle` with the flag taken off `(0, 1)`. -/
def stripOneFlag : State := orElse (handleRightClick stripMiddle 0 1) stripMiddle

/-- The session `stripMiddle` with both flags taken off: no flag is left on the board. -/
def stripBlocked : State := orElse (handleRightClick stripOneFlag 0 3) stripOneFlag

/-! ## Further specification vocabulary -/

/-- The constraint the specification puts on a configuration: positive dimensions and
`0 ≤ mineCount < rows * cols`. -/
def validConfig (cfg : Config) : Prop :=
  1 ≤ cfg.rows ∧ 1 ≤ cfg.cols ∧ cfg.mines < cfg.rows * cfg.cols

instance (cfg : Config) : Decidable (validConfig cfg) := by unfold validConfig; infer_instance

/-- A configuration with as many mines as cells. -/
def fullConfig : Config := { rows := 1, cols := 1, mines := 1 }

/-- A configuration without rows. -/
def emptyConfig : Config := { rows := 0, cols := 3, mines := 0 }

/-- A path as the specification of the flood fill describes it: consecutive cells are
adjacent, every cell is in bounds, unrevealed and unflagged, and every cell but the last has
`neighborMines = 0`. -/
def fillPath (cfg : Config) (b : Board) : List Pos → Prop
  | [] => False
  | [v] => inBounds cfg v ∧ isOpen b v = true
  | u :: v :: rest =>
    inBounds cfg u ∧ isOpen b u = true ∧ (cellAt b u.1 u.2).neighborMines = 0 ∧
      adjacent u v ∧ fillPath cfg b (v :: rest)

/-- The in-bounds cells at Chebyshev distance more than one from `(r, c)`: the cells on which
`placeMines` may put a mine after a first click on `(r, c)`. -/
def safeCells (cfg : Config) (r c : Nat) : List Pos :=
  (positions cfg).filter (fun p => !excluded r c p.1 p.2)

/-- The number of in-bounds cells at Chebyshev distance more than one from `(r, c)`. -/
def safeCount (cfg : Config) (r c : Nat) : Nat := (safeCells cfg r c).length

/-- The board and the counter `minesPlaced` of the loop of `placeMines` after the iterations
that the given draws allow (none once the loop condition fails). -/
def placeMinesState (cfg : Config) (excludeRow excludeCol : Nat) :
    List Pos → Board → Nat → Board × Nat
  | [], b, minesPlaced => (b, minesPlaced)
  | (r, c) :: rest, b, minesPlaced =>
    if minesPlaced < cfg.mines then
      if excluded excludeRow excludeCol r c then
        placeMinesState cfg excludeRow excludeCol rest b minesPlaced
      else if !(cellAt b r c).isMine then
        placeMinesState cfg excludeRow excludeCol rest
          (modifyCell b r c (fun x => { x with isMine := true })) (minesPlaced + 1)
      else
        placeMinesState cfg excludeRow excludeCol rest b minesPlaced
    else (b, minesPlaced)

/-! ## Reading and writing cells -/

theorem hasCell_eq_true_iff (b : Board) (r c : Nat) :
    hasCell b r c = true ↔ r < b.length ∧ c < (b.getD r []).length := by
  simp [hasCell]

theorem WF.hasCell_iff {cfg : Config} {b : Board} (h : WF cfg b) (r c : Nat) :
    hasCell b r c = true ↔ r < cfg.rows ∧ c < cfg.cols := by
  rw [hasCell_eq_true_iff, h.1]
  constructor
  · rintro ⟨hr, hc⟩
    refine ⟨hr, ?_⟩
    have hr' : r < b.length := by rw [h.1]; exact hr
    have : b.getD r [] = b[r] := by simp [List.getD, hr']
    rw [this, h.2 _ (List.getElem_mem _)] at hc
    exact hc
  · rintro ⟨hr, hc⟩
    refine ⟨hr, ?_⟩
    have hr' : r < b.length := by rw [h.1]; exact hr
    have : b.getD r [] = b[r] := by simp [List.getD, hr']
    rw [this, h.2 _ (List.getElem_mem _)]
    exact hc

theorem cellAt_modifyCell (b : Board) (r c : Nat) (f : Cell → Cell) (r' c' : Nat) :
    cellAt (modifyCell b r c f) r' c' =
      if r' = r ∧ c' = c ∧ hasCell b r c = true then f (cellAt b r c) else cellAt b r' c' := by
  unfold cellAt modifyCell hasCell
  simp only [List.getD_eq_getElem?_getD, List.getElem?_modify]
  by_cases hr : r = r'
  · subst hr
    cases hb : b[r]? with
    | none =>
      have : ¬ r < b.length := by
        intro h; simp [List.getElem?_eq_getElem h] at hb
      simp [this]
    | some row =>
      have hlt : r < b.length := by
        by_contra h; simp [List.getElem?_eq_none (Nat.le_of_not_lt h)] at hb
      simp only [Option.map_some', if_true, Option.getD_some, List.getElem?_modify,
        true_and, hlt]
      by_cases hc : c = c'
      · subst hc
        cases hcell : row[c]? with
        | none =>
          have : ¬ c < row.length := by
            intro h; simp [List.getElem?_eq_getElem h] at hcell
          simp [this, hcell]
        | some x =>
          have : c < row.length := by
            by_contra h; simp [List.getElem?_eq_none (Nat.le_of_not_lt h)] at hcell
          have hx : row[c] = x := by
            rw [List.getElem?_eq_getElem this] at hcell; exact Option.some.inj hcell
          simp [this, hcell, hx]
      · have hc' : ¬ c' = c := fun h => hc h.symm
        cases hcell : row[c']? <;> simp [hc, hc', hcell]
  · have hr' : ¬ r' = r := fun h => hr h.symm
    cases hb : b[r']? <;> simp [hr, hr']

theorem WF_modifyCell {cfg : Config} {b : Board} (h : WF cfg b) (r c : Nat) (f : Cell → Cell) :
    WF cfg (modifyCell b r c f) := by
  refine ⟨by simp [modifyCell, h.1], ?_⟩
  intro row hrow
  obtain ⟨i, hi, rfl⟩ := List.getElem_of_mem hrow
  have hi' : i < b.length := by simpa [modifyCell] using hi
  simp only [modifyCell, List.getElem_modify]
  split
  · simp only [List.length_modify]; exact h.2 _ (List.getElem_mem _)
  · exact h.2 _ (List.getElem_mem _)

/-! ## Counting cells -/

theorem mem_positions (cfg : Config) (p : Pos) :
    p ∈ positions cfg ↔ p.1 < cfg.rows ∧ p.2 < cfg.cols := by
  obtain ⟨r, c⟩ := p
  simp [positions, List.mem_product]

theorem nodup_positions (cfg : Config) : (positions cfg).Nodup :=
  List.Nodup.product (List.nodup_range _) (List.nodup_range _)

theorem length_positions (cfg : Config) : (positions cfg).length = cfg.rows * cfg.cols := by
  rw [positions]
  exact (List.length_product _ _).trans (by simp)

theorem foldl_count {α : Type} (q : α → Bool) (L : List α) (n0 : Nat) :
    L.foldl (fun n x => if q x then n + 1 else n) n0 = n0 + L.countP q := by
  induction L generalizing n0 with
  | nil => simp
  | cons a L ih =>
    simp only [List.foldl_cons, ih, List.countP_cons]
    by_cases h : q a = true
    · simp [h]; omega
    · simp [h]

theorem foldl_count_product {α β : Type} (q : α → β → Bool) (L : List α) (M : List β) (n0 : Nat) :
    L.foldl (fun n r => M.foldl (fun n c => if q r c then n + 1 else n) n) n0
      = n0 + (List.product L M).countP (fun p => q p.1 p.2) := by
  induction L generalizing n0 with
  | nil => simp
  | cons a L ih =>
    simp only [List.foldl_cons]
    have hp : (a :: L).product M = M.map (Prod.mk a) ++ L.product M := List.product_cons a L M
    rw [foldl_count, ih, hp, List.countP_append, List.countP_map]
    have : (List.countP ((fun p : α × β => q p.1 p.2) ∘ Prod.mk a) M) = List.countP (q a) M := rfl
    rw [this]; omega

theorem countGrid_eq (cfg : Config) (b : Board) (p : Cell → Bool) :
    countGrid cfg b p = (positions cfg).countP (fun q => p (cellAt b q.1 q.2)) := by
  unfold countGrid positions
  rw [foldl_count_product (fun r c => p (cellAt b r c))]
  simp

/-- Counting on a duplicate-free list when the test changes at one element only. -/
theorem countP_flip_true {α : Type} [DecidableEq α] (L : List α) (hL : L.Nodup) (a : α)
    (ha : a ∈ L) (p q : α → Bool) (hpa : p a = false) (hqa : q a = true)
    (hrest : ∀ x, x ≠ a → q x = p x) : L.countP q = L.countP p + 1 := by
  induction L with
  | nil => simp at ha
  | cons x L ih =>
    rw [List.nodup_cons] at hL
    by_cases hx : x = a
    · subst hx
      have hsame : L.countP q = L.countP p := by
        apply List.countP_congr
        intro y hy
        have : y ≠ x := fun h => hL.1 (h ▸ hy)
        rw [hrest y this]
      simp [List.countP_cons, hpa, hqa, hsame]
    · have ha' : a ∈ L := by
        rcases List.mem_cons.1 ha with h | h
        · exact absurd h.symm hx
        · exact h
      simp only [List.countP_cons, ih hL.2 ha', hrest x hx]
      omega

theorem countP_same {α : Type} (L : List α) (p q : α → Bool)
    (h : ∀ x ∈ L, q x = p x) : L.countP q = L.countP p := by
  apply List.countP_congr
  intro x hx
  rw [h x hx]

theorem revealed_add_unrevealed (cfg : Config) (b : Board) :
    revealedCount cfg b + unrevealedCount cfg b = cfg.rows * cfg.cols := by
  unfold revealedCount unrevealedCount
  rw [countGrid_eq, countGrid_eq, ← length_positions]
  have := List.length_eq_countP_add_countP (fun q : Pos => (cellAt b q.1 q.2).isRevealed) (positions cfg)
  rw [this]
  congr 1
  apply List.countP_congr
  intro x _
  simp

/-! ## The neighbour loops -/

theorem mem_window (cfg : Config) (r c : Nat) (p : Pos) :
    p ∈ window cfg r c ↔ p.1 < cfg.rows ∧ p.2 < cfg.cols ∧
      Int.natAbs ((p.1 : Int) - r) ≤ 1 ∧ Int.natAbs ((p.2 : Int) - c) ≤ 1 := by
  obtain ⟨pr, pc⟩ := p
  simp only [window, List.mem_filterMap, shifted, inGrid, Prod.exists]
  constructor
  · rintro ⟨dr, dc, hd, h⟩
    have hd' : dr ∈ deltas ∧ dc ∈ deltas := List.mem_product.1 hd
    simp only [deltas, List.mem_cons, List.mem_singleton, List.not_mem_nil, or_false] at hd'
    split at h
    · rename_i hg
      simp only [decide_eq_true_eq] at hg
      simp only [Option.some.injEq, Prod.mk.injEq] at h
      obtain ⟨h1, h2⟩ := h
      omega
    · simp at h
  · rintro ⟨h1, h2, h3, h4⟩
    refine ⟨(pr : Int) - r, (pc : Int) - c, ?_, ?_⟩
    · apply List.mem_product.2
      simp only [deltas, List.mem_cons, List.mem_singleton, List.not_mem_nil, or_false]
      omega
    · have hg : (0 : Int) ≤ r + (pr - r) ∧ (r : Int) + (pr - r) < cfg.rows ∧
          (0 : Int) ≤ c + (pc - c) ∧ (c : Int) + (pc - c) < cfg.cols := by omega
      simp only [hg, and_self, decide_True, if_true, Option.some.injEq, Prod.mk.injEq]
      omega

theorem nodup_window (cfg : Config) (r c : Nat) : (window cfg r c).Nodup := by
  unfold window
  apply List.Nodup.filterMap
  · intro a a' b hb hb'
    simp only [shifted, Option.mem_def] at hb hb'
    split at hb
    · split at hb'
      · rename_i h1 h2
        simp only [inGrid, decide_eq_true_eq] at h1 h2
        simp only [Option.some.injEq] at hb hb'
        rw [← hb'] at hb
        simp only [Prod.mk.injEq] at hb
        obtain ⟨a1, a2⟩ := a
        obtain ⟨b1, b2⟩ := a'
        simp only [Prod.mk.injEq]
        simp only at h1 h2 hb
        omega
      · simp at hb'
    · simp at hb
  · exact List.Nodup.product (by decide) (by decide)

theorem nested_foldl_deltas {α : Type} (F : α → Int → Int → α) (init : α) :
    deltas.foldl (fun acc dr => deltas.foldl (fun acc dc => F acc dr dc) acc) init
      = (List.product deltas deltas).foldl (fun acc d => F acc d.1 d.2) init := rfl

theorem foldl_count_shifted (cfg : Config) (r c : Nat) (m : Pos → Bool)
    (L : List (Int × Int)) (n0 : Nat) :
    L.foldl (fun count d =>
        if inGrid cfg ((r : Int) + d.1) ((c : Int) + d.2) then
          if m (((r : Int) + d.1).toNat, ((c : Int) + d.2).toNat) then count + 1 else count
        else count) n0
      = n0 + (L.filterMap (shifted cfg r c)).countP m := by
  induction L generalizing n0 with
  | nil => simp
  | cons d L ih =>
    simp only [List.foldl_cons, ih, List.filterMap_cons, shifted]
    by_cases hg : inGrid cfg ((r : Int) + d.1) ((c : Int) + d.2) = true
    · simp only [hg, if_true, List.countP_cons]
      by_cases hm : m (((r : Int) + d.1).toNat, ((c : Int) + d.2).toNat) = true
      · simp [hm]; omega
      · simp [hm]
    · simp [hg]

theorem countAround_eq (cfg : Config) (b : Board) (r c : Nat) :
    countAround cfg b r c = (window cfg r c).countP (fun p => (cellAt b p.1 p.2).isMine) := by
  unfold countAround window
  rw [nested_foldl_deltas (fun count dr dc =>
      if inGrid cfg ((r : Int) + dr) ((c : Int) + dc) then
        if (cellAt b ((r : Int) + dr).toNat ((c : Int) + dc).toNat).isMine then count + 1
        else count
      else count)]
  rw [foldl_count_shifted cfg r c (fun p => (cellAt b p.1 p.2).isMine)]
  simp

theorem foldl_bind_shifted {σ : Type} (cfg : Config) (r c : Nat) (g : σ → Pos → Option σ)
    (L : List (Int × Int)) (init : Option σ) :
    L.foldl (fun acc d => acc.bind (fun st =>
        if inGrid cfg ((r : Int) + d.1) ((c : Int) + d.2) then
          g st (((r : Int) + d.1).toNat, ((c : Int) + d.2).toNat)
        else some st)) init
      = init.bind (fun st => (L.filterMap (shifted cfg r c)).foldlM g st) := by
  induction L generalizing init with
  | nil => cases init <;> simp
  | cons d L ih =>
    simp only [List.foldl_cons, ih, List.filterMap_cons, shifted]
    cases init with
    | none => simp
    | some st =>
      by_cases hg : inGrid cfg ((r : Int) + d.1) ((c : Int) + d.2) = true
      · simp [hg]
      · simp [hg]

theorem revealCellFuel_succ (cfg : Config) (fuel : Nat) (st : Board × List Pos) (r c : Nat) :
    revealCellFuel cfg (fuel + 1) st r c =
      if (cellAt st.1 r c).isRevealed || (cellAt st.1 r c).isFlagged then some st
      else if (cellAt st.1 r c).neighborMines > 0 then
        some (modifyCell st.1 r c (fun x => { x with isRevealed := true }), st.2 ++ [(r, c)])
      else
        (window cfg r c).foldlM (fun st2 p => revealCellFuel cfg fuel st2 p.1 p.2)
          (modifyCell st.1 r c (fun x => { x with isRevealed := true }), st.2 ++ [(r, c)]) := by
  rw [revealCellFuel]
  simp only
  split
  · rfl
  · split
    · rfl
    · rw [nested_foldl_deltas (fun (acc : Option (Board × List Pos)) dr dc => acc.bind (fun st2 =>
          if inGrid cfg ((r : Int) + dr) ((c : Int) + dc) then
            revealCellFuel cfg fuel st2 ((r : Int) + dr).toNat ((c : Int) + dc).toNat
          else some st2))]
      rw [foldl_bind_shifted cfg r c (fun st2 p => revealCellFuel cfg fuel st2 p.1 p.2)]
      simp [window]

/-! ## Marking cells -/

theorem Marked.nothing {cfg : Config} {b : Board} (h : WF cfg b) : Marked cfg b [] b :=
  ⟨h, List.nodup_nil, by simp, by simp⟩

theorem Marked.one {cfg : Config} {b : Board} (h : WF cfg b) {r c : Nat}
    (hin : inBounds cfg (r, c)) (ho : isOpen b (r, c) = true) :
    Marked cfg b [(r, c)] (modifyCell b r c (fun x => { x with isRevealed := true })) := by
  refine ⟨WF_modifyCell h _ _ _, List.nodup_singleton _, ?_, ?_⟩
  · intro p hp
    rw [List.mem_singleton] at hp
    subst hp
    exact ⟨hin, ho⟩
  · intro r2 c2
    have hc : hasCell b r c = true := (h.hasCell_iff r c).2 hin
    rw [cellAt_modifyCell]
    by_cases hp : r2 = r ∧ c2 = c
    · obtain ⟨rfl, rfl⟩ := hp
      simp [hc, markRevealed]
    · have : ¬ (r2 = r ∧ c2 = c ∧ hasCell b r c = true) := fun h3 => hp ⟨h3.1, h3.2.1⟩
      have hne : ¬ ((r2, c2) = (r, c)) := by
        intro h3; exact hp (by simpa using h3)
      simp [this, hne]

theorem Marked.cell_of_mem {cfg : Config} {b b2 : Board} {new : List Pos}
    (h : Marked cfg b new b2) {p : Pos} (hp : p ∈ new) :
    cellAt b2 p.1 p.2 = markRevealed (cellAt b p.1 p.2) := by
  rw [h.cells]; simp [hp]

theorem Marked.cell_of_not_mem {cfg : Config} {b b2 : Board} {new : List Pos}
    (h : Marked cfg b new b2) {p : Pos} (hp : p ∉ new) :
    cellAt b2 p.1 p.2 = cellAt b p.1 p.2 := by
  rw [h.cells]; simp [hp]

theorem Marked.isFlagged_eq {cfg : Config} {b b2 : Board} {new : List Pos}
    (h : Marked cfg b new b2) (r c : Nat) :
    (cellAt b2 r c).isFlagged = (cellAt b r c).isFlagged := by
  rw [h.cells]; split <;> simp [markRevealed]

theorem Marked.isMine_eq {cfg : Config} {b b2 : Board} {new : List Pos}
    (h : Marked cfg b new b2) (r c : Nat) :
    (cellAt b2 r c).isMine = (cellAt b r c).isMine := by
  rw [h.cells]; split <;> simp [markRevealed]

theorem Marked.neighborMines_eq {cfg : Config} {b b2 : Board} {new : List Pos}
    (h : Marked cfg b new b2) (r c : Nat) :
    (cellAt b2 r c).neighborMines = (cellAt b r c).neighborMines := by
  rw [h.cells]; split <;> simp [markRevealed]

theorem Marked.isRevealed_iff {cfg : Config} {b b2 : Board} {new : List Pos}
    (h : Marked cfg b new b2) (r c : Nat) :
    (cellAt b2 r c).isRevealed = true ↔ (cellAt b r c).isRevealed = true ∨ (r, c) ∈ new := by
  rw [h.cells]
  by_cases hm : (r, c) ∈ new <;> simp [hm, markRevealed]

theorem Marked.isOpen_false_of_mem {cfg : Config} {b b2 : Board} {new : List Pos}
    (h : Marked cfg b new b2) {p : Pos} (hp : p ∈ new) : isOpen b2 p = false := by
  have := (h.isRevealed_iff p.1 p.2).2 (Or.inr hp)
  simp [isOpen, this]

theorem Marked.isOpen_mono {cfg : Config} {b b2 : Board} {new : List Pos}
    (h : Marked cfg b new b2) {p : Pos} (hp : isOpen b p = false) : isOpen b2 p = false := by
  simp only [isOpen, Bool.and_eq_false_imp, Bool.not_eq_true', Bool.not_eq_false',
    Bool.not_eq_eq_eq_not, Bool.not_true, Bool.not_false] at hp ⊢
  intro h1
  rw [h.isFlagged_eq]
  apply hp
  by_contra h2
  have h3 : (cellAt b p.1 p.2).isRevealed = true := by simpa using h2
  have := (h.isRevealed_iff p.1 p.2).2 (Or.inl h3)
  rw [this] at h1
  exact absurd h1 (by simp)

theorem Marked.isOpen_of_isOpen {cfg : Config} {b b2 : Board} {new : List Pos}
    (h : Marked cfg b new b2) {p : Pos} (hp : isOpen b2 p = true) : isOpen b p = true := by
  by_contra h2
  have h3 : isOpen b p = false := by simpa using h2
  rw [h.isOpen_mono h3] at hp
  exact absurd hp (by simp)

theorem Marked.concat {cfg : Config} {b b1 b2 : Board} {n1 n2 : List Pos}
    (h1 : Marked cfg b n1 b1) (h2 : Marked cfg b1 n2 b2) : Marked cfg b (n1 ++ n2) b2 := by
  refine ⟨h2.wf, ?_, ?_, ?_⟩
  · rw [List.nodup_append]
    refine ⟨h1.nodup, h2.nodup, ?_⟩
    intro p hp1 hp2
    have := h1.isOpen_false_of_mem hp1
    rw [(h2.fresh p hp2).2] at this
    exact absurd this (by simp)
  · intro p hp
    rcases List.mem_append.1 hp with hp | hp
    · exact h1.fresh p hp
    · exact ⟨(h2.fresh p hp).1, h1.isOpen_of_isOpen (h2.fresh p hp).2⟩
  · intro r c
    rw [h2.cells, h1.cells]
    by_cases m1 : (r, c) ∈ n1 <;> by_cases m2 : (r, c) ∈ n2 <;>
      simp [m1, m2, markRevealed]

/-! ## Reachability along open cells -/

theorem FillReach.end_inBounds {cfg : Config} {b : Board} {o v : Pos}
    (h : FillReach cfg b o v) : inBounds cfg v := by
  cases h with
  | start hin _ => exact hin
  | step _ _ _ hin _ => exact hin

theorem FillReach.target_isOpen {cfg : Config} {b : Board} {o v : Pos}
    (h : FillReach cfg b o v) : isOpen b v = true := by
  cases h with
  | start _ ho => exact ho
  | step _ _ _ _ ho => exact ho

theorem FillReach.origin_isOpen {cfg : Config} {b : Board} {o v : Pos}
    (h : FillReach cfg b o v) : isOpen b o = true := by
  induction h with
  | start _ ho => exact ho
  | step _ _ _ _ _ ih => exact ih

/-- A path stays a path on an earlier board, where fewer cells are revealed. -/
theorem FillReach.before_marked {cfg : Config} {b b2 : Board} {new : List Pos}
    (hm : Marked cfg b new b2) {o v : Pos} (h : FillReach cfg b2 o v) : FillReach cfg b o v := by
  induction h with
  | start hin ho => exact FillReach.start hin (hm.isOpen_of_isOpen ho)
  | step _ hz hadj hin ho ih =>
    exact FillReach.step ih (by rw [← hm.neighborMines_eq]; exact hz) hadj hin
      (hm.isOpen_of_isOpen ho)

/-- A path can be extended at its origin. -/
theorem FillReach.cons {cfg : Config} {b : Board} {o w v : Pos}
    (hin : inBounds cfg o) (ho : isOpen b o = true)
    (hz : (cellAt b o.1 o.2).neighborMines = 0) (hadj : adjacent o w)
    (h : FillReach cfg b w v) : FillReach cfg b o v := by
  induction h with
  | start hin2 ho2 => exact FillReach.step (FillReach.start hin ho) hz hadj hin2 ho2
  | step _ hz2 hadj2 hin2 ho2 ih => exact FillReach.step ih hz2 hadj2 hin2 ho2

/-! ## Composition of flood-fill runs -/

theorem FillPost.nil {cfg : Config} {b : Board} (h : WF cfg b) : FillPost cfg b [] [] b :=
  ⟨Marked.nothing h, by simp, by simp, by simp⟩

theorem FillPost.skip {cfg : Config} {b : Board} (h : WF cfg b) {p : Pos}
    (hp : isOpen b p = false) : FillPost cfg b [p] [] b :=
  ⟨Marked.nothing h, by simpa using hp, by simp, by simp⟩

theorem FillPost.leaf {cfg : Config} {b : Board} (h : WF cfg b) {r c : Nat}
    (hin : inBounds cfg (r, c)) (ho : isOpen b (r, c) = true)
    (hn : (cellAt b r c).neighborMines > 0) :
    FillPost cfg b [(r, c)] [(r, c)]
      (modifyCell b r c (fun x => { x with isRevealed := true })) := by
  have hm := Marked.one h hin ho
  refine ⟨hm, ?_, ?_, ?_⟩
  · intro w hw
    rw [List.mem_singleton] at hw; subst hw
    exact hm.isOpen_false_of_mem (List.mem_singleton_self _)
  · intro p hp
    rw [List.mem_singleton] at hp; subst hp
    exact ⟨_, List.mem_singleton_self _, FillReach.start hin ho⟩
  · intro p hp hz
    rw [List.mem_singleton] at hp; subst hp
    have hz2 : (cellAt b r c).neighborMines = 0 := by
      rw [← hm.neighborMines_eq r c]; exact hz
    omega

theorem FillPost.append {cfg : Config} {b b1 b2 : Board} {w : Pos} {L n1 n2 : List Pos}
    (h1 : FillPost cfg b [w] n1 b1) (h2 : FillPost cfg b1 L n2 b2) :
    FillPost cfg b (w :: L) (n1 ++ n2) b2 := by
  refine ⟨h1.marked.concat h2.marked, ?_, ?_, ?_⟩
  · intro x hx
    rcases List.mem_cons.1 hx with rfl | hx
    · exact h2.marked.isOpen_mono (h1.done _ (List.mem_singleton_self _))
    · exact h2.done x hx
  · intro p hp
    rcases List.mem_append.1 hp with hp | hp
    · obtain ⟨x, hx, hr⟩ := h1.sound p hp
      rw [List.mem_singleton] at hx; subst hx
      exact ⟨_, List.mem_cons_self _ _, hr⟩
    · obtain ⟨x, hx, hr⟩ := h2.sound p hp
      exact ⟨x, List.mem_cons_of_mem _ hx, hr.before_marked h1.marked⟩
  · intro p hp hz q hq
    rcases List.mem_append.1 hp with hp | hp
    · apply h2.marked.isOpen_mono
      exact h1.closed p hp (by rw [← h2.marked.neighborMines_eq]; exact hz) q hq
    · exact h2.closed p hp hz q hq

theorem FillPost.node {cfg : Config} {b b2 : Board} (h : WF cfg b) {r c : Nat} {n : List Pos}
    (hin : inBounds cfg (r, c)) (ho : isOpen b (r, c) = true)
    (hz : (cellAt b r c).neighborMines = 0)
    (h2 : FillPost cfg (modifyCell b r c (fun x => { x with isRevealed := true }))
      (window cfg r c) n b2) :
    FillPost cfg b [(r, c)] ((r, c) :: n) b2 := by
  have hm := Marked.one h hin ho
  have hall : Marked cfg b ([(r, c)] ++ n) b2 := hm.concat h2.marked
  refine ⟨hall, ?_, ?_, ?_⟩
  · intro w hw
    rw [List.mem_singleton] at hw; subst hw
    exact hall.isOpen_false_of_mem (by simp)
  · intro p hp
    refine ⟨_, List.mem_singleton_self _, ?_⟩
    rcases List.mem_cons.1 hp with rfl | hp
    · exact FillReach.start hin ho
    · obtain ⟨w, hw, hr⟩ := h2.sound p hp
      have hwo := hr.origin_isOpen
      have hne : (r, c) ≠ w := by
        intro he; subst he
        rw [hm.isOpen_false_of_mem (List.mem_singleton_self _)] at hwo
        exact absurd hwo (by simp)
      have hw2 := (mem_window cfg r c w).1 hw
      have hadj : adjacent (r, c) w := by
        refine ⟨?_, ?_, hne⟩
        · have := hw2.2.2.1; simp only; omega
        · have := hw2.2.2.2; simp only; omega
      exact FillReach.cons hin ho hz hadj (hr.before_marked hm)
  · intro p hp hzp q hq
    rcases List.mem_cons.1 hp with rfl | hp
    · exact h2.done q hq
    · exact h2.closed p hp hzp q hq

/-! ## The recursion of `revealCell` -/

/-- Partial correctness of a run over a list of start cells, given it for single cells. -/
theorem foldlM_fillPost (cfg : Config) (g : Board × List Pos → Pos → Option (Board × List Pos))
    (hg : ∀ st p st2, WF cfg st.1 → inBounds cfg p → g st p = some st2 →
      ∃ new, st2.2 = st.2 ++ new ∧ FillPost cfg st.1 [p] new st2.1)
    (L : List Pos) (st st2 : Board × List Pos) (hwf : WF cfg st.1)
    (hL : ∀ p ∈ L, inBounds cfg p) (h : L.foldlM g st = some st2) :
    ∃ new, st2.2 = st.2 ++ new ∧ FillPost cfg st.1 L new st2.1 := by
  induction L generalizing st with
  | nil =>
    simp only [List.foldlM_nil, Option.pure_def, Option.some.injEq] at h
    subst h
    exact ⟨[], by simp, FillPost.nil hwf⟩
  | cons p L ih =>
    simp only [List.foldlM_cons, Option.bind_eq_bind, Option.bind_eq_some] at h
    obtain ⟨st1, h1, h2⟩ := h
    obtain ⟨n1, e1, p1⟩ := hg st p st1 hwf (hL p (List.mem_cons_self _ _)) h1
    obtain ⟨n2, e2, p2⟩ := ih st1 p1.marked.wf
      (fun q hq => hL q (List.mem_cons_of_mem _ hq)) h2
    exact ⟨n1 ++ n2, by rw [e2, e1, List.append_assoc], p1.append p2⟩

theorem window_inBounds (cfg : Config) (r c : Nat) : ∀ p ∈ window cfg r c, inBounds cfg p :=
  fun p hp => ⟨((mem_window cfg r c p).1 hp).1, ((mem_window cfg r c p).1 hp).2.1⟩

/-- Whenever `revealCell` returns, it has marked a duplicate-free list of previously open
cells, each reached along open cells, and has left no open cell next to a marked zero cell. -/
theorem revealCellFuel_post (cfg : Config) (fuel : Nat) :
    ∀ (st : Board × List Pos) (p : Pos) (st2 : Board × List Pos), WF cfg st.1 →
      inBounds cfg p → revealCellFuel cfg fuel st p.1 p.2 = some st2 →
      ∃ new, st2.2 = st.2 ++ new ∧ FillPost cfg st.1 [p] new st2.1 := by
  induction fuel with
  | zero => intro st p st2 _ _ h; simp [revealCellFuel] at h
  | succ fuel ih =>
    intro st p st2 hwf hin h
    obtain ⟨r, c⟩ := p
    rw [revealCellFuel_succ] at h
    simp only at h
    by_cases ho : isOpen st.1 (r, c) = true
    · have hguard : ¬ (((cellAt st.1 r c).isRevealed || (cellAt st.1 r c).isFlagged) = true) := by
        simp only [isOpen, Bool.and_eq_true, Bool.not_eq_true', Bool.not_eq_eq_eq_not,
          Bool.not_true] at ho
        simp [ho.1, ho.2]
      rw [if_neg hguard] at h
      by_cases hn : (cellAt st.1 r c).neighborMines > 0
      · rw [if_pos hn] at h
        simp only [Option.some.injEq] at h
        subst h
        exact ⟨[(r, c)], rfl, FillPost.leaf hwf hin ho hn⟩
      · rw [if_neg hn] at h
        have hm := Marked.one hwf hin ho
        obtain ⟨n, e, post⟩ := foldlM_fillPost cfg
          (fun st2 p => revealCellFuel cfg fuel st2 p.1 p.2) ih (window cfg r c) _ st2
          hm.wf (window_inBounds cfg r c) h
        refine ⟨(r, c) :: n, ?_, FillPost.node hwf hin ho (by omega) post⟩
        rw [e]; simp
    · have hguard : ((cellAt st.1 r c).isRevealed || (cellAt st.1 r c).isFlagged) = true := by
        simp only [isOpen, Bool.and_eq_true, Bool.not_eq_true', Bool.not_eq_eq_eq_not,
          Bool.not_true, not_and, Bool.not_eq_false] at ho
        cases hr : (cellAt st.1 r c).isRevealed
        · simp [ho hr]
        · simp
      rw [if_pos hguard] at h
      simp only [Option.some.injEq] at h
      subst h
      exact ⟨[], by simp, FillPost.skip hwf (by simpa using ho)⟩


/-! ## Counting marked cells, termination -/

theorem countP_split {α : Type} (L : List α) (A B C : α → Bool)
    (h : ∀ x ∈ L, (A x = true ↔ (B x = true ∨ C x = true)) ∧ ¬ (B x = true ∧ C x = true)) :
    L.countP A = L.countP B + L.countP C := by
  induction L with
  | nil => simp
  | cons x L ih =>
    have hx := h x (List.mem_cons_self _ _)
    have ihL := ih (fun y hy => h y (List.mem_cons_of_mem _ hy))
    simp only [List.countP_cons, ihL]
    cases hA : A x <;> cases hB : B x <;> cases hC : C x <;> simp_all <;> omega

theorem countP_mem_eq_length {α : Type} [DecidableEq α] (L new : List α) (hL : L.Nodup)
    (hn : new.Nodup) (hsub : ∀ x ∈ new, x ∈ L) :
    L.countP (fun x => decide (x ∈ new)) = new.length := by
  rw [List.countP_eq_length_filter]
  apply List.Perm.length_eq
  rw [List.perm_ext_iff_of_nodup (hL.filter _) hn]
  intro a
  simp only [List.mem_filter, decide_eq_true_eq]
  exact ⟨fun h => h.2, fun h => ⟨hsub a h, h⟩⟩

theorem Marked.unrevealedCount_add {cfg : Config} {b b2 : Board} {new : List Pos}
    (h : Marked cfg b new b2) :
    unrevealedCount cfg b2 + new.length = unrevealedCount cfg b := by
  unfold unrevealedCount
  rw [countGrid_eq, countGrid_eq,
    ← countP_mem_eq_length (positions cfg) new (nodup_positions cfg) h.nodup
      (fun x hx => (mem_positions cfg x).2 (h.fresh x hx).1)]
  symm
  apply countP_split
  intro x _
  have hrev := h.isRevealed_iff x.1 x.2
  by_cases hm : x ∈ new
  · have ho := (h.fresh x hm).2
    simp only [isOpen, Bool.and_eq_true, Bool.not_eq_true', Bool.not_eq_eq_eq_not,
      Bool.not_true] at ho
    have h2 : (cellAt b2 x.1 x.2).isRevealed = true := hrev.2 (Or.inr hm)
    simp [hm, ho.1, h2]
  · have h2 : (cellAt b2 x.1 x.2).isRevealed = (cellAt b x.1 x.2).isRevealed := by
      rw [h.cell_of_not_mem hm]
    simp [hm, h2]

theorem unrevealedCount_le (cfg : Config) (b : Board) :
    unrevealedCount cfg b ≤ cfg.rows * cfg.cols := by
  have := revealed_add_unrevealed cfg b
  omega

theorem foldlM_mono {σ β : Type} (g g2 : σ → β → Option σ)
    (h : ∀ st p st2, g st p = some st2 → g2 st p = some st2) (L : List β) (st st2 : σ)
    (hL : L.foldlM g st = some st2) : L.foldlM g2 st = some st2 := by
  induction L generalizing st with
  | nil => simpa using hL
  | cons p L ih =>
    simp only [List.foldlM_cons, Option.bind_eq_bind, Option.bind_eq_some] at hL ⊢
    obtain ⟨st1, h1, h2⟩ := hL
    exact ⟨st1, h _ _ _ h1, ih st1 h2⟩

/-- A larger recursion budget does not change a result that was reached. -/
theorem revealCellFuel_succ_of_some (cfg : Config) (fuel : Nat) :
    ∀ (st : Board × List Pos) (r c : Nat) (st2 : Board × List Pos),
      revealCellFuel cfg fuel st r c = some st2 →
      revealCellFuel cfg (fuel + 1) st r c = some st2 := by
  induction fuel with
  | zero => intro st r c st2 h; simp [revealCellFuel] at h
  | succ fuel ih =>
    intro st r c st2 h
    rw [revealCellFuel_succ] at h ⊢
    split at h
    · rename_i hg; rw [if_pos hg]; exact h
    · rename_i hg
      rw [if_neg hg]
      split at h
      · rename_i hn; rw [if_pos hn]; exact h
      · rename_i hn
        rw [if_neg hn]
        exact foldlM_mono _ _ (fun st p st2 hh => ih st p.1 p.2 st2 hh) _ _ _ h

theorem revealCellFuel_mono (cfg : Config) {fuel fuel2 : Nat} (hle : fuel ≤ fuel2)
    (st : Board × List Pos) (r c : Nat) (st2 : Board × List Pos)
    (h : revealCellFuel cfg fuel st r c = some st2) :
    revealCellFuel cfg fuel2 st r c = some st2 := by
  induction hle with
  | refl => exact h
  | step _ ih => exact revealCellFuel_succ_of_some cfg _ st r c st2 ih

theorem foldlM_total (cfg : Config) (fuel : Nat)
    (ih : ∀ (st : Board × List Pos) (p : Pos), WF cfg st.1 → inBounds cfg p →
      unrevealedCount cfg st.1 < fuel → ∃ st2, revealCellFuel cfg fuel st p.1 p.2 = some st2)
    (L : List Pos) (st : Board × List Pos) (hwf : WF cfg st.1)
    (hL : ∀ p ∈ L, inBounds cfg p) (hc : unrevealedCount cfg st.1 < fuel) :
    ∃ st2, L.foldlM (fun st2 p => revealCellFuel cfg fuel st2 p.1 p.2) st = some st2 := by
  induction L generalizing st with
  | nil => exact ⟨st, rfl⟩
  | cons p L ihL =>
    obtain ⟨st1, h1⟩ := ih st p hwf (hL p (List.mem_cons_self _ _)) hc
    obtain ⟨n1, _, p1⟩ := revealCellFuel_post cfg fuel st p st1 hwf
      (hL p (List.mem_cons_self _ _)) h1
    have hcount := p1.marked.unrevealedCount_add
    obtain ⟨st2, h2⟩ := ihL st1 p1.marked.wf (fun q hq => hL q (List.mem_cons_of_mem _ hq))
      (by omega)
    refine ⟨st2, ?_⟩
    simp only [List.foldlM_cons, Option.bind_eq_bind, Option.bind_eq_some]
    exact ⟨st1, h1, h2⟩

/-- The recursion returns as soon as the budget exceeds the number of unrevealed cells. -/
theorem revealCellFuel_total (cfg : Config) (fuel : Nat) :
    ∀ (st : Board × List Pos) (p : Pos), WF cfg st.1 → inBounds cfg p →
      unrevealedCount cfg st.1 < fuel → ∃ st2, revealCellFuel cfg fuel st p.1 p.2 = some st2 := by
  induction fuel with
  | zero => intro st p _ _ h; omega
  | succ fuel ih =>
    intro st p hwf hin hc
    obtain ⟨r, c⟩ := p
    rw [revealCellFuel_succ]
    simp only
    split
    · exact ⟨_, rfl⟩
    · rename_i hg
      split
      · exact ⟨_, rfl⟩
      · have ho : isOpen st.1 (r, c) = true := by
          simp only [Bool.or_eq_true, not_or, Bool.not_eq_true] at hg
          simp [isOpen, hg.1, hg.2]
        have hm := Marked.one hwf hin ho
        have hcount := hm.unrevealedCount_add
        simp only [List.length_singleton] at hcount
        exact foldlM_total cfg fuel ih (window cfg r c) _ hm.wf (window_inBounds cfg r c)
          (by simp only; omega)

/-! ## `calculateNeighbors` -/

theorem nested_foldl_product {α β γ : Type} (F : γ → α → β → γ) (L : List α) (M : List β)
    (init : γ) :
    L.foldl (fun acc r => M.foldl (fun acc c => F acc r c) acc) init
      = (List.product L M).foldl (fun acc p => F acc p.1 p.2) init := by
  induction L generalizing init with
  | nil => rfl
  | cons a L ih =>
    have hp : (a :: L).product M = M.map (Prod.mk a) ++ L.product M := List.product_cons a L M
    rw [List.foldl_cons, ih, hp, List.foldl_append, List.foldl_map]

theorem calculateNeighbors_eq (cfg : Config) (b : Board) :
    calculateNeighbors cfg b = (positions cfg).foldl (neighborStep cfg) b := by
  unfold calculateNeighbors positions
  rw [nested_foldl_product (fun (b : Board) r c =>
      if (cellAt b r c).isMine then b
      else modifyCell b r c (fun x => { x with neighborMines := countAround cfg b r c }))]
  rfl

theorem countAround_congr (cfg : Config) (b b2 : Board)
    (h : ∀ r c, (cellAt b2 r c).isMine = (cellAt b r c).isMine) (r c : Nat) :
    countAround cfg b2 r c = countAround cfg b r c := by
  rw [countAround_eq, countAround_eq]
  apply List.countP_congr
  intro x _
  rw [h]

theorem foldl_neighborStep (cfg : Config) (L : List Pos) :
    ∀ (b : Board), WF cfg b → L.Nodup → (∀ p ∈ L, inBounds cfg p) →
      WF cfg (L.foldl (neighborStep cfg) b) ∧
      ∀ r c, cellAt (L.foldl (neighborStep cfg) b) r c =
        if (r, c) ∈ L ∧ (cellAt b r c).isMine = false then
          { cellAt b r c with neighborMines := countAround cfg b r c }
        else cellAt b r c := by
  induction L with
  | nil => intro b h _ _; exact ⟨h, by simp⟩
  | cons p L ih =>
    intro b hwf hnd hin
    rw [List.nodup_cons] at hnd
    obtain ⟨pr, pc⟩ := p
    have hwf1 : WF cfg (neighborStep cfg b (pr, pc)) := by
      unfold neighborStep; split
      · exact hwf
      · exact WF_modifyCell hwf _ _ _
    have hc : hasCell b pr pc = true := (hwf.hasCell_iff pr pc).2 (hin _ (List.mem_cons_self _ _))
    have hcell : ∀ r c, cellAt (neighborStep cfg b (pr, pc)) r c =
        if (r, c) = (pr, pc) ∧ (cellAt b r c).isMine = false then
          { cellAt b r c with neighborMines := countAround cfg b r c }
        else cellAt b r c := by
      intro r c
      unfold neighborStep
      by_cases hm : (cellAt b pr pc).isMine = true
      · simp only [hm, if_true]
        by_cases he : (r, c) = (pr, pc)
        · simp only [Prod.mk.injEq] at he
          obtain ⟨rfl, rfl⟩ := he
          simp [hm]
        · simp [he]
      · simp only [hm, Bool.false_eq_true, if_false]
        rw [cellAt_modifyCell]
        by_cases he : (r, c) = (pr, pc)
        · simp only [Prod.mk.injEq] at he
          obtain ⟨rfl, rfl⟩ := he
          simp [hc, hm]
        · have : ¬ (r = pr ∧ c = pc ∧ hasCell b pr pc = true) := by
            intro h3; exact he (by simp [h3.1, h3.2.1])
          simp [he, this]
    have hmine : ∀ r c, (cellAt (neighborStep cfg b (pr, pc)) r c).isMine = (cellAt b r c).isMine := by
      intro r c; rw [hcell]; split <;> rfl
    obtain ⟨hwf2, h2⟩ := ih _ hwf1 hnd.2 (fun q hq => hin q (List.mem_cons_of_mem _ hq))
    refine ⟨hwf2, ?_⟩
    intro r c
    rw [List.foldl_cons, h2, hmine, countAround_congr cfg b _ hmine, hcell]
    by_cases he : (r, c) = (pr, pc)
    · have hnot : (r, c) ∉ L := by rw [he]; exact hnd.1
      by_cases hm : (cellAt b r c).isMine = false <;> simp [he, hnot, hm]
    · by_cases hl : (r, c) ∈ L <;>
        by_cases hm : (cellAt b r c).isMine = false <;> simp [he, hl, hm]

theorem calculateNeighbors_wf {cfg : Config} {b : Board} (h : WF cfg b) :
    WF cfg (calculateNeighbors cfg b) := by
  rw [calculateNeighbors_eq]
  exact (foldl_neighborStep cfg _ b h (nodup_positions cfg)
    (fun p hp => (mem_positions cfg p).1 hp)).1

theorem cellAt_calculateNeighbors {cfg : Config} {b : Board} (h : WF cfg b) (r c : Nat) :
    cellAt (calculateNeighbors cfg b) r c =
      if inBounds cfg (r, c) ∧ (cellAt b r c).isMine = false then
        { cellAt b r c with neighborMines := countAround cfg b r c }
      else cellAt b r c := by
  rw [calculateNeighbors_eq, (foldl_neighborStep cfg _ b h (nodup_positions cfg)
    (fun p hp => (mem_positions cfg p).1 hp)).2 r c]
  simp only [mem_positions, inBounds]

theorem countAround_eq_mineNeighbours (cfg : Config) (b : Board) (r c : Nat)
    (hm : (cellAt b r c).isMine = false) :
    countAround cfg b r c = mineNeighbours cfg b r c := by
  rw [countAround_eq, List.countP_eq_length_filter]
  unfold mineNeighbours
  apply List.Perm.length_eq
  rw [List.perm_ext_iff_of_nodup ((nodup_window cfg r c).filter _)
    ((nodup_positions cfg).filter _)]
  intro p
  simp only [List.mem_filter, mem_window, mem_positions, near, Bool.and_eq_true,
    decide_eq_true_eq]
  constructor
  · rintro ⟨⟨h1, h2, h3, h4⟩, h5⟩
    refine ⟨⟨h1, h2⟩, ⟨?_, h3, h4⟩, h5⟩
    intro he; subst he
    rw [hm] at h5; exact absurd h5 (by simp)
  · rintro ⟨⟨h1, h2⟩, ⟨_, h3, h4⟩, h5⟩
    exact ⟨⟨h1, h2, h3, h4⟩, h5⟩

theorem length_window_le (cfg : Config) (r c : Nat) : (window cfg r c).length ≤ 9 := by
  unfold window
  exact (List.length_filterMap_le _ _).trans (by decide)

theorem countAround_le_eight (cfg : Config) (b : Board) (r c : Nat)
    (hin : inBounds cfg (r, c)) (hm : (cellAt b r c).isMine = false) :
    countAround cfg b r c ≤ 8 := by
  rw [countAround_eq]
  have hlen := length_window_le cfg r c
  have hsplit := List.length_eq_countP_add_countP (fun p : Pos => (cellAt b p.1 p.2).isMine)
    (window cfg r c)
  have hself : (r, c) ∈ window cfg r c := by
    rw [mem_window]; exact ⟨hin.1, hin.2, by simp, by simp⟩
  have hpos : 0 < List.countP (fun p : Pos => ¬ (cellAt b p.1 p.2).isMine = true)
      (window cfg r c) := by
    rw [List.countP_pos_iff]
    exact ⟨(r, c), hself, by simp [hm]⟩
  omega

/-! ## `placeMines` -/

theorem Mined.none_added {cfg : Config} {b : Board} (h : WF cfg b) (er ec : Nat) :
    Mined cfg er ec b b :=
  ⟨h, fun _ _ => rfl, fun _ _ h => h, fun r c h1 h2 => by rw [h1] at h2; exact absurd h2 (by simp)⟩

theorem Mined.chain {cfg : Config} {er ec : Nat} {b b1 b2 : Board}
    (h1 : Mined cfg er ec b b1) (h2 : Mined cfg er ec b1 b2) : Mined cfg er ec b b2 := by
  refine ⟨h2.wf, ?_, fun r c h => h2.mono r c (h1.mono r c h), ?_⟩
  · intro r c
    rw [h2.frame r c, h1.frame r c]
  · intro r c h3 h4
    by_cases hm : (cellAt b1 r c).isMine = true
    · exact h1.outside r c hm h4
    · exact h2.outside r c h3 (by simpa using hm)

theorem Mined.one_added {cfg : Config} {b : Board} (h : WF cfg b) (er ec r c : Nat)
    (hex : excluded er ec r c = false) :
    Mined cfg er ec b (modifyCell b r c (fun x => { x with isMine := true })) := by
  refine ⟨WF_modifyCell h _ _ _, ?_, ?_, ?_⟩
  · intro r2 c2
    rw [cellAt_modifyCell]; split
    · rename_i he; rw [he.1, he.2.1]
    · rfl
  · intro r2 c2 hm
    rw [cellAt_modifyCell]; split
    · rfl
    · exact hm
  · intro r2 c2 h1 h2
    rw [cellAt_modifyCell] at h1
    split at h1
    · rename_i he
      rw [he.1, he.2.1]; exact hex
    · rw [h1] at h2; exact absurd h2 (by simp)

theorem mineCount_modifyCell {cfg : Config} {b : Board} (h : WF cfg b) (r c : Nat)
    (hin : inBounds cfg (r, c)) (hm : (cellAt b r c).isMine = false) :
    mineCount cfg (modifyCell b r c (fun x => { x with isMine := true })) = mineCount cfg b + 1 := by
  unfold mineCount
  rw [countGrid_eq, countGrid_eq]
  have hc : hasCell b r c = true := (h.hasCell_iff r c).2 hin
  apply countP_flip_true (positions cfg) (nodup_positions cfg) (r, c)
    ((mem_positions cfg _).2 hin)
  · exact hm
  · rw [cellAt_modifyCell]; simp [hc]
  · intro x hx
    rw [cellAt_modifyCell]
    have : ¬ (x.1 = r ∧ x.2 = c ∧ hasCell b r c = true) := by
      intro h3; apply hx; ext
      · exact h3.1
      · exact h3.2.1
    rw [if_neg this]

/-- The loop of `placeMines`: what holds when it exits. -/
theorem placeMinesLoop_spec (cfg : Config) (er ec : Nat) (draws : List Pos) :
    ∀ (b : Board) (placed : Nat) (b2 : Board) (placed2 : Nat), WF cfg b →
      placeMinesLoop cfg er ec draws b placed = some (b2, placed2) →
      Mined cfg er ec b b2 ∧ cfg.mines ≤ placed2 ∧ (placed ≤ cfg.mines → placed2 = cfg.mines) ∧
      (drawsValid cfg draws → placed2 + mineCount cfg b = placed + mineCount cfg b2) := by
  induction draws with
  | nil =>
    intro b placed b2 placed2 hwf h
    simp only [placeMinesLoop] at h
    split at h
    · simp at h
    · rename_i hlt
      simp only [Option.some.injEq, Prod.mk.injEq] at h
      obtain ⟨rfl, rfl⟩ := h
      exact ⟨Mined.none_added hwf _ _, by omega, by omega, fun _ => by omega⟩
  | cons d rest ih =>
    intro b placed b2 placed2 hwf h
    obtain ⟨r, c⟩ := d
    simp only [placeMinesLoop] at h
    have hv : drawsValid cfg ((r, c) :: rest) → drawsValid cfg rest :=
      fun hd q hq => hd q (List.mem_cons_of_mem _ hq)
    split at h
    · rename_i hlt
      split at h
      · obtain ⟨m, h1, h2, h3⟩ := ih b placed b2 placed2 hwf h
        exact ⟨m, h1, h2, fun hd => h3 (hv hd)⟩
      · rename_i hex
        split at h
        · rename_i hnm
          have hnm2 : (cellAt b r c).isMine = false := by simpa using hnm
          have hex2 : excluded er ec r c = false := by simpa using hex
          have hs := Mined.one_added hwf er ec r c hex2
          obtain ⟨m, h1, h2, h3⟩ := ih _ (placed + 1) b2 placed2 hs.wf h
          refine ⟨hs.chain m, h1, fun _ => h2 (by omega), fun hd => ?_⟩
          have hin : inBounds cfg (r, c) := hd (r, c) (List.mem_cons_self _ _)
          have := h3 (hv hd)
          rw [mineCount_modifyCell hwf r c hin hnm2] at this
          omega
        · obtain ⟨m, h1, h2, h3⟩ := ih b placed b2 placed2 hwf h
          exact ⟨m, h1, h2, fun hd => h3 (hv hd)⟩
    · rename_i hlt
      simp only [Option.some.injEq, Prod.mk.injEq] at h
      obtain ⟨rfl, rfl⟩ := h
      exact ⟨Mined.none_added hwf _ _, by omega, by omega, fun _ => by omega⟩

/-! ## The handlers, case by case -/

@[simp] theorem gameOver_board (s : State) (w : Bool) : (gameOver s w).board = s.board := by
  unfold gameOver; split <;> rfl

@[simp] theorem gameOver_config (s : State) (w : Bool) : (gameOver s w).config = s.config := by
  unfold gameOver; split <;> rfl

@[simp] theorem gameOver_minesLeft (s : State) (w : Bool) :
    (gameOver s w).minesLeft = s.minesLeft := by
  unfold gameOver; split <;> rfl

@[simp] theorem gameOver_firstClick (s : State) (w : Bool) :
    (gameOver s w).firstClick = s.firstClick := by
  unfold gameOver; split <;> rfl

@[simp] theorem gameOver_gameActive (s : State) (w : Bool) :
    (gameOver s w).gameActive = false := by
  unfold gameOver; split <;> rfl

@[simp] theorem checkWin_board (s : State) : (checkWin s).board = s.board := by
  unfold checkWin; split <;> simp

@[simp] theorem checkWin_config (s : State) : (checkWin s).config = s.config := by
  unfold checkWin; split <;> simp

@[simp] theorem checkWin_minesLeft (s : State) : (checkWin s).minesLeft = s.minesLeft := by
  unfold checkWin; split <;> simp

@[simp] theorem checkWin_firstClick (s : State) : (checkWin s).firstClick = s.firstClick := by
  unfold checkWin; split <;> simp

theorem cellAt_fresh (rows cols r c : Nat) :
    cellAt ((List.range rows).map (fun r => (List.range cols).map (fun c => blankCell r c))) r c
      = blankCell r c := by
  unfold cellAt
  simp only [List.getD_eq_getElem?_getD, List.getElem?_map]
  by_cases hr : r < rows
  · rw [List.getElem?_range hr]
    simp only [Option.map_some', Option.getD_some, List.getElem?_map]
    by_cases hc : c < cols
    · rw [List.getElem?_range hc]; rfl
    · have hn : (List.range cols)[c]? = none := List.getElem?_eq_none (by simpa using hc)
      rw [hn]; rfl
  · have hn : (List.range rows)[r]? = none := List.getElem?_eq_none (by simpa using hr)
    rw [hn]; rfl

theorem wf_fresh (cfg : Config) :
    WF cfg ((List.range cfg.rows).map (fun r => (List.range cfg.cols).map (fun c => blankCell r c)))
    := by
  refine ⟨by simp, ?_⟩
  intro row hrow
  simp only [List.mem_map, List.mem_range] at hrow
  obtain ⟨r, _, rfl⟩ := hrow
  simp

theorem resetGame_board (s : State) :
    (resetGame s).board =
      (List.range s.config.rows).map (fun r =>
        (List.range s.config.cols).map (fun c => blankCell r c)) := by
  simp [resetGame, createBoard]

theorem resetGame_config (s : State) : (resetGame s).config = s.config := rfl

theorem cellAt_resetGame (s : State) (r c : Nat) :
    cellAt (resetGame s).board r c = blankCell r c := by
  rw [resetGame_board, cellAt_fresh]

theorem placeMines_some {s s1 : State} {er ec : Nat} {draws : List Pos}
    (h : placeMines s er ec draws = some s1) :
    ∃ b2 placed2, placeMinesLoop s.config er ec draws s.board 0 = some (b2, placed2) ∧
      s1 = { s with board := calculateNeighbors s.config b2 } := by
  unfold placeMines at h
  simp only [Option.map_eq_some'] at h
  obtain ⟨⟨b2, placed2⟩, h1, h2⟩ := h
  exact ⟨b2, placed2, h1, h2.symm⟩

theorem revealCell_some {cfg : Config} {b : Board} {r c : Nat} {res : Board × List Pos}
    (hwf : WF cfg b) (hin : inBounds cfg (r, c)) (h : revealCell cfg b r c = some res) :
    FillPost cfg b [(r, c)] res.2 res.1 := by
  obtain ⟨new, e, post⟩ := revealCellFuel_post cfg _ (b, []) (r, c) res hwf hin h
  simp only [List.nil_append] at e
  rw [e]; exact post

theorem revealCell_total {cfg : Config} {b : Board} (hwf : WF cfg b) {r c : Nat}
    (hin : inBounds cfg (r, c)) : ∃ res, revealCell cfg b r c = some res :=
  revealCellFuel_total cfg _ (b, []) (r, c) hwf hin
    (Nat.lt_succ_of_le (unrevealedCount_le cfg b))

/-- The paths through `handleLeftClick` that return. -/
theorem handleLeftClick_cases {s s2 : State} {r c : Nat} {draws : List Pos}
    (h : handleLeftClick s r c draws = Except.ok s2) :
    (s2 = s ∧ (s.gameActive = false ∨ isOpen s.board (r, c) = false)) ∨
    (s.gameActive = true ∧ hasCell s.board r c = true ∧ isOpen s.board (r, c) = true ∧
      ∃ s1, ((s.firstClick = true ∧
            placeMines { s with firstClick := false, timerRunning := true } r c draws = some s1) ∨
          (s.firstClick = false ∧ s1 = s)) ∧
        (((cellAt s1.board r c).isMine = true ∧ s2 = gameOver s1 false) ∨
          ((cellAt s1.board r c).isMine = false ∧
            ∃ res, revealCell s1.config s1.board r c = some res ∧
              s2 = checkWin { s1 with board := res.1 }))) := by
  unfold handleLeftClick at h
  split at h
  · rename_i ha
    left
    simp only [Except.ok.injEq] at h
    exact ⟨h.symm, Or.inl (by simpa using ha)⟩
  · rename_i ha
    split at h
    · cases h
    · rename_i hc
      split at h
      · rename_i hg
        left
        simp only [Except.ok.injEq] at h
        refine ⟨h.symm, Or.inr ?_⟩
        simp only [isOpen]
        cases hr : (cellAt s.board r c).isRevealed <;>
          cases hf : (cellAt s.board r c).isFlagged <;> simp_all
      · rename_i hg
        right
        refine ⟨by simpa using ha, by simpa using hc, ?_, ?_⟩
        · simp only [isOpen]
          cases hr : (cellAt s.board r c).isRevealed <;>
            cases hf : (cellAt s.board r c).isFlagged <;> simp_all
        · simp only at h
          split at h
          · cases h
          · rename_i s1 hp
            refine ⟨s1, ?_, ?_⟩
            · by_cases hfc : s.firstClick = true
              · left; rw [if_pos hfc] at hp; exact ⟨hfc, hp⟩
              · right
                rw [if_neg hfc] at hp
                simp only [Option.some.injEq] at hp
                exact ⟨by simpa using hfc, hp.symm⟩
            · split at h
              · rename_i hm
                left
                simp only [Except.ok.injEq] at h
                exact ⟨hm, h.symm⟩
              · rename_i hm
                right
                refine ⟨by simpa using hm, ?_⟩
                split at h
                · cases h
                · rename_i res hres
                  simp only [Except.ok.injEq] at h
                  exact ⟨res, hres, h.symm⟩

/-- The paths through `handleRightClick` that return. -/
theorem handleRightClick_cases {s s2 : State} {r c : Nat}
    (h : handleRightClick s r c = Except.ok s2) :
    (s2 = s ∧ (s.gameActive = false ∨ (cellAt s.board r c).isRevealed = true)) ∨
    (s.gameActive = true ∧ hasCell s.board r c = true ∧
      (cellAt s.board r c).isRevealed = false ∧
      s2 = { s with
        board := modifyCell s.board r c
          (fun x => { x with isFlagged := !(cellAt s.board r c).isFlagged }),
        minesLeft := s.minesLeft + (if !(cellAt s.board r c).isFlagged then -1 else 1) }) := by
  unfold handleRightClick at h
  split at h
  · rename_i ha
    left
    simp only [Except.ok.injEq] at h
    exact ⟨h.symm, Or.inl (by simpa using ha)⟩
  · rename_i ha
    split at h
    · cases h
    · rename_i hc
      split at h
      · rename_i hr
        left
        simp only [Except.ok.injEq] at h
        exact ⟨h.symm, Or.inr hr⟩
      · rename_i hr
        right
        simp only [Except.ok.injEq] at h
        exact ⟨by simpa using ha, by simpa using hc, by simpa using hr, h.symm⟩

/-! ## Preservation of the session invariant -/

theorem countGrid_congr (cfg : Config) (b b2 : Board) (p : Cell → Bool)
    (h : ∀ r c, p (cellAt b2 r c) = p (cellAt b r c)) : countGrid cfg b2 p = countGrid cfg b p := by
  rw [countGrid_eq, countGrid_eq]
  apply List.countP_congr
  intro x _
  rw [h]

theorem countGrid_zero (cfg : Config) (b : Board) (p : Cell → Bool)
    (h : ∀ r c, p (cellAt b r c) = false) : countGrid cfg b p = 0 := by
  rw [countGrid_eq, List.countP_eq_zero]
  intro x _
  simp [h]

theorem isOpen_eq_true_iff (b : Board) (p : Pos) :
    isOpen b p = true ↔
      (cellAt b p.1 p.2).isRevealed = false ∧ (cellAt b p.1 p.2).isFlagged = false := by
  simp [isOpen]

theorem inv_resetGame (s0 : State) : Inv (resetGame s0) := by
  refine ⟨?_, ?_, ?_, ?_, ?_⟩
  · rw [resetGame_board]; exact wf_fresh _
  · have : flagCount (resetGame s0).config (resetGame s0).board = 0 :=
      countGrid_zero _ _ _ (fun r c => by rw [cellAt_resetGame]; rfl)
    rw [this]; simp [resetGame, createBoard]
  · intro r c; rw [cellAt_resetGame]; intro h; cases h
  · intro _
    refine ⟨rfl, fun r c => ?_⟩
    rw [cellAt_resetGame]; exact ⟨rfl, rfl, rfl⟩
  · intro h; cases h

/-- The effect of `placeMines` on the board of a fresh session. -/
theorem placeMines_effect {s s1 : State} {er ec : Nat} {draws : List Pos}
    (hwf : WF s.config s.board) (h : placeMines s er ec draws = some s1) :
    s1.config = s.config ∧ s1.gameActive = s.gameActive ∧ s1.firstClick = s.firstClick ∧
    s1.minesLeft = s.minesLeft ∧ s1.gameMessage = s.gameMessage ∧
    s1.mineReveal = s.mineReveal ∧ WF s.config s1.board ∧
    (∀ r c, (cellAt s1.board r c).isFlagged = (cellAt s.board r c).isFlagged) ∧
    (∀ r c, (cellAt s1.board r c).isRevealed = (cellAt s.board r c).isRevealed) ∧
    (∀ r c, (cellAt s.board r c).isMine = true → (cellAt s1.board r c).isMine = true) ∧
    (∀ r c, (cellAt s1.board r c).isMine = true → (cellAt s.board r c).isMine = false →
      excluded er ec r c = false) ∧
    (drawsValid s.config draws → mineCount s.config s.board = 0 →
      mineCount s.config s1.board = s.config.mines) := by
  obtain ⟨b2, placed2, hl, rfl⟩ := placeMines_some h
  obtain ⟨hm, _, hp, hcount⟩ := placeMinesLoop_spec _ _ _ _ _ _ _ _ hwf hl
  have hcalc := fun r c => cellAt_calculateNeighbors hm.wf r c
  have hmine : ∀ r c, (cellAt (calculateNeighbors s.config b2) r c).isMine
      = (cellAt b2 r c).isMine := by
    intro r c; rw [hcalc]; split <;> rfl
  refine ⟨rfl, rfl, rfl, rfl, rfl, rfl, calculateNeighbors_wf hm.wf, ?_, ?_, ?_, ?_, ?_⟩
  · intro r c
    simp only
    rw [hcalc, hm.frame r c]; split <;> rfl
  · intro r c
    simp only
    rw [hcalc, hm.frame r c]; split <;> rfl
  · intro r c h1
    simp only
    rw [hmine]; exact hm.mono r c h1
  · intro r c h1 h2
    simp only at h1
    rw [hmine] at h1
    exact hm.outside r c h1 h2
  · intro hd h0
    simp only
    have e1 : mineCount s.config (calculateNeighbors s.config b2) = mineCount s.config b2 :=
      countGrid_congr _ _ _ _ hmine
    have e2 := hcount hd
    have e3 := hp (Nat.zero_le _)
    rw [e1]; omega

theorem Inv.of_placeMines {s s1 : State} {r c : Nat} {draws : List Pos} (hi : Inv s)
    (hf : s.firstClick = true) (hd : drawsValid s.config draws)
    (h : placeMines { s with firstClick := false, timerRunning := true } r c draws = some s1) :
    Inv s1 ∧ s1.firstClick = false ∧ s1.gameActive = true ∧ s1.config = s.config := by
  have hwf2 : WF ({ s with firstClick := false, timerRunning := true } : State).config
      ({ s with firstClick := false, timerRunning := true } : State).board := hi.wf
  obtain ⟨h1, h2, h3, h4, _, _, h5, h6, h7, _, _, h8⟩ := placeMines_effect hwf2 h
  simp only at h1 h2 h3 h4 h5 h6 h7 h8
  have hfresh := hi.fresh hf
  refine ⟨⟨by rw [h1]; exact h5, ?_, ?_, ?_, ?_⟩, h3, by rw [h2]; exact hfresh.1, h1⟩
  · rw [h4, h1, hi.minesLeft]
    have : flagCount s.config s1.board = flagCount s.config s.board :=
      countGrid_congr _ _ _ _ h6
    rw [this]
  · intro r2 c2
    rw [h6, h7]; exact hi.excl r2 c2
  · intro hh; rw [h3] at hh; cases hh
  · intro _
    rw [h1]
    exact h8 hd (countGrid_zero _ _ _ (fun r2 c2 => (hfresh.2 r2 c2).1))

theorem Inv.of_gameOver {s : State} (hi : Inv s) (hf : s.firstClick = false) (w : Bool) :
    Inv (gameOver s w) := by
  refine ⟨?_, ?_, ?_, ?_, ?_⟩
  · simpa using hi.wf
  · simpa using hi.minesLeft
  · simpa using hi.excl
  · intro hh; simp [hf] at hh
  · intro _; simpa using hi.placed hf

theorem Inv.of_checkWin {s : State} (hi : Inv s) (hf : s.firstClick = false) :
    Inv (checkWin s) := by
  unfold checkWin; split
  · exact hi.of_gameOver hf true
  · exact hi

theorem Inv.of_marked {s : State} {new : List Pos} {b2 : Board} (hi : Inv s)
    (hf : s.firstClick = false) (hm : Marked s.config s.board new b2) :
    Inv { s with board := b2 } := by
  refine ⟨hm.wf, ?_, ?_, ?_, ?_⟩
  · have : flagCount s.config b2 = flagCount s.config s.board :=
      countGrid_congr _ _ _ _ hm.isFlagged_eq
    simp only [this]; exact hi.minesLeft
  · intro r c hfl
    simp only at hfl ⊢
    rw [hm.isFlagged_eq] at hfl
    by_contra hrev
    have hrev2 : (cellAt b2 r c).isRevealed = true := by simpa using hrev
    rcases (hm.isRevealed_iff r c).1 hrev2 with h1 | h1
    · rw [hi.excl r c hfl] at h1; cases h1
    · have := ((isOpen_eq_true_iff _ _).1 (hm.fresh _ h1).2).2
      simp only at this
      rw [hfl] at this; cases this
  · intro hh; simp only at hh; rw [hf] at hh; cases hh
  · intro _
    have : mineCount s.config b2 = mineCount s.config s.board :=
      countGrid_congr _ _ _ _ hm.isMine_eq
    simp only [this]; exact hi.placed hf

theorem Inv.of_handleLeftClick {s s2 : State} {r c : Nat} {draws : List Pos} (hi : Inv s)
    (hd : drawsValid s.config draws) (h : handleLeftClick s r c draws = Except.ok s2) :
    Inv s2 := by
  rcases handleLeftClick_cases h with ⟨rfl, _⟩ | ⟨ha, hc, ho, s1, hs1, hrest⟩
  · exact hi
  · have hin : inBounds s.config (r, c) := (hi.wf.hasCell_iff r c).1 hc
    have h1 : Inv s1 ∧ s1.firstClick = false ∧ s1.config = s.config := by
      rcases hs1 with ⟨hf, hp⟩ | ⟨hf, rfl⟩
      · obtain ⟨a, b, _, d⟩ := hi.of_placeMines hf hd hp
        exact ⟨a, b, d⟩
      · exact ⟨hi, hf, rfl⟩
    obtain ⟨hi1, hf1, hcfg⟩ := h1
    rcases hrest with ⟨_, rfl⟩ | ⟨_, res, hres, rfl⟩
    · exact hi1.of_gameOver hf1 false
    · have post := revealCell_some hi1.wf (by rw [hcfg]; exact hin) hres
      exact (hi1.of_marked hf1 post.marked).of_checkWin hf1

theorem flagCount_toggle {cfg : Config} {b : Board} (h : WF cfg b) (r c : Nat)
    (hin : inBounds cfg (r, c)) :
    (flagCount cfg (modifyCell b r c
        (fun x => { x with isFlagged := !(cellAt b r c).isFlagged })) : Int)
      = flagCount cfg b + (if !(cellAt b r c).isFlagged then 1 else -1) := by
  have hc : hasCell b r c = true := (h.hasCell_iff r c).2 hin
  have hother : ∀ x : Pos, x ≠ (r, c) →
      cellAt (modifyCell b r c (fun x => { x with isFlagged := !(cellAt b r c).isFlagged }))
        x.1 x.2 = cellAt b x.1 x.2 := by
    intro x hx
    rw [cellAt_modifyCell]
    have : ¬ (x.1 = r ∧ x.2 = c ∧ hasCell b r c = true) := by
      intro h3; apply hx; ext
      · exact h3.1
      · exact h3.2.1
    rw [if_neg this]
  have hself : (cellAt (modifyCell b r c
      (fun x => { x with isFlagged := !(cellAt b r c).isFlagged })) r c).isFlagged
      = !(cellAt b r c).isFlagged := by
    rw [cellAt_modifyCell]; simp [hc]
  unfold flagCount
  rw [countGrid_eq, countGrid_eq]
  cases hfl : (cellAt b r c).isFlagged
  · have := countP_flip_true (positions cfg) (nodup_positions cfg) (r, c)
      ((mem_positions cfg _).2 hin) (fun q => (cellAt b q.1 q.2).isFlagged)
      (fun q => (cellAt (modifyCell b r c
        (fun x => { x with isFlagged := !(cellAt b r c).isFlagged })) q.1 q.2).isFlagged)
      hfl (by simp only; rw [hself, hfl]; rfl) (fun x hx => by simp only; rw [hother x hx])
    rw [hfl] at this
    rw [this]; simp
  · have := countP_flip_true (positions cfg) (nodup_positions cfg) (r, c)
      ((mem_positions cfg _).2 hin)
      (fun q => (cellAt (modifyCell b r c
        (fun x => { x with isFlagged := !(cellAt b r c).isFlagged })) q.1 q.2).isFlagged)
      (fun q => (cellAt b q.1 q.2).isFlagged)
      (by simp only; rw [hself, hfl]; rfl) hfl (fun x hx => by simp only; rw [hother x hx])
    rw [hfl] at this
    rw [this]; simp

theorem Inv.of_handleRightClick {s s2 : State} {r c : Nat} (hi : Inv s)
    (h : handleRightClick s r c = Except.ok s2) : Inv s2 := by
  rcases handleRightClick_cases h with ⟨rfl, _⟩ | ⟨ha, hc, hr, rfl⟩
  · exact hi
  · have hin : inBounds s.config (r, c) := (hi.wf.hasCell_iff r c).1 hc
    have hcell : ∀ r2 c2, cellAt (modifyCell s.board r c
        (fun x => { x with isFlagged := !(cellAt s.board r c).isFlagged })) r2 c2 =
        if r2 = r ∧ c2 = c then
          { cellAt s.board r c with isFlagged := !(cellAt s.board r c).isFlagged }
        else cellAt s.board r2 c2 := by
      intro r2 c2
      rw [cellAt_modifyCell]
      simp [hc]
    refine ⟨WF_modifyCell hi.wf _ _ _, ?_, ?_, ?_, ?_⟩
    · simp only
      rw [flagCount_toggle hi.wf r c hin, hi.minesLeft]
      cases (cellAt s.board r c).isFlagged <;> simp <;> omega
    · intro r2 c2
      simp only
      rw [hcell]
      split
      · rename_i he
        intro _
        simp only
        exact hr
      · exact hi.excl r2 c2
    · intro hf
      simp only at hf ⊢
      refine ⟨ha, fun r2 c2 => ?_⟩
      rw [hcell]
      split
      · exact (hi.fresh hf).2 r c
      · exact (hi.fresh hf).2 r2 c2
    · intro hf
      simp only at hf ⊢
      have : mineCount s.config (modifyCell s.board r c
          (fun x => { x with isFlagged := !(cellAt s.board r c).isFlagged }))
          = mineCount s.config s.board := by
        apply countGrid_congr
        intro r2 c2
        rw [hcell]; split
        · rename_i he; rw [he.1, he.2]
        · rfl
      rw [this]; exact hi.placed hf

theorem step_config {s s2 : State} {cmd : Command} (h : step s cmd = Except.ok s2) :
    s2.config = s.config := by
  cases cmd with
  | reveal r c draws =>
    rcases handleLeftClick_cases h with ⟨rfl, _⟩ | ⟨_, _, _, s1, hs1, hrest⟩
    · rfl
    · have h1 : s1.config = s.config := by
        rcases hs1 with ⟨_, hp⟩ | ⟨_, rfl⟩
        · obtain ⟨b2, p2, _, rfl⟩ := placeMines_some hp; rfl
        · rfl
      rcases hrest with ⟨_, rfl⟩ | ⟨_, res, _, rfl⟩
      · simp [h1]
      · simp [h1]
  | toggleFlag r c =>
    rcases handleRightClick_cases h with ⟨rfl, _⟩ | ⟨_, _, _, rfl⟩ <;> rfl

/-- Every reachable state satisfies the session invariant. -/
theorem Reachable.inv {s : State} (h : Reachable s) : Inv s := by
  induction h with
  | reset s0 => exact inv_resetGame s0
  | step cmd _ hv hs ih =>
    cases cmd with
    | reveal r c draws => exact ih.of_handleLeftClick hv hs
    | toggleFlag r c => exact ih.of_handleRightClick hs

/-! ## The demo session -/

theorem reachable_demoFresh : Reachable demoFresh := Reachable.reset _

theorem reachable_demoFlagged : Reachable demoFlagged :=
  Reachable.step (Command.toggleFlag 0 4) reachable_demoFresh trivial rfl

theorem demoDraws_valid : drawsValid demoConfig demoDraws := by
  intro d hd
  simp only [demoDraws, List.mem_cons, List.mem_singleton, List.not_mem_nil, or_false] at hd
  rcases hd with rfl | rfl <;> decide

theorem reachable_demoPlayed : Reachable demoPlayed :=
  Reachable.step (Command.reveal 0 0 demoDraws) reachable_demoFlagged demoDraws_valid rfl

theorem reachable_demoLost : Reachable demoLost :=
  Reachable.step (Command.reveal 0 3 []) reachable_demoPlayed (by intro d hd; cases hd) rfl

theorem reachable_demoUnflagged : Reachable demoUnflagged :=
  Reachable.step (Command.toggleFlag 0 4) reachable_demoPlayed trivial rfl

theorem reachable_demoWon : Reachable demoWon :=
  Reachable.step (Command.reveal 0 4 []) reachable_demoUnflagged (by intro d hd; cases hd) rfl

theorem reachable_stripFresh : Reachable stripFresh := Reachable.reset _

theorem stripDraws_valid : drawsValid stripConfig [(0, 3)] := by
  intro d hd
  rw [List.mem_singleton] at hd
  subst hd
  decide

theorem reachable_stripFlagged : Reachable stripFlagged :=
  Reachable.step (Command.toggleFlag 0 1) reachable_stripFresh trivial rfl

theorem reachable_stripPlayed : Reachable stripPlayed :=
  Reachable.step (Command.reveal 0 5 [(0, 3)]) reachable_stripFlagged stripDraws_valid rfl

theorem reachable_stripOpened : Reachable stripOpened :=
  Reachable.step (Command.reveal 0 0 [(0, 3)]) reachable_stripFresh stripDraws_valid rfl

theorem reachable_stripBlocked : Reachable stripBlocked :=
  Reachable.step (Command.toggleFlag 0 3)
    (Reachable.step (Command.toggleFlag 0 1)
      (Reachable.step (Command.reveal 0 2 [(0, 5)])
        (Reachable.step (Command.toggleFlag 0 3) reachable_stripFlagged trivial rfl)
        (by intro d hd; rw [List.mem_singleton] at hd; subst hd; decide) rfl)
      trivial rfl)
    trivial rfl

theorem reachable_demoOverflagged : Reachable demoOverflagged :=
  Reachable.step (Command.toggleFlag 0 3) reachable_demoFlagged trivial rfl

/-! ## Writing a cell twice -/

theorem modify_fixed {α : Type} (f : α → α) (n : Nat) (l : List α)
    (h : ∀ x, l[n]? = some x → f x = x) : List.modify f n l = l := by
  apply List.ext_getElem?
  intro m
  rw [List.getElem?_modify]
  by_cases hnm : n = m
  · subst hnm
    cases hx : l[n]? with
    | none => simp
    | some x => simp [h x hx]
  · cases hx : l[m]? <;> simp [hnm]

theorem modifyCell_fixed (b : Board) (r c : Nat) (f : Cell → Cell)
    (h : hasCell b r c = true → f (cellAt b r c) = cellAt b r c) : modifyCell b r c f = b := by
  unfold modifyCell
  apply modify_fixed
  intro row hrow
  apply modify_fixed
  intro x hx
  have hr : r < b.length := by
    by_contra hn
    rw [List.getElem?_eq_none (by omega)] at hrow
    cases hrow
  have hc : c < row.length := by
    by_contra hn
    rw [List.getElem?_eq_none (by omega)] at hx
    cases hx
  have hrow2 : b.getD r [] = row := by
    simp [List.getD_eq_getElem?_getD, hrow]
  have hcell : cellAt b r c = x := by
    unfold cellAt
    rw [hrow2]
    simp [List.getD_eq_getElem?_getD, hx]
  have hhas : hasCell b r c = true := by
    rw [hasCell_eq_true_iff, hrow2]; exact ⟨hr, hc⟩
  rw [← hcell]; exact h hhas

theorem modifyCell_modifyCell (b : Board) (r c : Nat) (f g : Cell → Cell) :
    modifyCell (modifyCell b r c f) r c g = modifyCell b r c (g ∘ f) := by
  unfold modifyCell
  rw [List.modify_modify_eq]
  congr 1
  funext row
  simp only [Function.comp]
  rw [List.modify_modify_eq]

/-! ## Phases -/

theorem phase_won_iff (s : State) :
    phase s = Phase.won ↔ s.gameActive = false ∧ s.gameMessage = Message.victory := by
  unfold phase
  cases s.gameActive <;> cases s.firstClick <;> cases s.gameMessage <;> simp

theorem phase_lost_iff (s : State) :
    phase s = Phase.lost ↔ s.gameActive = false ∧ s.gameMessage = Message.defeat := by
  unfold phase
  cases s.gameActive <;> cases s.firstClick <;> cases s.gameMessage <;> simp

/-! ## The first click -/

theorem excluded_eq_true_iff (er ec r c : Nat) :
    excluded er ec r c = true ↔ near (r, c) (er, ec) := by
  simp [excluded, near]

theorem countAround_zero_of_safe (cfg : Config) (b : Board) (r c : Nat)
    (h : ∀ p ∈ window cfg r c, (cellAt b p.1 p.2).isMine = false) : countAround cfg b r c = 0 := by
  rw [countAround_eq, List.countP_eq_zero]
  intro p hp
  simp [h p hp]

/-- The values of `neighborMines` that `placeMines` leaves. -/
theorem placeMines_counts {s s1 : State} {er ec : Nat} {draws : List Pos}
    (hwf : WF s.config s.board) (h : placeMines s er ec draws = some s1) (r c : Nat) :
    (cellAt s1.board r c).neighborMines =
      if inBounds s.config (r, c) ∧ (cellAt s1.board r c).isMine = false then
        countAround s.config s1.board r c
      else (cellAt s.board r c).neighborMines := by
  obtain ⟨b2, placed2, hl, rfl⟩ := placeMines_some h
  obtain ⟨hm, _, _, _⟩ := placeMinesLoop_spec _ _ _ _ _ _ _ _ hwf hl
  have hmine : ∀ r c, (cellAt (calculateNeighbors s.config b2) r c).isMine
      = (cellAt b2 r c).isMine := by
    intro r c; rw [cellAt_calculateNeighbors hm.wf]; split <;> rfl
  simp only
  rw [hmine, countAround_congr s.config b2 _ hmine, cellAt_calculateNeighbors hm.wf]
  by_cases hc : inBounds s.config (r, c) ∧ (cellAt b2 r c).isMine = false
  · rw [if_pos hc, if_pos hc]
  · rw [if_neg hc, if_neg hc, hm.frame r c]

/-- The run of a first click on whose draws `placeMines` returns. -/
theorem first_click_run (s : State) (hs : Reachable s) (hf : s.firstClick = true)
    (r c : Nat) (hin : inBounds s.config (r, c))
    (hfl : (cellAt s.board r c).isFlagged = false) (draws : List Pos) (s1 : State)
    (hp : placeMines { s with firstClick := false, timerRunning := true } r c draws = some s1) :
    s1.config = s.config ∧ WF s.config s1.board ∧ s1.firstClick = false ∧
    s1.gameActive = true ∧
    (∀ nr nc, near (nr, nc) (r, c) → (cellAt s1.board nr nc).isMine = false) ∧
    (∀ r2 c2, (cellAt s1.board r2 c2).isFlagged = (cellAt s.board r2 c2).isFlagged) ∧
    (∀ r2 c2, (cellAt s1.board r2 c2).isRevealed = false) ∧
    (cellAt s1.board r c).neighborMines = 0 ∧
    ∃ res, revealCell s.config s1.board r c = some res ∧
      FillPost s.config s1.board [(r, c)] res.2 res.1 ∧
      handleLeftClick s r c draws = Except.ok (checkWin { s1 with board := res.1 }) := by
  have hi := hs.inv
  have hfresh := hi.fresh hf
  have hc : hasCell s.board r c = true := (hi.wf.hasCell_iff r c).2 hin
  have hwf2 : WF ({ s with firstClick := false, timerRunning := true } : State).config
      ({ s with firstClick := false, timerRunning := true } : State).board := hi.wf
  obtain ⟨e1, e2, e3, _, _, _, e5, e6, e7, _, e9, _⟩ := placeMines_effect hwf2 hp
  have hcount := placeMines_counts hwf2 hp r c
  simp only at e1 e2 e3 e5 e6 e7 e9 hcount
  have hsafe : ∀ nr nc, near (nr, nc) (r, c) → (cellAt s1.board nr nc).isMine = false := by
    intro nr nc hn
    by_contra hm
    have hm2 : (cellAt s1.board nr nc).isMine = true := by simpa using hm
    have := e9 nr nc hm2 (hfresh.2 nr nc).1
    rw [(excluded_eq_true_iff r c nr nc).2 hn] at this
    cases this
  have hself : (cellAt s1.board r c).isMine = false := hsafe r c ⟨by simp, by simp⟩
  have hzero : (cellAt s1.board r c).neighborMines = 0 := by
    rw [hcount, if_pos ⟨hin, hself⟩]
    apply countAround_zero_of_safe
    intro p hp2
    have := (mem_window s.config r c p).1 hp2
    exact hsafe p.1 p.2 ⟨this.2.2.1, this.2.2.2⟩
  obtain ⟨res, hres⟩ : ∃ res, revealCell s.config s1.board r c = some res :=
    revealCell_total e5 hin
  have hres2 : revealCell s1.config s1.board r c = some res := by rw [e1]; exact hres
  have hret : handleLeftClick s r c draws
      = Except.ok (checkWin { s1 with board := res.1 }) := by
    have hp2 := hp
    simp only [hfresh.1] at hp2
    unfold handleLeftClick
    simp [hfresh.1, hc, (hfresh.2 r c).2.1, hfl, hf, hp2, hself, hres2]
  exact ⟨e1, e5, e3, by rw [e2]; exact hfresh.1, hsafe, e6,
    fun r2 c2 => by rw [e7]; exact (hfresh.2 r2 c2).2.1, hzero, res, hres,
    revealCell_some e5 hin hres, hret⟩

/-! ## The zero region -/

theorem ZeroRegion.zero {cfg : Config} {b : Board} {o u : Pos} (h : ZeroRegion cfg b o u) :
    (cellAt b u.1 u.2).neighborMines = 0 := by
  cases h with
  | start _ hz => exact hz
  | step _ _ _ hz => exact hz

theorem ZeroRegion.cell_inBounds {cfg : Config} {b : Board} {o u : Pos}
    (h : ZeroRegion cfg b o u) : inBounds cfg u := by
  cases h with
  | start hin _ => exact hin
  | step _ _ hin _ => exact hin

theorem FloodSet.member_inBounds {cfg : Config} {b : Board} {o v : Pos}
    (h : FloodSet cfg b o v) : inBounds cfg v := by
  obtain ⟨u, hu, rfl | ⟨_, hin⟩⟩ := h
  · exact hu.cell_inBounds
  · exact hin

theorem FillReach.zeroRegion {cfg : Config} {b : Board} {o u : Pos} (h : FillReach cfg b o u)
    (hz : (cellAt b u.1 u.2).neighborMines = 0) : ZeroRegion cfg b o u := by
  induction h with
  | start hin _ => exact ZeroRegion.start hin hz
  | step _ hzu hadj hin _ ih => exact ZeroRegion.step (ih hzu) hadj hin hz

theorem FillReach.floodSet {cfg : Config} {b : Board} {o v : Pos} (h : FillReach cfg b o v)
    (hz : (cellAt b o.1 o.2).neighborMines = 0) : FloodSet cfg b o v := by
  cases h with
  | start hin _ => exact ⟨o, ZeroRegion.start hin hz, Or.inl rfl⟩
  | step hr hzu hadj hin _ => exact ⟨_, hr.zeroRegion hzu, Or.inr ⟨hadj, hin⟩⟩

theorem mem_window_of_adjacent {cfg : Config} {u v : Pos} (hadj : adjacent u v)
    (hin : inBounds cfg v) : v ∈ window cfg u.1 u.2 := by
  rw [mem_window]
  exact ⟨hin.1, hin.2, by have := hadj.1; omega, by have := hadj.2.1; omega⟩

/-- After a run from `o`, a cell that is neither open nor flagged nor revealed before has been
marked. -/
theorem FillPost.mem_of_closed {cfg : Config} {b b2 : Board} {starts new : List Pos}
    (post : FillPost cfg b starts new b2) {v : Pos} (hc : isOpen b2 v = false)
    (hfl : (cellAt b v.1 v.2).isFlagged = false) (hrev : (cellAt b v.1 v.2).isRevealed = false) :
    v ∈ new := by
  have hfl2 : (cellAt b2 v.1 v.2).isFlagged = false := by
    rw [post.marked.isFlagged_eq]; exact hfl
  have hr2 : (cellAt b2 v.1 v.2).isRevealed = true := by
    by_contra hn
    have : isOpen b2 v = true := (isOpen_eq_true_iff _ _).2 ⟨by simpa using hn, hfl2⟩
    rw [hc] at this; cases this
  rcases (post.marked.isRevealed_iff v.1 v.2).1 hr2 with h | h
  · rw [hrev] at h; cases h
  · exact h

/-! ## Paths and reachability -/

theorem fillPath_concat (cfg : Config) (b : Board) (u v : Pos)
    (hz : (cellAt b u.1 u.2).neighborMines = 0) (hadj : adjacent u v)
    (hin : inBounds cfg v) (ho : isOpen b v = true) :
    ∀ path : List Pos, fillPath cfg b path → path.getLast? = some u →
      fillPath cfg b (path ++ [v]) := by
  intro path
  induction path with
  | nil => intro h _; exact absurd h (by simp [fillPath])
  | cons x rest ih =>
    cases rest with
    | nil =>
      intro h hl
      simp only [List.getLast?_singleton, Option.some.injEq] at hl
      subst hl
      simp only [fillPath] at h
      simp only [List.singleton_append, fillPath]
      exact ⟨h.1, h.2, hz, hadj, hin, ho⟩
    | cons y rest2 =>
      intro h hl
      rw [List.getLast?_cons_cons] at hl
      simp only [fillPath] at h
      have := ih h.2.2.2.2 hl
      simp only [List.cons_append, fillPath] at this ⊢
      exact ⟨h.1, h.2.1, h.2.2.1, h.2.2.2.1, this⟩

theorem fillPath_of_fillReach {cfg : Config} {b : Board} {o v : Pos}
    (h : FillReach cfg b o v) :
    ∃ path : List Pos, path.head? = some o ∧ path.getLast? = some v ∧ fillPath cfg b path := by
  induction h with
  | start hin ho => exact ⟨[o], rfl, rfl, by simp only [fillPath]; exact ⟨hin, ho⟩⟩
  | @step u v _ hz hadj hin ho ih =>
    obtain ⟨path, h1, h2, h3⟩ := ih
    refine ⟨path ++ [v], ?_, ?_, fillPath_concat cfg b u v hz hadj hin ho path h3 h2⟩
    · cases path with
      | nil => simp at h1
      | cons x rest => simpa using h1
    · simp

theorem fillReach_of_fillPath {cfg : Config} {b : Board} :
    ∀ (path : List Pos) (o v : Pos), path.head? = some o → path.getLast? = some v →
      fillPath cfg b path → FillReach cfg b o v := by
  intro path
  induction path with
  | nil => intro o v h; simp at h
  | cons x rest ih =>
    cases rest with
    | nil =>
      intro o v h1 h2 h3
      simp only [List.head?_cons, Option.some.injEq] at h1
      simp only [List.getLast?_singleton, Option.some.injEq] at h2
      subst h1; subst h2
      simp only [fillPath] at h3
      exact FillReach.start h3.1 h3.2
    | cons y rest2 =>
      intro o v h1 h2 h3
      simp only [List.head?_cons, Option.some.injEq] at h1
      subst h1
      rw [List.getLast?_cons_cons] at h2
      simp only [fillPath] at h3
      exact FillReach.cons h3.1 h3.2.1 h3.2.2.1 h3.2.2.2.1 (ih y v rfl h2 h3.2.2.2.2)

/-- After `revealCell` on an open cell, the marked cells are the cells reached along open
cells through zero cells. -/
theorem FillPost.mem_iff_fillReach {cfg : Config} {b b2 : Board} {o : Pos} {log : List Pos}
    (post : FillPost cfg b [o] log b2) (v : Pos) : v ∈ log ↔ FillReach cfg b o v := by
  constructor
  · intro hv
    obtain ⟨w, hw, hr⟩ := post.sound v hv
    rw [List.mem_singleton] at hw; subst hw
    exact hr
  · intro hr
    induction hr with
    | start hin ho =>
      exact post.mem_of_closed (post.done o (List.mem_singleton_self _))
        ((isOpen_eq_true_iff _ _).1 ho).2 ((isOpen_eq_true_iff _ _).1 ho).1
    | @step u v2 _ hz _ hin2 ho2 ih =>
      have hadj : adjacent u v2 := by assumption
      have hclosed := post.closed u ih (by rw [post.marked.neighborMines_eq]; exact hz) v2
        (mem_window_of_adjacent hadj hin2)
      exact post.mem_of_closed hclosed ((isOpen_eq_true_iff _ _).1 ho2).2
        ((isOpen_eq_true_iff _ _).1 ho2).1

/-! ## Mines stay covered -/

/-- From a non-mine cell, on a board with correct neighbour counts, the flood fill only
reaches non-mine cells. -/
theorem FillReach.no_mine {cfg : Config} {b : Board} {o v : Pos}
    (hcounts : ∀ r c, inBounds cfg (r, c) → (cellAt b r c).isMine = false →
      (cellAt b r c).neighborMines = countAround cfg b r c)
    (hstart : (cellAt b o.1 o.2).isMine = false) (h : FillReach cfg b o v) :
    (cellAt b v.1 v.2).isMine = false := by
  induction h with
  | start _ _ => exact hstart
  | @step u v2 hprev hz hadj hin _ ih =>
    have hc := hcounts u.1 u.2 hprev.end_inBounds ih
    rw [hz, countAround_eq] at hc
    have hall := List.countP_eq_zero.1 hc.symm v2 (mem_window_of_adjacent hadj hin)
    simpa using hall

theorem countP_eq_of_imp {α : Type} (L : List α) (p q : α → Bool)
    (himp : ∀ x ∈ L, p x = true → q x = true) (hcount : L.countP p = L.countP q) :
    ∀ x ∈ L, q x = true → p x = true := by
  induction L with
  | nil => intro x hx; cases hx
  | cons a L ih =>
    have hle : L.countP p ≤ L.countP q :=
      List.countP_mono_left (fun x hx => himp x (List.mem_cons_of_mem _ hx))
    have ha := himp a (List.mem_cons_self _ _)
    simp only [List.countP_cons] at hcount
    intro x hx hq
    cases hpa : p a
    · cases hqa : q a
      · simp only [hpa, hqa, Bool.false_eq_true, if_false, Nat.add_zero] at hcount
        rcases List.mem_cons.1 hx with rfl | hx2
        · rw [hqa] at hq; cases hq
        · exact ih (fun y hy => himp y (List.mem_cons_of_mem _ hy)) hcount x hx2 hq
      · simp only [hpa, hqa, Bool.false_eq_true, if_false, if_true, Nat.add_zero] at hcount
        omega
    · have hqa : q a = true := ha hpa
      simp only [hpa, hqa, if_true, Nat.add_right_cancel_iff] at hcount
      rcases List.mem_cons.1 hx with rfl | hx2
      · exact hpa
      · exact ih (fun y hy => himp y (List.mem_cons_of_mem _ hy)) hcount x hx2 hq

theorem safeInv_checkWin {s : State} (ha : s.gameActive = true)
    (h1 : ∀ r c, (cellAt s.board r c).isRevealed = true → (cellAt s.board r c).isMine = false)
    (h2 : s.firstClick = false → ∀ r c, inBounds s.config (r, c) →
      (cellAt s.board r c).isMine = false →
      (cellAt s.board r c).neighborMines = countAround s.config s.board r c) :
    SafeInv (checkWin s) := by
  refine ⟨by simpa using h1, by simpa using h2, ?_⟩
  unfold checkWin
  split
  · rename_i h
    intro _ _
    simp only [gameOver_board, gameOver_config]
    exact h
  · intro hh; rw [ha] at hh; cases hh

/-- Every reachable state keeps its mines covered. -/
theorem Reachable.safeInv {s : State} (hs : Reachable s) : SafeInv s := by
  induction hs with
  | reset s0 =>
    refine ⟨fun r c h => ?_, fun h => ?_, fun h => ?_⟩
    · rw [cellAt_resetGame] at h; cases h
    · cases h
    · cases h
  | @step s s2 cmd hprev hvalid hstep ih =>
    have hi := hprev.inv
    cases cmd with
    | reveal r c draws =>
      rcases handleLeftClick_cases hstep with ⟨rfl, _⟩ | ⟨ha, hc, _, s1, hs1, hrest⟩
      · exact ih
      · have hin : inBounds s.config (r, c) := (hi.wf.hasCell_iff r c).1 hc
        have h1 : s1.config = s.config ∧ s1.gameActive = true ∧ s1.firstClick = false ∧
            WF s.config s1.board ∧
            (∀ r c, (cellAt s1.board r c).isRevealed = true →
              (cellAt s1.board r c).isMine = false) ∧
            (∀ r c, inBounds s.config (r, c) → (cellAt s1.board r c).isMine = false →
              (cellAt s1.board r c).neighborMines = countAround s.config s1.board r c) := by
          rcases hs1 with ⟨hf, hp⟩ | ⟨hf, rfl⟩
          · have hwf2 : WF ({ s with firstClick := false, timerRunning := true } : State).config
                ({ s with firstClick := false, timerRunning := true } : State).board := hi.wf
            obtain ⟨e1, e2, e3, _, _, _, e5, _, e7, _⟩ := placeMines_effect hwf2 hp
            have hcount := placeMines_counts hwf2 hp
            simp only at e1 e2 e3 e5 e7 hcount
            refine ⟨e1, by rw [e2]; exact ha, e3, e5, ?_, ?_⟩
            · intro r2 c2 hr
              rw [e7, ((hi.fresh hf).2 r2 c2).2.1] at hr; cases hr
            · intro r2 c2 hin2 hm
              rw [hcount, if_pos ⟨hin2, hm⟩]
          · exact ⟨rfl, ha, hf, hi.wf, ih.covered, ih.counts hf⟩
        obtain ⟨e1, e2, e3, e4, e5, e6⟩ := h1
        rcases hrest with ⟨_, rfl⟩ | ⟨hm, res, hres, rfl⟩
        · refine ⟨by simpa using e5, ?_, ?_⟩
          · intro _
            simp only [gameOver_board, gameOver_config]
            rw [e1]; exact e6
          · intro _ hmsg
            simp [gameOver] at hmsg
        · have post := revealCell_some (by rw [e1]; exact e4) (by rw [e1]; exact hin) hres
          rw [e1] at post
          refine safeInv_checkWin ?_ ?_ ?_
          · exact e2
          · intro r2 c2 hr
            simp only at hr ⊢
            rw [post.marked.isMine_eq]
            rcases (post.marked.isRevealed_iff r2 c2).1 hr with h3 | h3
            · exact e5 r2 c2 h3
            · exact ((post.mem_iff_fillReach (r2, c2)).1 h3).no_mine e6 hm
          · intro _ r2 c2 hin2 hm2
            simp only at hin2 hm2 ⊢
            rw [e1] at hin2 ⊢
            rw [post.marked.isMine_eq] at hm2
            rw [post.marked.neighborMines_eq,
              countAround_congr s.config s1.board res.1 post.marked.isMine_eq]
            exact e6 r2 c2 hin2 hm2
    | toggleFlag r c =>
      rcases handleRightClick_cases hstep with ⟨rfl, _⟩ | ⟨ha, hc, hr, rfl⟩
      · exact ih
      · have hcell : ∀ r2 c2,
            (cellAt (modifyCell s.board r c
              (fun x => { x with isFlagged := !(cellAt s.board r c).isFlagged })) r2 c2).isMine
              = (cellAt s.board r2 c2).isMine ∧
            (cellAt (modifyCell s.board r c
              (fun x => { x with isFlagged := !(cellAt s.board r c).isFlagged })) r2 c2).isRevealed
              = (cellAt s.board r2 c2).isRevealed ∧
            (cellAt (modifyCell s.board r c
              (fun x => { x with isFlagged := !(cellAt s.board r c).isFlagged })) r2 c2).neighborMines
              = (cellAt s.board r2 c2).neighborMines := by
          intro r2 c2
          rw [cellAt_modifyCell]
          split
          · rename_i he
            rw [he.1, he.2.1]
            exact ⟨rfl, rfl, rfl⟩
          · exact ⟨rfl, rfl, rfl⟩
        refine ⟨?_, ?_, ?_⟩
        · intro r2 c2 h
          simp only at h ⊢
          rw [(hcell r2 c2).1]
          rw [(hcell r2 c2).2.1] at h
          exact ih.covered r2 c2 h
        · intro hf r2 c2 hin2 hm
          simp only at hf hin2 hm ⊢
          rw [(hcell r2 c2).1] at hm
          rw [(hcell r2 c2).2.2, countAround_congr s.config s.board _ (fun a b => (hcell a b).1)]
          exact ih.counts hf r2 c2 hin2 hm
        · intro hh
          simp only at hh
          rw [ha] at hh; cases hh

theorem countGrid_add_not (cfg : Config) (b : Board) (p : Cell → Bool) :
    countGrid cfg b p + countGrid cfg b (fun x => !p x) = cfg.rows * cfg.cols := by
  rw [countGrid_eq, countGrid_eq, ← length_positions]
  have := List.length_eq_countP_add_countP (fun q : Pos => p (cellAt b q.1 q.2)) (positions cfg)
  rw [this]
  congr 1
  apply List.countP_congr
  intro x _
  simp

/-! ## The cells that may receive a mine -/

theorem mem_safeCells (cfg : Config) (r c : Nat) (p : Pos) :
    p ∈ safeCells cfg r c ↔ inBounds cfg p ∧ excluded r c p.1 p.2 = false := by
  simp [safeCells, mem_positions, inBounds]

theorem nodup_safeCells (cfg : Config) (r c : Nat) : (safeCells cfg r c).Nodup :=
  (nodup_positions cfg).filter _

theorem safeCount_eq_countP (cfg : Config) (r c : Nat) :
    safeCount cfg r c = (positions cfg).countP (fun p => !excluded r c p.1 p.2) := by
  unfold safeCount safeCells
  rw [List.countP_eq_length_filter]

/-- At most nine cells are excluded. -/
theorem safeCount_add_nine (cfg : Config) (r c : Nat) :
    cfg.rows * cfg.cols ≤ safeCount cfg r c + 9 := by
  have hsplit := List.length_eq_countP_add_countP (fun p : Pos => excluded r c p.1 p.2)
    (positions cfg)
  have hnot : List.countP (fun p : Pos => decide ¬ (excluded r c p.1 p.2 = true)) (positions cfg)
      = safeCount cfg r c := by
    rw [safeCount_eq_countP]
    apply List.countP_congr
    intro x _
    simp
  have hex : List.countP (fun p : Pos => excluded r c p.1 p.2) (positions cfg)
      = (window cfg r c).length := by
    rw [← countP_mem_eq_length (positions cfg) (window cfg r c) (nodup_positions cfg)
      (nodup_window cfg r c)
      (fun x hx => (mem_positions cfg x).2 (window_inBounds cfg r c x hx))]
    apply List.countP_congr
    intro x hx
    have hin := (mem_positions cfg x).1 hx
    simp only [decide_eq_true_eq, mem_window]
    rw [excluded_eq_true_iff]
    constructor
    · intro h; exact ⟨hin.1, hin.2, h.1, h.2⟩
    · intro h; exact ⟨h.2.2.1, h.2.2.2⟩
  have hlen := length_window_le cfg r c
  rw [length_positions, hex, hnot] at hsplit
  omega

/-- The loop returns exactly when its state after the draws has left the loop condition. -/
theorem placeMinesLoop_eq_state (cfg : Config) (er ec : Nat) (draws : List Pos) :
    ∀ (b : Board) (n : Nat), placeMinesLoop cfg er ec draws b n =
      if (placeMinesState cfg er ec draws b n).2 < cfg.mines then none
      else some (placeMinesState cfg er ec draws b n) := by
  induction draws with
  | nil => intro b n; simp only [placeMinesLoop, placeMinesState]
  | cons d rest ih =>
    intro b n
    obtain ⟨r, c⟩ := d
    simp only [placeMinesLoop, placeMinesState]
    by_cases hlt : n < cfg.mines
    · simp only [hlt, if_true]
      by_cases hex : excluded er ec r c = true
      · simp only [hex, if_true]; exact ih b n
      · simp only [hex, Bool.false_eq_true, if_false]
        by_cases hm : (!(cellAt b r c).isMine) = true
        · simp only [hm, if_true]; exact ih _ _
        · simp only [hm, Bool.false_eq_true, if_false]; exact ih b n
    · simp only [hlt, if_false]

/-- The state of the loop of `placeMines` after any draws. -/
theorem placeMinesState_spec (cfg : Config) (er ec : Nat) (draws : List Pos) :
    ∀ (b : Board) (n : Nat), WF cfg b →
      Mined cfg er ec b (placeMinesState cfg er ec draws b n).1 ∧
      (drawsValid cfg draws →
        (placeMinesState cfg er ec draws b n).2 + mineCount cfg b
          = n + mineCount cfg (placeMinesState cfg er ec draws b n).1) := by
  induction draws with
  | nil => intro b n hwf; exact ⟨Mined.none_added hwf _ _, fun _ => rfl⟩
  | cons d rest ih =>
    intro b n hwf
    obtain ⟨r, c⟩ := d
    have hv : drawsValid cfg ((r, c) :: rest) → drawsValid cfg rest :=
      fun hd q hq => hd q (List.mem_cons_of_mem _ hq)
    simp only [placeMinesState]
    by_cases hlt : n < cfg.mines
    · simp only [hlt, if_true]
      by_cases hex : excluded er ec r c = true
      · simp only [hex, if_true]
        exact ⟨(ih b n hwf).1, fun hd => (ih b n hwf).2 (hv hd)⟩
      · simp only [hex, Bool.false_eq_true, if_false]
        by_cases hm : (!(cellAt b r c).isMine) = true
        · simp only [hm, if_true]
          have hnm : (cellAt b r c).isMine = false := by simpa using hm
          have hs := Mined.one_added hwf er ec r c (by simpa using hex)
          obtain ⟨m, h3⟩ := ih _ (n + 1) hs.wf
          refine ⟨hs.chain m, fun hd => ?_⟩
          have hin : inBounds cfg (r, c) := hd (r, c) (List.mem_cons_self _ _)
          have := h3 (hv hd)
          rw [mineCount_modifyCell hwf r c hin hnm] at this
          omega
        · simp only [hm, Bool.false_eq_true, if_false]
          exact ⟨(ih b n hwf).1, fun hd => (ih b n hwf).2 (hv hd)⟩
    · simp only [hlt, if_false]
      exact ⟨Mined.none_added hwf _ _, fun _ => trivial⟩

/-- On a mine-free board the mines placed are safe cells, so there are at most `safeCount`. -/
theorem mineCount_le_safeCount {cfg : Config} {er ec : Nat} {b b2 : Board}
    (hfree : ∀ r c, (cellAt b r c).isMine = false) (hm : Mined cfg er ec b b2) :
    mineCount cfg b2 ≤ safeCount cfg er ec := by
  unfold mineCount
  rw [countGrid_eq, safeCount_eq_countP]
  apply List.countP_mono_left
  intro x _ hx
  simp only at hx ⊢
  rw [hm.outside x.1 x.2 hx (hfree x.1 x.2)]
  rfl

/-- Draws on distinct safe cells that hold no mine yet each place a mine. -/
theorem placeMinesLoop_isSome (cfg : Config) (er ec : Nat) (L : List Pos) :
    ∀ (b : Board) (n : Nat), WF cfg b → L.Nodup →
      (∀ p ∈ L, inBounds cfg p ∧ excluded er ec p.1 p.2 = false ∧
        (cellAt b p.1 p.2).isMine = false) →
      cfg.mines ≤ n + L.length → (placeMinesLoop cfg er ec L b n).isSome = true := by
  induction L with
  | nil =>
    intro b n _ _ _ hle
    simp only [List.length_nil, Nat.add_zero] at hle
    simp only [placeMinesLoop]
    rw [if_neg (by omega)]
    rfl
  | cons p L ih =>
    intro b n hwf hnd hall hle
    obtain ⟨r, c⟩ := p
    rw [List.nodup_cons] at hnd
    have hp := hall (r, c) (List.mem_cons_self _ _)
    simp only [placeMinesLoop]
    by_cases hlt : n < cfg.mines
    · simp only [hlt, if_true, hp.2.1, Bool.false_eq_true, if_false, hp.2.2, Bool.not_false]
      apply ih _ _ (WF_modifyCell hwf _ _ _) hnd.2
      · intro q hq
        have hq2 := hall q (List.mem_cons_of_mem _ hq)
        refine ⟨hq2.1, hq2.2.1, ?_⟩
        rw [cellAt_modifyCell]
        have : ¬ (q.1 = r ∧ q.2 = c ∧ hasCell b r c = true) := by
          intro h3
          apply hnd.1
          have : q = (r, c) := by ext <;> simp [h3.1, h3.2.1]
          rw [← this]; exact hq
        rw [if_neg this]; exact hq2.2.2
      · simp only [List.length_cons] at hle; omega
    · simp only [hlt, if_false]
      rfl

/-- With enough safe cells there are draws on which the loop of `placeMines` exits. -/
theorem placement_finishes_of_safe (cfg : Config) (b : Board) (hwf : WF cfg b)
    (hfree : ∀ r c, (cellAt b r c).isMine = false) (r c : Nat)
    (hle : cfg.mines ≤ safeCount cfg r c) :
    ∃ draws, drawsValid cfg draws ∧ (placeMinesLoop cfg r c draws b 0).isSome = true := by
  refine ⟨(safeCells cfg r c).take cfg.mines, ?_, ?_⟩
  · intro d hd
    exact ((mem_safeCells cfg r c d).1 (List.mem_of_mem_take hd)).1
  · apply placeMinesLoop_isSome cfg r c _ b 0 hwf
      ((nodup_safeCells cfg r c).sublist (List.take_sublist _ _))
    · intro p hp
      have := (mem_safeCells cfg r c p).1 (List.mem_of_mem_take hp)
      exact ⟨this.1, this.2, hfree p.1 p.2⟩
    · rw [List.length_take]
      unfold safeCount at hle
      omega

/-! ## Claims about mine placement -/

/-- What a first click that returns has achieved. -/
theorem first_click_of_ok (s : State) (hs : Reachable s) (hf : s.firstClick = true)
    (r c : Nat) (hfl : (cellAt s.board r c).isFlagged = false) (draws : List Pos) (s2 : State)
    (h : handleLeftClick s r c draws = Except.ok s2) :
    s2.firstClick = false ∧
    (∀ nr nc, near (nr, nc) (r, c) → (cellAt s2.board nr nc).isMine = false) ∧
    (cellAt s2.board r c).isMine = false ∧ phase s2 ≠ Phase.lost := by
  have hi := hs.inv
  have hfresh := hi.fresh hf
  have hopen : isOpen s.board (r, c) = true :=
    (isOpen_eq_true_iff _ _).2 ⟨(hfresh.2 r c).2.1, hfl⟩
  rcases handleLeftClick_cases h with ⟨_, h1 | h1⟩ | ⟨_, hc, _, s1, hs1, hrest⟩
  · rw [hfresh.1] at h1; cases h1
  · rw [hopen] at h1; cases h1
  · have hin : inBounds s.config (r, c) := (hi.wf.hasCell_iff r c).1 hc
    rcases hs1 with ⟨_, hp⟩ | ⟨hf2, _⟩
    · have hwf2 : WF ({ s with firstClick := false, timerRunning := true } : State).config
          ({ s with firstClick := false, timerRunning := true } : State).board := hi.wf
      obtain ⟨e1, e2, e3, _, _, _, e5, _, _, _, e9, _⟩ := placeMines_effect hwf2 hp
      simp only at e1 e2 e3 e5 e9
      have hsafe : ∀ nr nc, near (nr, nc) (r, c) → (cellAt s1.board nr nc).isMine = false := by
        intro nr nc hn
        by_contra hm
        have hm2 : (cellAt s1.board nr nc).isMine = true := by simpa using hm
        have := e9 nr nc hm2 (hfresh.2 nr nc).1
        rw [(excluded_eq_true_iff r c nr nc).2 hn] at this
        cases this
      have hself : (cellAt s1.board r c).isMine = false :=
        hsafe r c ⟨by simp, by simp⟩
      rcases hrest with ⟨hm, _⟩ | ⟨_, res, hres, rfl⟩
      · rw [hself] at hm; cases hm
      · have post := revealCell_some (by rw [e1]; exact e5) (by rw [e1]; exact hin) hres
        have hmine : ∀ nr nc, (cellAt (checkWin { s1 with board := res.1 }).board nr nc).isMine
            = (cellAt s1.board nr nc).isMine := by
          intro nr nc
          rw [checkWin_board]
          exact post.marked.isMine_eq nr nc
        refine ⟨by rw [checkWin_firstClick]; exact e3, ?_, ?_, ?_⟩
        · intro nr nc hn; rw [hmine]; exact hsafe nr nc hn
        · rw [hmine]; exact hself
        · unfold checkWin
          split
          · simp [phase, gameOver]
          · simp [phase, e2, e3, hfresh.1]
    · rw [hf] at hf2; cases hf2

/-- C1 (first-click safety): in a reachable state in which no reveal has succeeded yet
(`firstClick` is still true, whatever flags are set), for an in-bounds unflagged cell `(r, c)`
and random draws on which `placeMines` returns, `handleLeftClick` on `(r, c)` returns; the
mines are then placed (`firstClick` is false), no cell at Chebyshev distance at most one from
`(r, c)` holds a mine, in particular `(r, c)` itself does not, and the game has not ended as
lost. -/
theorem first_click_safety (s : State) (hs : Reachable s) (hf : s.firstClick = true)
    (r c : Nat) (hin : inBounds s.config (r, c))
    (hfl : (cellAt s.board r c).isFlagged = false) (draws : List Pos) (s1 : State)
    (hp : placeMines { s with firstClick := false, timerRunning := true } r c draws = some s1) :
    ∃ s2, handleLeftClick s r c draws = Except.ok s2 ∧
      s2.firstClick = false ∧
      (∀ nr nc, near (nr, nc) (r, c) → (cellAt s2.board nr nc).isMine = false) ∧
      (cellAt s2.board r c).isMine = false ∧ phase s2 ≠ Phase.lost := by
  have hi := hs.inv
  have hfresh := hi.fresh hf
  have hc : hasCell s.board r c = true := (hi.wf.hasCell_iff r c).2 hin
  have hwf2 : WF ({ s with firstClick := false, timerRunning := true } : State).config
      ({ s with firstClick := false, timerRunning := true } : State).board := hi.wf
  obtain ⟨e1, _, _, _, _, _, e5, _, _, _, e9, _⟩ := placeMines_effect hwf2 hp
  simp only at e1 e5 e9
  have hself : (cellAt s1.board r c).isMine = false := by
    by_contra hm
    have hm2 : (cellAt s1.board r c).isMine = true := by simpa using hm
    have := e9 r c hm2 (hfresh.2 r c).1
    rw [(excluded_eq_true_iff r c r c).2 ⟨by simp, by simp⟩] at this
    cases this
  obtain ⟨res, hres⟩ : ∃ res, revealCell s1.config s1.board r c = some res :=
    revealCell_total (by rw [e1]; exact e5) (by rw [e1]; exact hin)
  have hret : handleLeftClick s r c draws
      = Except.ok (checkWin { s1 with board := res.1 }) := by
    have hp2 := hp
    simp only [hfresh.1] at hp2
    unfold handleLeftClick
    simp [hfresh.1, hc, (hfresh.2 r c).2.1, hfl, hf, hp2, hself, hres]
  exact ⟨_, hret, first_click_of_ok s hs hf r c hfl draws _ hret⟩

/-- Instance of C1: the first click of the demo session, with a flag already set. -/
theorem first_click_safety_witness :
    ∃ s2, handleLeftClick demoFlagged 0 0 demoDraws = Except.ok s2 ∧
      s2.firstClick = false ∧
      (∀ nr nc, near (nr, nc) (0, 0) → (cellAt s2.board nr nc).isMine = false) ∧
      (cellAt s2.board 0 0).isMine = false ∧ phase s2 ≠ Phase.lost :=
  first_click_safety demoFlagged reachable_demoFlagged (by decide) 0 0 (by decide) (by decide)
    demoDraws
    ((placeMines { demoFlagged with firstClick := false, timerRunning := true }
      0 0 demoDraws).getD demoFlagged)
    (by rfl)

/-- C2 (mine count invariant): in a reachable state, before the first successful reveal no
cell holds a mine; whenever the loop of `placeMines` exits, started on a mine-free board with
counter 0, the counter equals `config.mines` and exactly `config.mines` pairwise distinct
cells hold a mine; the counter equals the number of mine cells at the exit from any start at
which it did; the board that `placeMines` leaves on a first click holds `config.mines` mines;
and after the first successful reveal the number of mine cells is `config.mines`
in every reachable state. -/
theorem mine_count_invariant (s : State) (hs : Reachable s) :
    (s.firstClick = true → mineCount s.config s.board = 0) ∧
    (∀ (b : Board) (er ec : Nat) (draws : List Pos) (b2 : Board) (placed : Nat),
      WF s.config b → mineCount s.config b = 0 → drawsValid s.config draws →
      placeMinesLoop s.config er ec draws b 0 = some (b2, placed) →
      placed = s.config.mines ∧ mineCount s.config b2 = s.config.mines ∧
      ∃ L : List Pos, L.Nodup ∧ L.length = s.config.mines ∧
        ∀ p, p ∈ L ↔ inBounds s.config p ∧ (cellAt b2 p.1 p.2).isMine = true) ∧
    (∀ (b : Board) (placed0 er ec : Nat) (draws : List Pos) (b2 : Board) (placed : Nat),
      WF s.config b → mineCount s.config b = placed0 → drawsValid s.config draws →
      placeMinesLoop s.config er ec draws b placed0 = some (b2, placed) →
      mineCount s.config b2 = placed) ∧
    (s.firstClick = true → ∀ (r c : Nat) (draws : List Pos) (s1 : State),
      drawsValid s.config draws →
      placeMines { s with firstClick := false, timerRunning := true } r c draws = some s1 →
      mineCount s1.config s1.board = s.config.mines) ∧
    (s.firstClick = false → mineCount s.config s.board = s.config.mines) := by
  have hi := hs.inv
  refine ⟨?_, ?_, ?_, ?_, hi.placed⟩
  · intro hf
    exact countGrid_zero _ _ _ (fun r c => ((hi.fresh hf).2 r c).1)
  · intro b er ec draws b2 placed hwf h0 hd hl
    obtain ⟨_, _, hp, hcount⟩ := placeMinesLoop_spec _ _ _ _ _ _ _ _ hwf hl
    have e1 := hp (Nat.zero_le _)
    have e2 := hcount hd
    have e3 : mineCount s.config b2 = s.config.mines := by omega
    refine ⟨e1, e3, revealAllMines s.config b2, ?_, ?_, ?_⟩
    · exact (nodup_positions _).filter _
    · rw [← e3]
      unfold revealAllMines mineCount
      rw [countGrid_eq, List.countP_eq_length_filter]
    · intro p
      simp only [revealAllMines, List.mem_filter, mem_positions, inBounds]
  · intro b placed0 er ec draws b2 placed hwf h0 hd hl
    obtain ⟨_, _, _, hcount⟩ := placeMinesLoop_spec _ _ _ _ _ _ _ _ hwf hl
    have := hcount hd
    omega
  · intro hf r c draws s1 hd hp
    obtain ⟨hi1, hf1, _, hcfg⟩ := hi.of_placeMines hf hd hp
    rw [← hcfg]; exact hi1.placed hf1

/-- Instance of C2: the placement loop of the demo session exits with counter 1 and one mine,
and the session after its first click holds exactly one mine. -/
theorem mine_count_invariant_witness :
    (1 = demoConfig.mines ∧ mineCount demoConfig
        (modifyCell demoFresh.board 0 3 (fun x => { x with isMine := true })) = demoConfig.mines ∧
      ∃ L : List Pos, L.Nodup ∧ L.length = demoConfig.mines ∧
        ∀ p, p ∈ L ↔ inBounds demoConfig p ∧
          (cellAt (modifyCell demoFresh.board 0 3 (fun x => { x with isMine := true }))
            p.1 p.2).isMine = true) ∧
    mineCount demoPlayed.config demoPlayed.board = 1 :=
  ⟨(mine_count_invariant demoFresh reachable_demoFresh).2.1 demoFresh.board 0 0 demoDraws
      (modifyCell demoFresh.board 0 3 (fun x => { x with isMine := true })) 1
      reachable_demoFresh.inv.wf (by decide) demoDraws_valid (by rfl),
    (mine_count_invariant demoPlayed reachable_demoPlayed).2.2.2.2 (by decide)⟩

/-! ## Claims about neighbour counts and the flood fill -/

/-- C3 (neighbour count correctness): on a board of `rows` by `cols` cells with any mine
layout, after `calculateNeighbors` every non-mine cell `(r, c)` has `neighborMines` equal to
the number of in-bounds cells other than `(r, c)`, at most one row and one column away, that
hold a mine; the value is at most 8; and the mine layout itself is unchanged. -/
theorem neighbor_count_correct (cfg : Config) (b : Board) (hwf : WF cfg b) (r c : Nat)
    (hin : inBounds cfg (r, c)) (hm : (cellAt b r c).isMine = false) :
    (cellAt (calculateNeighbors cfg b) r c).neighborMines
      = mineNeighbours cfg (calculateNeighbors cfg b) r c ∧
    (cellAt (calculateNeighbors cfg b) r c).neighborMines = mineNeighbours cfg b r c ∧
    (cellAt (calculateNeighbors cfg b) r c).neighborMines ≤ 8 ∧
    (∀ r2 c2, (cellAt (calculateNeighbors cfg b) r2 c2).isMine = (cellAt b r2 c2).isMine) := by
  have hmine : ∀ r2 c2, (cellAt (calculateNeighbors cfg b) r2 c2).isMine
      = (cellAt b r2 c2).isMine := by
    intro r2 c2; rw [cellAt_calculateNeighbors hwf]; split <;> rfl
  have hval : (cellAt (calculateNeighbors cfg b) r c).neighborMines = countAround cfg b r c := by
    rw [cellAt_calculateNeighbors hwf, if_pos ⟨hin, hm⟩]
  have hsame : mineNeighbours cfg (calculateNeighbors cfg b) r c = mineNeighbours cfg b r c := by
    unfold mineNeighbours
    congr 1
    apply List.filter_congr
    intro x _
    rw [hmine]
  refine ⟨?_, ?_, ?_, hmine⟩
  · rw [hval, hsame]; exact countAround_eq_mineNeighbours cfg b r c hm
  · rw [hval]; exact countAround_eq_mineNeighbours cfg b r c hm
  · rw [hval]; exact countAround_le_eight cfg b r c hin hm

/-- Instance of C3: on the demo board with its mine at `(0, 3)`, cell `(0, 2)` counts one. -/
theorem neighbor_count_correct_witness :
    (cellAt (calculateNeighbors demoConfig demoPlayed.board) 0 2).neighborMines
      = mineNeighbours demoConfig (calculateNeighbors demoConfig demoPlayed.board) 0 2 ∧
    (cellAt (calculateNeighbors demoConfig demoPlayed.board) 0 2).neighborMines
      = mineNeighbours demoConfig demoPlayed.board 0 2 ∧
    (cellAt (calculateNeighbors demoConfig demoPlayed.board) 0 2).neighborMines ≤ 8 ∧
    (∀ r2 c2, (cellAt (calculateNeighbors demoConfig demoPlayed.board) r2 c2).isMine
      = (cellAt demoPlayed.board r2 c2).isMine) :=
  neighbor_count_correct demoConfig demoPlayed.board reachable_demoPlayed.inv.wf 0 2
    (by decide) (by decide)

/-- C5 (flood-fill termination): on a board of `rows` by `cols` cells in any state, for an
in-bounds start cell the recursion of `revealCell` returns, with any recursion budget above
the number of unrevealed cells and with the same result; no cell is marked twice, every marked
cell was unrevealed, the revealed cells afterwards are the earlier ones and the marked ones,
the number of marked cells is the decrease of the number of unrevealed cells and so at most
that number, which is at most `rows * cols`; marking an open cell lowers the number of
unrevealed cells. -/
theorem flood_fill_terminates (cfg : Config) (b : Board) (hwf : WF cfg b) (r c : Nat)
    (hin : inBounds cfg (r, c)) :
    ∃ b2 log, revealCell cfg b r c = some (b2, log) ∧
      (∀ fuel, unrevealedCount cfg b < fuel →
        revealCellFuel cfg fuel (b, []) r c = some (b2, log)) ∧
      log.Nodup ∧
      (∀ p ∈ log, inBounds cfg p ∧ (cellAt b p.1 p.2).isRevealed = false) ∧
      (∀ r2 c2, (cellAt b2 r2 c2).isRevealed = true ↔
        (cellAt b r2 c2).isRevealed = true ∨ (r2, c2) ∈ log) ∧
      unrevealedCount cfg b2 + log.length = unrevealedCount cfg b ∧
      log.length ≤ unrevealedCount cfg b ∧
      unrevealedCount cfg b ≤ cfg.rows * cfg.cols ∧
      (isOpen b (r, c) = true →
        unrevealedCount cfg (modifyCell b r c (fun x => { x with isRevealed := true }))
          < unrevealedCount cfg b) := by
  obtain ⟨res, hres⟩ := revealCellFuel_total cfg (unrevealedCount cfg b + 1) (b, []) (r, c)
    hwf hin (Nat.lt_succ_self _)
  obtain ⟨b2, log⟩ := res
  have hmax : revealCell cfg b r c = some (b2, log) :=
    revealCellFuel_mono cfg (Nat.succ_le_succ (unrevealedCount_le cfg b)) _ _ _ _ hres
  have post := revealCell_some hwf hin hmax
  simp only at post
  have hcount := post.marked.unrevealedCount_add
  refine ⟨b2, log, hmax, ?_, post.marked.nodup, ?_, post.marked.isRevealed_iff, hcount,
    by omega, unrevealedCount_le cfg b, ?_⟩
  · intro fuel hfuel
    exact revealCellFuel_mono cfg (Nat.succ_le_of_lt hfuel) _ _ _ _ hres
  · intro p hp
    exact ⟨(post.marked.fresh p hp).1, ((isOpen_eq_true_iff _ _).1 (post.marked.fresh p hp).2).1⟩
  · intro ho
    have := (Marked.one hwf hin ho).unrevealedCount_add
    simp only [List.length_singleton] at this
    omega

/-- Instance of C5: revealing the last cell of the demo board once its flag is gone. -/
theorem flood_fill_terminates_witness :
    ∃ b2 log, revealCell demoConfig demoUnflagged.board 0 4 = some (b2, log) ∧
      (∀ fuel, unrevealedCount demoConfig demoUnflagged.board < fuel →
        revealCellFuel demoConfig fuel (demoUnflagged.board, []) 0 4 = some (b2, log)) ∧
      log.Nodup ∧
      (∀ p ∈ log, inBounds demoConfig p ∧ (cellAt demoUnflagged.board p.1 p.2).isRevealed = false) ∧
      (∀ r2 c2, (cellAt b2 r2 c2).isRevealed = true ↔
        (cellAt demoUnflagged.board r2 c2).isRevealed = true ∨ (r2, c2) ∈ log) ∧
      unrevealedCount demoConfig b2 + log.length = unrevealedCount demoConfig demoUnflagged.board ∧
      log.length ≤ unrevealedCount demoConfig demoUnflagged.board ∧
      unrevealedCount demoConfig demoUnflagged.board ≤ demoConfig.rows * demoConfig.cols ∧
      (isOpen demoUnflagged.board (0, 4) = true →
        unrevealedCount demoConfig
          (modifyCell demoUnflagged.board 0 4 (fun x => { x with isRevealed := true }))
          < unrevealedCount demoConfig demoUnflagged.board) :=
  flood_fill_terminates demoConfig demoUnflagged.board reachable_demoUnflagged.inv.wf 0 4
    (by decide)

/-! ## Claims about the flood-fill region -/

/-- C4, as amended: on any board, for an in-bounds, unrevealed, unflagged cell `o` with
`neighborMines = 0`, if no cell of its 8-connected region of zero-neighbour cells is already
revealed and no cell of that region or adjacent to it is flagged, then `revealCell` on `o`
returns, the cells revealed afterwards are exactly the cells revealed before together with
the region and the cells adjacent to it, and the cells it marks are exactly the cells of that
set that were not revealed before. -/
theorem flood_fill_region (cfg : Config) (b : Board) (hwf : WF cfg b) (o : Pos)
    (hin : inBounds cfg o) (ho : isOpen b o = true)
    (hz : (cellAt b o.1 o.2).neighborMines = 0)
    (hflag : ∀ v, FloodSet cfg b o v → (cellAt b v.1 v.2).isFlagged = false)
    (hrev : ∀ u, ZeroRegion cfg b o u → (cellAt b u.1 u.2).isRevealed = false) :
    ∃ b2 log, revealCell cfg b o.1 o.2 = some (b2, log) ∧
      (∀ v : Pos, (cellAt b2 v.1 v.2).isRevealed = true ↔
        (cellAt b v.1 v.2).isRevealed = true ∨ FloodSet cfg b o v) ∧
      (∀ v : Pos, v ∈ log ↔ FloodSet cfg b o v ∧ (cellAt b v.1 v.2).isRevealed = false) := by
  obtain ⟨res, hres⟩ := revealCell_total hwf hin
  obtain ⟨b2, log⟩ := res
  have post := revealCell_some hwf hin hres
  simp only at post
  have hsound : ∀ v, v ∈ log → FloodSet cfg b o v := by
    intro v hv
    obtain ⟨w, hw, hr⟩ := post.sound v hv
    rw [List.mem_singleton] at hw; subst hw
    exact hr.floodSet hz
  have hregion : ∀ u, ZeroRegion cfg b o u → u ∈ log := by
    intro u hu
    induction hu with
    | start hin2 hz2 =>
      exact post.mem_of_closed (post.done o (List.mem_singleton_self _))
        ((isOpen_eq_true_iff _ _).1 ho).2 ((isOpen_eq_true_iff _ _).1 ho).1
    | @step u2 v2 hprev hadj hin2 hz2 ih =>
      have hclosed := post.closed u2 ih
        (by rw [post.marked.neighborMines_eq]; exact hprev.zero) v2
        (mem_window_of_adjacent hadj hin2)
      have hreg : ZeroRegion cfg b o v2 := ZeroRegion.step hprev hadj hin2 hz2
      exact post.mem_of_closed hclosed (hflag v2 ⟨v2, hreg, Or.inl rfl⟩) (hrev v2 hreg)
  have hcomplete : ∀ v, FloodSet cfg b o v → (cellAt b v.1 v.2).isRevealed = false → v ∈ log := by
    intro v hv hnr
    obtain ⟨u, hu, rfl | ⟨hadj, hin2⟩⟩ := hv
    · exact hregion _ hu
    · have hclosed := post.closed u (hregion u hu)
        (by rw [post.marked.neighborMines_eq]; exact hu.zero) v
        (mem_window_of_adjacent hadj hin2)
      exact post.mem_of_closed hclosed (hflag v ⟨u, hu, Or.inr ⟨hadj, hin2⟩⟩) hnr
  refine ⟨b2, log, hres, ?_, ?_⟩
  · intro v
    rw [post.marked.isRevealed_iff]
    constructor
    · rintro (h | h)
      · exact Or.inl h
      · exact Or.inr (hsound v h)
    · rintro (h | h)
      · exact Or.inl h
      · by_cases hr : (cellAt b v.1 v.2).isRevealed = true
        · exact Or.inl hr
        · exact Or.inr (hcomplete v h (by simpa using hr))
  · intro v
    constructor
    · intro h
      exact ⟨hsound v h, ((isOpen_eq_true_iff _ _).1 (post.marked.fresh v h).2).1⟩
    · rintro ⟨h1, h2⟩
      exact hcomplete v h1 h2

/-- C4 fails as stated, in two ways.  In the reachable state `stripPlayed`, after placement,
cell `(0, 0)` is unrevealed, unflagged, not a mine and has `neighborMines = 0`; cell `(0, 1)`
belongs to its zero region and cell `(0, 2)` is adjacent to that region; but `(0, 1)` carries a
flag, and `revealCell` on `(0, 0)` reveals neither of them.  In the reachable state
`stripBlocked` no cell is flagged, but the zero cell `(0, 2)` was revealed while its neighbours
were flagged; `revealCell` on `(0, 0)` stops at it and leaves the region cell `(0, 3)` and the
adjacent cell `(0, 4)` unrevealed. -/
theorem flood_fill_flag_counterexample :
    (Reachable stripPlayed ∧ stripPlayed.firstClick = false ∧
      isOpen stripPlayed.board (0, 0) = true ∧
      (cellAt stripPlayed.board 0 0).isMine = false ∧
      (cellAt stripPlayed.board 0 0).neighborMines = 0 ∧
      ZeroRegion stripConfig stripPlayed.board (0, 0) (0, 1) ∧
      FloodSet stripConfig stripPlayed.board (0, 0) (0, 2) ∧
      ∃ res, revealCell stripConfig stripPlayed.board 0 0 = some res ∧
        (cellAt res.1 0 1).isRevealed = false ∧ (cellAt res.1 0 2).isRevealed = false) ∧
    (Reachable stripBlocked ∧ stripBlocked.firstClick = false ∧
      (∀ r < 1, ∀ c < 6, (cellAt stripBlocked.board r c).isFlagged = false) ∧
      isOpen stripBlocked.board (0, 0) = true ∧
      (cellAt stripBlocked.board 0 0).isMine = false ∧
      (cellAt stripBlocked.board 0 0).neighborMines = 0 ∧
      ZeroRegion stripConfig stripBlocked.board (0, 0) (0, 3) ∧
      FloodSet stripConfig stripBlocked.board (0, 0) (0, 4) ∧
      ∃ res, revealCell stripConfig stripBlocked.board 0 0 = some res ∧
        (cellAt res.1 0 3).isRevealed = false ∧ (cellAt res.1 0 4).isRevealed = false) := by
  have hreg : ZeroRegion stripConfig stripPlayed.board (0, 0) (0, 1) :=
    ZeroRegion.step (ZeroRegion.start (by decide) (by decide)) (by decide) (by decide)
      (by decide)
  have hreg1 : ZeroRegion stripConfig stripBlocked.board (0, 0) (0, 1) :=
    ZeroRegion.step (ZeroRegion.start (by decide) (by decide)) (by decide) (by decide)
      (by decide)
  have hreg2 : ZeroRegion stripConfig stripBlocked.board (0, 0) (0, 2) :=
    ZeroRegion.step hreg1 (by decide) (by decide) (by decide)
  have hreg3 : ZeroRegion stripConfig stripBlocked.board (0, 0) (0, 3) :=
    ZeroRegion.step hreg2 (by decide) (by decide) (by decide)
  exact ⟨⟨reachable_stripPlayed, by decide, by decide, by decide, by decide, hreg,
      ⟨(0, 1), hreg, Or.inr ⟨by decide, by decide⟩⟩,
      ⟨_, rfl, by decide, by decide⟩⟩,
    ⟨reachable_stripBlocked, by decide, by decide, by decide, by decide, by decide, hreg3,
      ⟨(0, 3), hreg3, Or.inr ⟨by decide, by decide⟩⟩,
      ⟨_, rfl, by decide, by decide⟩⟩⟩

theorem stripOpened_region (u : Pos)
    (h : ZeroRegion stripConfig stripOpened.board (0, 5) u) : u = (0, 5) := by
  induction h with
  | start _ _ => rfl
  | @step u2 v2 _ hadj hin hz ih =>
    subst ih
    obtain ⟨vr, vc⟩ := v2
    obtain ⟨h1, h2⟩ := hin
    simp only [stripConfig] at h1 h2
    have hr : vr = 0 := by omega
    subst hr
    have hc : vc = 4 ∨ vc = 5 := by
      have := hadj.2.1
      simp only at this
      omega
    rcases hc with rfl | rfl
    · revert hz; decide
    · rfl

/-- Instance of the amended C4: in the strip session without flags, revealing the zero cell
`(0, 5)` marks it and its neighbour `(0, 4)`. -/
theorem flood_fill_region_witness :
    ∃ b2 log, revealCell stripConfig stripOpened.board 0 5 = some (b2, log) ∧
      (∀ v : Pos, (cellAt b2 v.1 v.2).isRevealed = true ↔
        (cellAt stripOpened.board v.1 v.2).isRevealed = true ∨
          FloodSet stripConfig stripOpened.board (0, 5) v) ∧
      (∀ v : Pos, v ∈ log ↔ FloodSet stripConfig stripOpened.board (0, 5) v ∧
        (cellAt stripOpened.board v.1 v.2).isRevealed = false) :=
  flood_fill_region stripConfig stripOpened.board reachable_stripOpened.inv.wf (0, 5)
    (by decide) (by decide) (by decide)
    (fun v hv => by
      have hb : ∀ r < 1, ∀ c < 6, (cellAt stripOpened.board r c).isFlagged = false := by decide
      exact hb v.1 hv.member_inBounds.1 v.2 hv.member_inBounds.2)
    (fun u hu => by rw [stripOpened_region u hu]; decide)

/-! ## Claims about the end of the game and about flags -/

theorem winInv_checkWin {s : State} (ha : s.gameActive = true) : WinInv (checkWin s) := by
  unfold checkWin
  split
  · rename_i h
    refine ⟨fun hh => by simp at hh, fun _ => Or.inl ⟨by simp [gameOver], ?_⟩⟩
    simp only [gameOver_board, gameOver_config]
    exact h
  · rename_i h
    exact ⟨fun _ => h, fun hh => by rw [ha] at hh; cases hh⟩

theorem winInv_gameOver_false {s : State}
    (h : (revealedCount s.config s.board : Int) ≠ winTarget s.config) :
    WinInv (gameOver s false) := by
  refine ⟨fun hh => by simp at hh, fun _ => Or.inr ⟨by simp [gameOver], ?_⟩⟩
  simp only [gameOver_board, gameOver_config]
  exact h

theorem Reachable.winInv {s : State} (hs : Reachable s)
    (hv : s.config.mines ≠ s.config.rows * s.config.cols) : WinInv s := by
  induction hs with
  | reset s0 =>
    have h0 : revealedCount (resetGame s0).config (resetGame s0).board = 0 :=
      countGrid_zero _ _ _ (fun r c => by rw [cellAt_resetGame]; rfl)
    refine ⟨fun _ => ?_, fun hh => by simp [resetGame, createBoard] at hh⟩
    rw [h0]
    unfold winTarget
    rw [resetGame_config] at hv ⊢
    omega
  | @step s s2 cmd hprev hvalid hstep ih =>
    have hcfg := step_config hstep
    have ih2 := ih (by rw [← hcfg]; exact hv)
    have hi := hprev.inv
    cases cmd with
    | reveal r c draws =>
      rcases handleLeftClick_cases hstep with ⟨rfl, _⟩ | ⟨ha, hc, _, s1, hs1, hrest⟩
      · exact ih2
      · have hin : inBounds s.config (r, c) := (hi.wf.hasCell_iff r c).1 hc
        have h1 : s1.config = s.config ∧ s1.gameActive = true ∧ WF s.config s1.board ∧
            revealedCount s.config s1.board = revealedCount s.config s.board := by
          rcases hs1 with ⟨_, hp⟩ | ⟨_, rfl⟩
          · have hwf2 : WF ({ s with firstClick := false, timerRunning := true } : State).config
                ({ s with firstClick := false, timerRunning := true } : State).board := hi.wf
            obtain ⟨e1, e2, _, _, _, _, e5, _, e7, _⟩ := placeMines_effect hwf2 hp
            simp only at e1 e2 e5 e7
            exact ⟨e1, by rw [e2]; exact ha, e5,
              countGrid_congr _ _ _ (fun x => x.isRevealed) e7⟩
          · exact ⟨rfl, ha, hi.wf, rfl⟩
        obtain ⟨e1, e2, e3, e4⟩ := h1
        rcases hrest with ⟨_, rfl⟩ | ⟨_, res, _, rfl⟩
        · apply winInv_gameOver_false
          rw [e1, e4]; exact ih2.1 ha
        · exact winInv_checkWin e2
    | toggleFlag r c =>
      rcases handleRightClick_cases hstep with ⟨rfl, _⟩ | ⟨ha, hc, hr, rfl⟩
      · exact ih2
      · have hsame : revealedCount s.config (modifyCell s.board r c
            (fun x => { x with isFlagged := !(cellAt s.board r c).isFlagged }))
            = revealedCount s.config s.board := by
          apply countGrid_congr
          intro r2 c2
          rw [cellAt_modifyCell]; split
          · rename_i he; rw [he.1, he.2.1]
          · rfl
        refine ⟨fun _ => ?_, fun hh => ?_⟩
        · simp only [hsame]; exact ih2.1 ha
        · simp only at hh; rw [ha] at hh; cases hh

/-- C6 fails as stated: right after `resetGame`, for the configuration of one cell and one
mine and for the configuration without rows, the number of revealed cells (0) equals
`rows * cols - mines` (0), yet the phase is `notStarted`, not `won`. -/
theorem win_iff_counterexample :
    (Reachable (resetGame (initialState fullConfig)) ∧
      (revealedCount (resetGame (initialState fullConfig)).config
        (resetGame (initialState fullConfig)).board : Int)
        = winTarget (resetGame (initialState fullConfig)).config ∧
      phase (resetGame (initialState fullConfig)) = Phase.notStarted ∧
      phase (resetGame (initialState fullConfig)) ≠ Phase.won) ∧
    (Reachable (resetGame (initialState emptyConfig)) ∧
      (revealedCount (resetGame (initialState emptyConfig)).config
        (resetGame (initialState emptyConfig)).board : Int)
        = winTarget (resetGame (initialState emptyConfig)).config ∧
      phase (resetGame (initialState emptyConfig)) = Phase.notStarted ∧
      phase (resetGame (initialState emptyConfig)) ≠ Phase.won) := by
  refine ⟨⟨Reachable.reset _, by decide, by decide, by decide⟩,
    ⟨Reachable.reset _, by decide, by decide, by decide⟩⟩

/-- C6, as amended: in a state reachable from `resetGame` by reveal and toggleFlag commands,
for a configuration whose number of mines differs from `rows * cols` (as it does whenever
`mines < rows * cols`, so for the three entries of `DIFFICULTIES`), the phase is `won` if and
only if the number of revealed cells equals `rows * cols - mines`; a command turns the phase
into `won` exactly when it brings the revealed count to that value, and only a reveal command
does. -/
theorem win_condition (s : State) (hs : Reachable s)
    (hv : s.config.mines ≠ s.config.rows * s.config.cols) :
    (phase s = Phase.won ↔ (revealedCount s.config s.board : Int) = winTarget s.config) ∧
    (∀ (cmd : Command) (s2 : State), cmd.valid s.config → step s cmd = Except.ok s2 →
      ((phase s2 = Phase.won ∧ phase s ≠ Phase.won) ↔
        ((revealedCount s2.config s2.board : Int) = winTarget s2.config ∧
          (revealedCount s.config s.board : Int) ≠ winTarget s.config)) ∧
      (phase s ≠ Phase.won → phase s2 = Phase.won → ∃ r c draws, cmd = Command.reveal r c draws))
    := by
  have key : ∀ t : State, Reachable t → t.config.mines ≠ t.config.rows * t.config.cols →
      (phase t = Phase.won ↔ (revealedCount t.config t.board : Int) = winTarget t.config) := by
    intro t ht hvt
    have hw := ht.winInv hvt
    rw [phase_won_iff]
    constructor
    · rintro ⟨ha, hm⟩
      rcases hw.2 ha with ⟨_, h⟩ | ⟨h, _⟩
      · exact h
      · rw [hm] at h; cases h
    · intro hc
      cases ha : t.gameActive
      · rcases hw.2 ha with ⟨h, _⟩ | ⟨_, h⟩
        · exact ⟨rfl, h⟩
        · exact absurd hc h
      · exact absurd hc (hw.1 ha)
  refine ⟨key s hs hv, ?_⟩
  intro cmd s2 hvalid hstep
  have hcfg := step_config hstep
  have hs2 : Reachable s2 := Reachable.step cmd hs hvalid hstep
  have k1 := key s hs hv
  have k2 := key s2 hs2 (by rw [hcfg]; exact hv)
  refine ⟨?_, ?_⟩
  · rw [k2, Ne, Ne, k1]
  · intro h1 h2
    cases cmd with
    | reveal r c draws => exact ⟨r, c, draws, rfl⟩
    | toggleFlag r c =>
      exfalso
      rcases handleRightClick_cases hstep with ⟨rfl, _⟩ | ⟨ha, _, _, rfl⟩
      · exact h1 h2
      · rw [phase_won_iff] at h2
        simp only at h2
        rw [ha] at h2
        cases h2.1

/-- Instance of the amended C6: the demo session just before and after its winning
reveal. -/
theorem win_condition_witness :
    (phase demoUnflagged = Phase.won ↔
      (revealedCount demoUnflagged.config demoUnflagged.board : Int)
        = winTarget demoUnflagged.config) ∧
    ((phase demoWon = Phase.won ∧ phase demoUnflagged ≠ Phase.won) ↔
      ((revealedCount demoWon.config demoWon.board : Int) = winTarget demoWon.config ∧
        (revealedCount demoUnflagged.config demoUnflagged.board : Int)
          ≠ winTarget demoUnflagged.config)) :=
  ⟨(win_condition demoUnflagged reachable_demoUnflagged (by decide)).1,
    ((win_condition demoUnflagged reachable_demoUnflagged (by decide)).2
      (Command.reveal 0 4 []) demoWon (by intro d hd; cases hd) (by rfl)).1⟩

/-- C7 (loss condition): in a state in progress (active, mines placed), a `handleLeftClick`
on an in-bounds, unrevealed, unflagged cell that holds a mine returns the state `gameOver`
makes for a loss: `gameActive` is false, the phase is `lost`, the board is unchanged, and the
cells `revealAllMines` picks are, without repetition, exactly the in-bounds cells that hold a
mine, flagged ones included. -/
theorem loss_condition (s : State) (hwf : WF s.config s.board) (ha : s.gameActive = true)
    (hfc : s.firstClick = false) (r c : Nat) (hin : inBounds s.config (r, c))
    (hm : (cellAt s.board r c).isMine = true) (hr : (cellAt s.board r c).isRevealed = false)
    (hf : (cellAt s.board r c).isFlagged = false) (draws : List Pos) :
    handleLeftClick s r c draws = Except.ok (gameOver s false) ∧
    (gameOver s false).gameActive = false ∧ phase (gameOver s false) = Phase.lost ∧
    (gameOver s false).board = s.board ∧
    (gameOver s false).mineReveal = revealAllMines s.config s.board ∧
    (revealAllMines s.config s.board).Nodup ∧
    (∀ p : Pos, p ∈ revealAllMines s.config s.board ↔
      inBounds s.config p ∧ (cellAt s.board p.1 p.2).isMine = true) ∧
    (∀ p : Pos, inBounds s.config p → (cellAt s.board p.1 p.2).isMine = true →
      (cellAt s.board p.1 p.2).isFlagged = true → p ∈ (gameOver s false).mineReveal) := by
  have hc : hasCell s.board r c = true := (hwf.hasCell_iff r c).2 hin
  have hmem : ∀ p : Pos, p ∈ revealAllMines s.config s.board ↔
      inBounds s.config p ∧ (cellAt s.board p.1 p.2).isMine = true := by
    intro p
    simp only [revealAllMines, List.mem_filter, mem_positions, inBounds]
  refine ⟨?_, by simp, ?_, by simp, by simp [gameOver], (nodup_positions _).filter _, hmem, ?_⟩
  · unfold handleLeftClick
    simp [ha, hc, hr, hf, hfc, hm]
  · rw [phase_lost_iff]; simp [gameOver]
  · intro p h1 h2 _
    have : (gameOver s false).mineReveal = revealAllMines s.config s.board := by
      simp [gameOver]
    rw [this]
    exact (hmem p).2 ⟨h1, h2⟩

/-- Instance of C7: the click on the mine of the demo session. -/
theorem loss_condition_witness :
    handleLeftClick demoPlayed 0 3 [] = Except.ok (gameOver demoPlayed false) ∧
    (gameOver demoPlayed false).gameActive = false ∧
    phase (gameOver demoPlayed false) = Phase.lost ∧
    (gameOver demoPlayed false).board = demoPlayed.board ∧
    (gameOver demoPlayed false).mineReveal = revealAllMines demoPlayed.config demoPlayed.board ∧
    (revealAllMines demoPlayed.config demoPlayed.board).Nodup ∧
    (∀ p : Pos, p ∈ revealAllMines demoPlayed.config demoPlayed.board ↔
      inBounds demoPlayed.config p ∧ (cellAt demoPlayed.board p.1 p.2).isMine = true) ∧
    (∀ p : Pos, inBounds demoPlayed.config p → (cellAt demoPlayed.board p.1 p.2).isMine = true →
      (cellAt demoPlayed.board p.1 p.2).isFlagged = true →
      p ∈ (gameOver demoPlayed false).mineReveal) :=
  loss_condition demoPlayed reachable_demoPlayed.inv.wf (by decide) (by decide) 0 3
    (by decide) (by decide) (by decide) (by decide) []

/-! ## Claims about flags and no-ops -/

theorem cellAt_of_not_hasCell {b : Board} {r c : Nat} (h : hasCell b r c = false) :
    cellAt b r c = blankCell r c := by
  unfold hasCell at h
  unfold cellAt
  simp only [decide_eq_false_iff_not, not_and, not_lt] at h
  simp only [List.getD_eq_getElem?_getD]
  by_cases hr : r < b.length
  · have hlen := h hr
    simp only [List.getD_eq_getElem?_getD] at hlen
    rw [List.getElem?_eq_none hlen]; rfl
  · have hn : b[r]? = none := List.getElem?_eq_none (by omega)
    rw [hn]; rfl

/-- C8 (flag/reveal mutual exclusion): on a well-formed board, a cell that is flagged and
unrevealed before a `handleLeftClick`, aimed at it or at any other cell, is flagged and
unrevealed after it; `handleRightClick` on a revealed cell returns the state unchanged; and in
a state reachable from `resetGame` no cell is both flagged and revealed. -/
theorem flag_reveal_exclusion (s : State) (hwf : WF s.config s.board) :
    (∀ (r c : Nat) (draws : List Pos) (s2 : State),
      handleLeftClick s r c draws = Except.ok s2 →
      ∀ fr fc, (cellAt s.board fr fc).isFlagged = true →
        (cellAt s.board fr fc).isRevealed = false →
        (cellAt s2.board fr fc).isFlagged = true ∧ (cellAt s2.board fr fc).isRevealed = false) ∧
    (∀ r c, (cellAt s.board r c).isRevealed = true → handleRightClick s r c = Except.ok s) ∧
    (Reachable s → ∀ r c,
      ¬ ((cellAt s.board r c).isFlagged = true ∧ (cellAt s.board r c).isRevealed = true)) := by
  refine ⟨?_, ?_, ?_⟩
  · intro r c draws s2 h fr fc hfl hrev
    rcases handleLeftClick_cases h with ⟨rfl, _⟩ | ⟨_, hc, _, s1, hs1, hrest⟩
    · exact ⟨hfl, hrev⟩
    · have hin : inBounds s.config (r, c) := (hwf.hasCell_iff r c).1 hc
      have h1 : s1.config = s.config ∧ WF s.config s1.board ∧
          (cellAt s1.board fr fc).isFlagged = true ∧
          (cellAt s1.board fr fc).isRevealed = false := by
        rcases hs1 with ⟨_, hp⟩ | ⟨_, rfl⟩
        · have hwf2 : WF ({ s with firstClick := false, timerRunning := true } : State).config
              ({ s with firstClick := false, timerRunning := true } : State).board := hwf
          obtain ⟨e1, _, _, _, _, _, e5, e6, e7, _⟩ := placeMines_effect hwf2 hp
          simp only at e1 e5 e6 e7
          exact ⟨e1, e5, by rw [e6]; exact hfl, by rw [e7]; exact hrev⟩
        · exact ⟨rfl, hwf, hfl, hrev⟩
      obtain ⟨e1, e2, e3, e4⟩ := h1
      rcases hrest with ⟨_, rfl⟩ | ⟨_, res, hres, rfl⟩
      · simp only [gameOver_board]; exact ⟨e3, e4⟩
      · have post := revealCell_some (by rw [e1]; exact e2) (by rw [e1]; exact hin) hres
        simp only [checkWin_board]
        refine ⟨by rw [post.marked.isFlagged_eq]; exact e3, ?_⟩
        by_contra hn
        have hr2 : (cellAt res.1 fr fc).isRevealed = true := by simpa using hn
        rcases (post.marked.isRevealed_iff fr fc).1 hr2 with h3 | h3
        · rw [e4] at h3; cases h3
        · have := ((isOpen_eq_true_iff _ _).1 (post.marked.fresh _ h3).2).2
          simp only at this
          rw [e3] at this; cases this
  · intro r c hr
    unfold handleRightClick
    cases ha : s.gameActive
    · simp
    · have hc : hasCell s.board r c = true := by
        by_contra hn
        have hb := cellAt_of_not_hasCell (by simpa using hn : hasCell s.board r c = false)
        rw [hb] at hr
        cases hr
      simp [hc, hr]
  · intro hs r c hboth
    have := hs.inv.excl r c hboth.1
    rw [hboth.2] at this
    cases this

/-- Instance of C8: the flag on the last cell of the demo session survives the first click,
and a right click on the revealed cell `(0, 0)` changes nothing. -/
theorem flag_reveal_exclusion_witness :
    ((cellAt demoPlayed.board 0 4).isFlagged = true ∧
      (cellAt demoPlayed.board 0 4).isRevealed = false) ∧
    handleRightClick demoPlayed 0 0 = Except.ok demoPlayed :=
  ⟨(flag_reveal_exclusion demoFlagged reachable_demoFlagged.inv.wf).1 0 0 demoDraws demoPlayed
      (by rfl) 0 4 (by decide) (by decide),
    (flag_reveal_exclusion demoPlayed reachable_demoPlayed.inv.wf).2.1 0 0 (by decide)⟩

/-- C9 (no-ops after the end of the game): when `gameActive` is false, `handleLeftClick` and
`handleRightClick` return the state unchanged, for every cell and every random draws: no
cell, nor `minesLeft`, `firstClick` or the phase changes. -/
theorem noop_after_game_over (s : State) (h : s.gameActive = false) (r c : Nat)
    (draws : List Pos) :
    handleLeftClick s r c draws = Except.ok s ∧ handleRightClick s r c = Except.ok s := by
  constructor
  · unfold handleLeftClick; simp [h]
  · unfold handleRightClick; simp [h]

/-- Instance of C9: clicks on the lost demo session. -/
theorem noop_after_game_over_witness :
    handleLeftClick demoLost 0 4 [] = Except.ok demoLost ∧
    handleRightClick demoLost 0 4 = Except.ok demoLost :=
  noop_after_game_over demoLost (by decide) 0 4 []

/-- C10 (remaining-mine counter): in a state reachable from `resetGame` by reveal and
toggleFlag commands, `minesLeft` equals `config.mines` minus the number of flagged cells; it
is negative exactly when more cells are flagged than there are mines. -/
theorem mines_left_invariant (s : State) (hs : Reachable s) :
    s.minesLeft = (s.config.mines : Int) - (flagCount s.config s.board : Int) ∧
    (s.minesLeft < 0 ↔ s.config.mines < flagCount s.config s.board) := by
  have h := hs.inv.minesLeft
  refine ⟨h, ?_⟩
  rw [h]; omega

/-- Instance of C10: two flags on the one-mine demo board leave `minesLeft` at `-1`. -/
theorem mines_left_invariant_witness :
    demoOverflagged.minesLeft = (1 : Int) - (2 : Int) ∧
    (demoOverflagged.minesLeft < 0 ↔ 1 < 2) :=
  mines_left_invariant demoOverflagged reachable_demoOverflagged

/-! ## Claims about flag toggling and reset -/

/-- C11 (toggleFlag effect): in a state with `gameActive` true, before or after placement, for
an in-bounds unrevealed cell `(r, c)`, `handleRightClick` returns; it flips `isFlagged` of that
cell and changes nothing else of it (whatever its `isMine`), leaves every other cell as it
was, changes `minesLeft` by `-1` when the cell becomes flagged and by `+1` when it becomes
unflagged, leaves `config`, `gameActive`, `firstClick`, the message and the phase unchanged;
and a second `handleRightClick` on the same cell returns exactly the original state. -/
theorem toggle_flag_effect (s : State) (hwf : WF s.config s.board) (ha : s.gameActive = true)
    (r c : Nat) (hin : inBounds s.config (r, c))
    (hr : (cellAt s.board r c).isRevealed = false) :
    ∃ s2, handleRightClick s r c = Except.ok s2 ∧
      cellAt s2.board r c
        = { cellAt s.board r c with isFlagged := !(cellAt s.board r c).isFlagged } ∧
      (∀ r2 c2, (r2, c2) ≠ (r, c) → cellAt s2.board r2 c2 = cellAt s.board r2 c2) ∧
      s2.minesLeft = s.minesLeft + (if (cellAt s2.board r c).isFlagged then -1 else 1) ∧
      s2.config = s.config ∧ s2.gameActive = s.gameActive ∧ s2.firstClick = s.firstClick ∧
      s2.gameMessage = s.gameMessage ∧ phase s2 = phase s ∧
      handleRightClick s2 r c = Except.ok s := by
  have hc : hasCell s.board r c = true := (hwf.hasCell_iff r c).2 hin
  have hret : handleRightClick s r c = Except.ok { s with
      board := modifyCell s.board r c
        (fun x => { x with isFlagged := !(cellAt s.board r c).isFlagged }),
      minesLeft := s.minesLeft + (if !(cellAt s.board r c).isFlagged then -1 else 1) } := by
    unfold handleRightClick
    simp [ha, hc, hr]
  have hself : cellAt (modifyCell s.board r c
      (fun x => { x with isFlagged := !(cellAt s.board r c).isFlagged })) r c
      = { cellAt s.board r c with isFlagged := !(cellAt s.board r c).isFlagged } := by
    rw [cellAt_modifyCell]; simp [hc]
  have hc2 : hasCell (modifyCell s.board r c
      (fun x => { x with isFlagged := !(cellAt s.board r c).isFlagged })) r c = true :=
    ((WF_modifyCell hwf r c _).hasCell_iff r c).2 hin
  refine ⟨_, hret, hself, ?_, ?_, rfl, rfl, rfl, rfl, ?_, ?_⟩
  · intro r2 c2 hne
    simp only
    rw [cellAt_modifyCell]
    have : ¬ (r2 = r ∧ c2 = c ∧ hasCell s.board r c = true) := by
      intro h3; apply hne; rw [h3.1, h3.2.1]
    rw [if_neg this]
  · simp only
    rw [hself]
  · simp only [phase]
  · unfold handleRightClick
    simp only [ha, Bool.not_true, Bool.false_eq_true, if_false, hc2, hself, hr]
    have hboard : modifyCell (modifyCell s.board r c
        (fun x => { x with isFlagged := !(cellAt s.board r c).isFlagged })) r c
        (fun x => { x with isFlagged := !(!(cellAt s.board r c).isFlagged) }) = s.board := by
      rw [modifyCell_modifyCell]
      apply modifyCell_fixed
      intro _
      simp
    have hleft : s.minesLeft + (if (!(cellAt s.board r c).isFlagged) = true then -1 else 1)
        + (if (!(!(cellAt s.board r c).isFlagged)) = true then -1 else 1) = s.minesLeft := by
      cases (cellAt s.board r c).isFlagged <;> simp
    simp only [hboard, hleft]
    rw [← ha]

/-- Instance of C11: flagging the last cell of the fresh demo session and unflagging it. -/
theorem toggle_flag_effect_witness :
    ∃ s2, handleRightClick demoFresh 0 4 = Except.ok s2 ∧
      cellAt s2.board 0 4
        = { cellAt demoFresh.board 0 4 with isFlagged := !(cellAt demoFresh.board 0 4).isFlagged } ∧
      (∀ r2 c2, (r2, c2) ≠ (0, 4) → cellAt s2.board r2 c2 = cellAt demoFresh.board r2 c2) ∧
      s2.minesLeft = demoFresh.minesLeft + (if (cellAt s2.board 0 4).isFlagged then -1 else 1) ∧
      s2.config = demoFresh.config ∧ s2.gameActive = demoFresh.gameActive ∧
      s2.firstClick = demoFresh.firstClick ∧ s2.gameMessage = demoFresh.gameMessage ∧
      phase s2 = phase demoFresh ∧ handleRightClick s2 0 4 = Except.ok demoFresh :=
  toggle_flag_effect demoFresh reachable_demoFresh.inv.wf (by decide) 0 4 (by decide)
    (by decide)

/-- C12 (reset postcondition): for every configuration and every previous state, after
`resetGame` the board has exactly `rows` rows of exactly `cols` cells, the cell at `[r][c]`
records `row = r`, `col = c` and has `isMine`, `isRevealed`, `isFlagged` false and
`neighborMines = 0`; `gameActive` and `firstClick` are true, `minesLeft = config.mines`,
`timeElapsed = 0`, the phase is `notStarted`; and the new board does not depend on the
previous board or any other field but `config`. -/
theorem reset_postcondition (s : State) :
    (resetGame s).board.length = s.config.rows ∧
    (∀ row ∈ (resetGame s).board, row.length = s.config.cols) ∧
    (∀ r c, r < s.config.rows → c < s.config.cols →
      hasCell (resetGame s).board r c = true ∧
      (cellAt (resetGame s).board r c).row = r ∧ (cellAt (resetGame s).board r c).col = c ∧
      (cellAt (resetGame s).board r c).isMine = false ∧
      (cellAt (resetGame s).board r c).isRevealed = false ∧
      (cellAt (resetGame s).board r c).isFlagged = false ∧
      (cellAt (resetGame s).board r c).neighborMines = 0) ∧
    (resetGame s).config = s.config ∧ (resetGame s).gameActive = true ∧
    (resetGame s).firstClick = true ∧ (resetGame s).minesLeft = (s.config.mines : Int) ∧
    (resetGame s).timeElapsed = 0 ∧ phase (resetGame s) = Phase.notStarted ∧
    (∀ s0 : State, s0.config = s.config → (resetGame s0).board = (resetGame s).board) := by
  have hwf : WF s.config (resetGame s).board := (inv_resetGame s).wf
  refine ⟨hwf.1, hwf.2, ?_, rfl, rfl, rfl, rfl, rfl, rfl, ?_⟩
  · intro r c hr hc
    refine ⟨(hwf.hasCell_iff r c).2 ⟨hr, hc⟩, ?_⟩
    rw [cellAt_resetGame]
    exact ⟨rfl, rfl, rfl, rfl, rfl, rfl⟩
  · intro s0 h0
    rw [resetGame_board, resetGame_board, h0]

/-! ## Claims about configuration checks and the exploded mine -/

/-- C13 fails as stated: `resetGame` checks nothing.  For the configuration of one cell and one
mine (`mineCount = rows * cols`) and for a configuration without rows, both invalid for the
specification, it returns an active session with `minesLeft = config.mines` and with the
board built: one blank cell in the first case, no row in the second. -/
theorem config_validation_counterexample :
    (¬ validConfig fullConfig ∧
      (resetGame (initialState fullConfig)).gameActive = true ∧
      (resetGame (initialState fullConfig)).minesLeft = 1 ∧
      (resetGame (initialState fullConfig)).board = [[blankCell 0 0]]) ∧
    (¬ validConfig emptyConfig ∧
      (resetGame (initialState emptyConfig)).gameActive = true ∧
      (resetGame (initialState emptyConfig)).board = []) := by
  refine ⟨⟨by decide, rfl, rfl, rfl⟩, ⟨by decide, rfl, rfl⟩⟩

/-- C13, as amended: `resetGame` performs no validation and returns for every configuration,
valid for the specification or not: the session is active, `minesLeft = config.mines`, and the
board has `rows` rows of `cols` blank cells; the three entries of `DIFFICULTIES`, the only
configurations the program passes to it, satisfy `rows, cols ≥ 1` and
`0 ≤ mines < rows * cols`. -/
theorem reset_accepts_every_configuration (s : State) :
    (resetGame s).config = s.config ∧ (resetGame s).gameActive = true ∧
    (resetGame s).minesLeft = (s.config.mines : Int) ∧
    WF s.config (resetGame s).board ∧
    (∀ r c, cellAt (resetGame s).board r c = blankCell r c) ∧
    (∀ d : Difficulty, validConfig (DIFFICULTIES d)) := by
  refine ⟨rfl, rfl, rfl, (inv_resetGame s).wf, cellAt_resetGame s, ?_⟩
  intro d
  cases d <;> decide

/-- C14 fails as stated: in the demo session in progress, cell `(0, 3)` is an unrevealed,
unflagged mine; the click on it ends the game as lost, and the cell still has
`isRevealed = false`. -/
theorem exploded_mine_counterexample :
    Reachable demoPlayed ∧ phase demoPlayed = Phase.inProgress ∧
    (cellAt demoPlayed.board 0 3).isMine = true ∧
    (cellAt demoPlayed.board 0 3).isRevealed = false ∧
    (cellAt demoPlayed.board 0 3).isFlagged = false ∧
    handleLeftClick demoPlayed 0 3 [] = Except.ok demoLost ∧
    phase demoLost = Phase.lost ∧
    (cellAt demoLost.board 0 3).isRevealed = false := by
  refine ⟨reachable_demoPlayed, by decide, by decide, by decide, by decide, rfl, by decide,
    by decide⟩

/-- C14, as amended: in a state in progress, a `handleLeftClick` on an in-bounds, unrevealed,
unflagged cell that holds a mine returns and ends the game as lost without writing any cell:
every cell, the clicked one included, is as before, so the clicked mine keeps
`isRevealed = false` like every other unrevealed mine; the clicked cell is one of the cells
`revealAllMines` picks for display. -/
theorem exploded_mine_unrevealed (s : State) (hwf : WF s.config s.board)
    (ha : s.gameActive = true) (hfc : s.firstClick = false) (r c : Nat)
    (hin : inBounds s.config (r, c)) (hm : (cellAt s.board r c).isMine = true)
    (hr : (cellAt s.board r c).isRevealed = false)
    (hf : (cellAt s.board r c).isFlagged = false) (draws : List Pos) :
    ∃ s2, handleLeftClick s r c draws = Except.ok s2 ∧ phase s2 = Phase.lost ∧
      (∀ r2 c2, cellAt s2.board r2 c2 = cellAt s.board r2 c2) ∧
      (cellAt s2.board r c).isRevealed = false ∧ (r, c) ∈ s2.mineReveal := by
  have hc : hasCell s.board r c = true := (hwf.hasCell_iff r c).2 hin
  refine ⟨gameOver s false, ?_, ?_, ?_, ?_, ?_⟩
  · unfold handleLeftClick
    simp [ha, hc, hr, hf, hfc, hm]
  · rw [phase_lost_iff]; simp [gameOver]
  · intro r2 c2; rw [gameOver_board]
  · rw [gameOver_board]; exact hr
  · simp only [gameOver, Bool.false_eq_true, if_false, revealAllMines, List.mem_filter,
      mem_positions]
    exact ⟨hin, hm⟩

/-- Instance of the amended C14: the click on the mine of the strip session. -/
theorem exploded_mine_unrevealed_witness :
    ∃ s2, handleLeftClick stripOpened 0 3 [] = Except.ok s2 ∧ phase s2 = Phase.lost ∧
      (∀ r2 c2, cellAt s2.board r2 c2 = cellAt stripOpened.board r2 c2) ∧
      (cellAt s2.board 0 3).isRevealed = false ∧ (0, 3) ∈ s2.mineReveal :=
  exploded_mine_unrevealed stripOpened reachable_stripOpened.inv.wf (by decide) (by decide)
    0 3 (by decide) (by decide) (by decide) (by decide) []

/-! ## Claims about the zero start and the stability of cell attributes -/

/-- C15 (zero start): in a reachable state in which no reveal has succeeded yet, for an
in-bounds unflagged cell `(r, c)` and random draws on which `placeMines` returns, the board that
`placeMines` leaves has `neighborMines = 0` at `(r, c)`; `handleLeftClick` on `(r, c)` returns,
and afterwards `(r, c)` still has `neighborMines = 0`, is revealed, and every in-bounds cell at
Chebyshev distance at most one from it that was unflagged is revealed. -/
theorem zero_start (s : State) (hs : Reachable s) (hf : s.firstClick = true)
    (r c : Nat) (hin : inBounds s.config (r, c))
    (hfl : (cellAt s.board r c).isFlagged = false) (draws : List Pos) (s1 : State)
    (hp : placeMines { s with firstClick := false, timerRunning := true } r c draws = some s1) :
    (cellAt s1.board r c).neighborMines = 0 ∧
    ∃ s2, handleLeftClick s r c draws = Except.ok s2 ∧
      (cellAt s2.board r c).neighborMines = 0 ∧
      (cellAt s2.board r c).isRevealed = true ∧
      (∀ nr nc, inBounds s.config (nr, nc) → near (nr, nc) (r, c) →
        (cellAt s.board nr nc).isFlagged = false → (cellAt s2.board nr nc).isRevealed = true) := by
  obtain ⟨_, _, _, _, _, hflag, hrev, hzero, res, _, post, hret⟩ :=
    first_click_run s hs hf r c hin hfl draws s1 hp
  have hself : (r, c) ∈ res.2 :=
    post.mem_of_closed (post.done (r, c) (List.mem_singleton_self _))
      (by rw [hflag]; exact hfl) (hrev r c)
  have hzero2 : (cellAt res.1 r c).neighborMines = 0 := by
    rw [post.marked.neighborMines_eq]; exact hzero
  refine ⟨hzero, _, hret, ?_, ?_, ?_⟩
  · rw [checkWin_board]; exact hzero2
  · rw [checkWin_board]
    exact (post.marked.isRevealed_iff r c).2 (Or.inr hself)
  · intro nr nc hin2 hnear hfl2
    rw [checkWin_board]
    have hw : (nr, nc) ∈ window s.config r c :=
      (mem_window s.config r c (nr, nc)).2 ⟨hin2.1, hin2.2, hnear.1, hnear.2⟩
    have hclosed := post.closed (r, c) hself hzero2 (nr, nc) hw
    have hmem : (nr, nc) ∈ res.2 :=
      post.mem_of_closed hclosed (by rw [hflag]; exact hfl2) (hrev nr nc)
    exact (post.marked.isRevealed_iff nr nc).2 (Or.inr hmem)

/-- Instance of C15: the first click of the strip session without flags. -/
theorem zero_start_witness :
    (cellAt ((placeMines { stripFresh with firstClick := false, timerRunning := true }
      0 0 [(0, 3)]).getD stripFresh).board 0 0).neighborMines = 0 ∧
    ∃ s2, handleLeftClick stripFresh 0 0 [(0, 3)] = Except.ok s2 ∧
      (cellAt s2.board 0 0).neighborMines = 0 ∧
      (cellAt s2.board 0 0).isRevealed = true ∧
      (∀ nr nc, inBounds stripFresh.config (nr, nc) → near (nr, nc) (0, 0) →
        (cellAt stripFresh.board nr nc).isFlagged = false →
        (cellAt s2.board nr nc).isRevealed = true) :=
  zero_start stripFresh reachable_stripFresh (by decide) 0 0 (by decide) (by decide) [(0, 3)]
    ((placeMines { stripFresh with firstClick := false, timerRunning := true }
      0 0 [(0, 3)]).getD stripFresh)
    (by rfl)

/-- C16 (stability of cell attributes): on a well-formed board, a `handleLeftClick` that
returns either changes nothing or leaves `firstClick` false; once `firstClick` is false,
`handleLeftClick` does not depend on the random draws (`placeMines` is not run again), and
every reveal or toggleFlag command that returns leaves `firstClick` false, leaves `isMine` and
`neighborMines` of every cell unchanged, and leaves every revealed cell revealed. -/
theorem attributes_stable (s : State) (hwf : WF s.config s.board) :
    (∀ (r c : Nat) (draws : List Pos) (s2 : State),
      handleLeftClick s r c draws = Except.ok s2 → s2 = s ∨ s2.firstClick = false) ∧
    (s.firstClick = false →
      (∀ (r c : Nat) (draws : List Pos),
        handleLeftClick s r c draws = handleLeftClick s r c []) ∧
      (∀ (cmd : Command) (s2 : State), step s cmd = Except.ok s2 →
        s2.firstClick = false ∧
        ∀ r c, (cellAt s2.board r c).isMine = (cellAt s.board r c).isMine ∧
          (cellAt s2.board r c).neighborMines = (cellAt s.board r c).neighborMines ∧
          ((cellAt s.board r c).isRevealed = true → (cellAt s2.board r c).isRevealed = true))) := by
  refine ⟨?_, fun hf => ⟨?_, ?_⟩⟩
  · intro r c draws s2 h
    rcases handleLeftClick_cases h with ⟨rfl, _⟩ | ⟨_, _, _, s1, hs1, hrest⟩
    · exact Or.inl rfl
    · right
      have h1 : s1.firstClick = false := by
        rcases hs1 with ⟨_, hp⟩ | ⟨hf, rfl⟩
        · have hwf2 : WF ({ s with firstClick := false, timerRunning := true } : State).config
              ({ s with firstClick := false, timerRunning := true } : State).board := hwf
          exact (placeMines_effect hwf2 hp).2.2.1
        · exact hf
      rcases hrest with ⟨_, rfl⟩ | ⟨_, res, _, rfl⟩
      · rw [gameOver_firstClick]; exact h1
      · rw [checkWin_firstClick]; exact h1
  · intro r c draws
    unfold handleLeftClick
    simp [hf]
  · intro cmd s2 h
    cases cmd with
    | reveal r c draws =>
      rcases handleLeftClick_cases h with ⟨rfl, _⟩ | ⟨_, hc, _, s1, hs1, hrest⟩
      · exact ⟨hf, fun r c => ⟨rfl, rfl, fun h => h⟩⟩
      · have hin : inBounds s.config (r, c) := (hwf.hasCell_iff r c).1 hc
        rcases hs1 with ⟨hf2, _⟩ | ⟨_, rfl⟩
        · rw [hf] at hf2; cases hf2
        · rcases hrest with ⟨_, rfl⟩ | ⟨_, res, hres, rfl⟩
          · refine ⟨by rw [gameOver_firstClick]; exact hf, fun r2 c2 => ?_⟩
            rw [gameOver_board]; exact ⟨rfl, rfl, fun h => h⟩
          · have post := revealCell_some hwf hin hres
            refine ⟨by rw [checkWin_firstClick]; exact hf, fun r2 c2 => ?_⟩
            rw [checkWin_board]
            exact ⟨post.marked.isMine_eq r2 c2, post.marked.neighborMines_eq r2 c2,
              fun h => (post.marked.isRevealed_iff r2 c2).2 (Or.inl h)⟩
    | toggleFlag r c =>
      rcases handleRightClick_cases h with ⟨rfl, _⟩ | ⟨_, _, _, rfl⟩
      · exact ⟨hf, fun r c => ⟨rfl, rfl, fun h => h⟩⟩
      · refine ⟨hf, fun r2 c2 => ?_⟩
        simp only
        rw [cellAt_modifyCell]
        split
        · rename_i he
          rw [he.1, he.2.1]
          exact ⟨rfl, rfl, fun h => h⟩
        · exact ⟨rfl, rfl, fun h => h⟩

/-- Instance of C16: the winning reveal of the demo session keeps the mines and counts. -/
theorem attributes_stable_witness :
    (handleLeftClick demoUnflagged 0 4 [(0, 0)] = handleLeftClick demoUnflagged 0 4 []) ∧
    (demoWon.firstClick = false ∧
      ∀ r c, (cellAt demoWon.board r c).isMine = (cellAt demoUnflagged.board r c).isMine ∧
        (cellAt demoWon.board r c).neighborMines
          = (cellAt demoUnflagged.board r c).neighborMines ∧
        ((cellAt demoUnflagged.board r c).isRevealed = true →
          (cellAt demoWon.board r c).isRevealed = true)) :=
  ⟨((attributes_stable demoUnflagged reachable_demoUnflagged.inv.wf).2 (by decide)).1
      0 4 [(0, 0)],
    ((attributes_stable demoUnflagged reachable_demoUnflagged.inv.wf).2 (by decide)).2
      (Command.reveal 0 4 []) demoWon (by rfl)⟩

/-! ## Claims about the exact reveal set and about mines staying covered -/

/-- C17 (exact reveal set): on any well-formed board, for an in-bounds, unrevealed, unflagged
cell `o`, `revealCell` on `o` returns, and a cell `v` changes its `isRevealed` (from false to
true) exactly when there is a path from `o` to `v` of adjacent in-bounds cells that were all
unrevealed and unflagged before the call and all but the last of which have
`neighborMines = 0`; these are the cells in the list of marked cells.  In particular a cell
with `neighborMines > 0` marks only itself, and a flagged cell is not written at all. -/
theorem exact_reveal_set (cfg : Config) (b : Board) (hwf : WF cfg b) (o : Pos)
    (hin : inBounds cfg o) (ho : isOpen b o = true) :
    ∃ b2 log, revealCell cfg b o.1 o.2 = some (b2, log) ∧
      (∀ v : Pos,
        ((cellAt b v.1 v.2).isRevealed = false ∧ (cellAt b2 v.1 v.2).isRevealed = true) ↔
          ∃ path : List Pos, path.head? = some o ∧ path.getLast? = some v ∧
            fillPath cfg b path) ∧
      (∀ v : Pos, v ∈ log ↔
        ((cellAt b v.1 v.2).isRevealed = false ∧ (cellAt b2 v.1 v.2).isRevealed = true)) ∧
      (∀ v : Pos, (cellAt b v.1 v.2).isRevealed = true → (cellAt b2 v.1 v.2).isRevealed = true) ∧
      ((cellAt b o.1 o.2).neighborMines > 0 → log = [o]) ∧
      (∀ v : Pos, (cellAt b v.1 v.2).isFlagged = true →
        cellAt b2 v.1 v.2 = cellAt b v.1 v.2) := by
  obtain ⟨res, hres⟩ := revealCell_total hwf hin
  obtain ⟨b2, log⟩ := res
  have post := revealCell_some hwf hin hres
  simp only at post
  have hchanged : ∀ v : Pos, v ∈ log ↔
      ((cellAt b v.1 v.2).isRevealed = false ∧ (cellAt b2 v.1 v.2).isRevealed = true) := by
    intro v
    constructor
    · intro hv
      exact ⟨((isOpen_eq_true_iff _ _).1 (post.marked.fresh v hv).2).1,
        (post.marked.isRevealed_iff v.1 v.2).2 (Or.inr hv)⟩
    · rintro ⟨h1, h2⟩
      rcases (post.marked.isRevealed_iff v.1 v.2).1 h2 with h3 | h3
      · rw [h1] at h3; cases h3
      · exact h3
  refine ⟨b2, log, hres, ?_, hchanged, ?_, ?_, ?_⟩
  · intro v
    rw [← hchanged, post.mem_iff_fillReach]
    constructor
    · exact fillPath_of_fillReach
    · rintro ⟨path, h1, h2, h3⟩
      exact fillReach_of_fillPath path o v h1 h2 h3
  · intro v hv
    exact (post.marked.isRevealed_iff v.1 v.2).2 (Or.inl hv)
  · intro hn
    have hguard : ¬ (((cellAt b o.1 o.2).isRevealed || (cellAt b o.1 o.2).isFlagged) = true) := by
      have := (isOpen_eq_true_iff _ _).1 ho
      simp [this.1, this.2]
    unfold revealCell at hres
    rw [revealCellFuel_succ] at hres
    simp only [if_neg hguard, if_pos hn, List.nil_append, Option.some.injEq, Prod.mk.injEq] at hres
    exact hres.2.symm
  · intro v hv
    have hnot : v ∉ log := by
      intro hmem
      have := ((isOpen_eq_true_iff _ _).1 (post.marked.fresh v hmem).2).2
      rw [hv] at this; cases this
    exact post.marked.cell_of_not_mem hnot

/-- Instance of C17: in the strip session whose cell `(0, 1)` is flagged, revealing `(0, 0)`. -/
theorem exact_reveal_set_witness :
    ∃ b2 log, revealCell stripConfig stripPlayed.board 0 0 = some (b2, log) ∧
      (∀ v : Pos,
        ((cellAt stripPlayed.board v.1 v.2).isRevealed = false ∧
            (cellAt b2 v.1 v.2).isRevealed = true) ↔
          ∃ path : List Pos, path.head? = some (0, 0) ∧ path.getLast? = some v ∧
            fillPath stripConfig stripPlayed.board path) ∧
      (∀ v : Pos, v ∈ log ↔
        ((cellAt stripPlayed.board v.1 v.2).isRevealed = false ∧
          (cellAt b2 v.1 v.2).isRevealed = true)) ∧
      (∀ v : Pos, (cellAt stripPlayed.board v.1 v.2).isRevealed = true →
        (cellAt b2 v.1 v.2).isRevealed = true) ∧
      ((cellAt stripPlayed.board 0 0).neighborMines > 0 → log = [(0, 0)]) ∧
      (∀ v : Pos, (cellAt stripPlayed.board v.1 v.2).isFlagged = true →
        cellAt b2 v.1 v.2 = cellAt stripPlayed.board v.1 v.2) :=
  exact_reveal_set stripConfig stripPlayed.board reachable_stripPlayed.inv.wf (0, 0)
    (by decide) (by decide)

/-- C18 (no mine is ever uncovered): in a state reachable from `resetGame` by reveal and
toggleFlag commands, every revealed cell is not a mine; and when the phase is `won`, an
in-bounds cell is revealed exactly when it is not a mine, and unrevealed exactly when it is a
mine. -/
theorem no_mine_uncovered (s : State) (hs : Reachable s) :
    (∀ r c, (cellAt s.board r c).isRevealed = true → (cellAt s.board r c).isMine = false) ∧
    (phase s = Phase.won → ∀ r c, inBounds s.config (r, c) →
      ((cellAt s.board r c).isRevealed = true ↔ (cellAt s.board r c).isMine = false) ∧
      ((cellAt s.board r c).isRevealed = false ↔ (cellAt s.board r c).isMine = true)) := by
  have hsafe := hs.safeInv
  have hi := hs.inv
  refine ⟨hsafe.covered, ?_⟩
  intro hwon r c hin
  rw [phase_won_iff] at hwon
  have hfc : s.firstClick = false := by
    by_contra hn
    have := (hi.fresh (by simpa using hn)).1
    rw [hwon.1] at this; cases this
  have hmines := hi.placed hfc
  have htarget := hsafe.wonCount hwon.1 hwon.2
  have hsplit := countGrid_add_not s.config s.board (fun x => x.isMine)
  have hcount : countGrid s.config s.board (fun x => x.isRevealed)
      = countGrid s.config s.board (fun x => !x.isMine) := by
    unfold revealedCount winTarget at htarget
    unfold mineCount at hmines
    omega
  rw [countGrid_eq, countGrid_eq] at hcount
  have hback := countP_eq_of_imp (positions s.config)
    (fun q => (cellAt s.board q.1 q.2).isRevealed) (fun q => !(cellAt s.board q.1 q.2).isMine)
    (fun x _ hx => by simp only at hx ⊢; rw [hsafe.covered x.1 x.2 hx]; rfl) hcount (r, c)
    ((mem_positions s.config (r, c)).2 hin)
  simp only [Bool.not_eq_true', Bool.not_eq_eq_eq_not, Bool.not_true] at hback
  have hiff : (cellAt s.board r c).isRevealed = true ↔ (cellAt s.board r c).isMine = false :=
    ⟨hsafe.covered r c, hback⟩
  refine ⟨hiff, ?_⟩
  cases hr : (cellAt s.board r c).isRevealed <;> cases hm : (cellAt s.board r c).isMine <;>
    simp_all

/-- Instance of C18: the won demo session. -/
theorem no_mine_uncovered_witness :
    (∀ r c, (cellAt demoWon.board r c).isRevealed = true →
      (cellAt demoWon.board r c).isMine = false) ∧
    (∀ r c, inBounds demoWon.config (r, c) →
      ((cellAt demoWon.board r c).isRevealed = true ↔ (cellAt demoWon.board r c).isMine = false) ∧
      ((cellAt demoWon.board r c).isRevealed = false ↔
        (cellAt demoWon.board r c).isMine = true)) :=
  ⟨(no_mine_uncovered demoWon reachable_demoWon).1,
    (no_mine_uncovered demoWon reachable_demoWon).2 (by decide)⟩

/-! ## Claims about the termination of the placement -/

/-- C19 (placement can finish exactly when the safe region is large enough): on a mine-free
board, for a first click on `(r, c)`, there is a finite sequence of possible random draws on
which the loop of `placeMines` exits if and only if the number of in-bounds cells at Chebyshev
distance more than one from `(r, c)` is at least `config.mines`; when it is smaller, after
every sequence of possible draws the counter `minesPlaced` is below `config.mines` and the loop
has not exited. -/
theorem placement_finishes_iff (cfg : Config) (b : Board) (hwf : WF cfg b)
    (hfree : ∀ r c, (cellAt b r c).isMine = false) (r c : Nat) :
    ((∃ draws, drawsValid cfg draws ∧ (placeMinesLoop cfg r c draws b 0).isSome = true) ↔
      cfg.mines ≤ safeCount cfg r c) ∧
    (safeCount cfg r c < cfg.mines → ∀ draws, drawsValid cfg draws →
      (placeMinesState cfg r c draws b 0).2 < cfg.mines ∧
      placeMinesLoop cfg r c draws b 0 = none) := by
  have hzero : mineCount cfg b = 0 := countGrid_zero _ _ _ hfree
  refine ⟨⟨?_, ?_⟩, ?_⟩
  · rintro ⟨draws, hd, hsome⟩
    obtain ⟨res, hres⟩ := Option.isSome_iff_exists.1 hsome
    obtain ⟨b2, n2⟩ := res
    obtain ⟨hm, _, hp, hcount⟩ := placeMinesLoop_spec _ _ _ _ _ _ _ _ hwf hres
    have h1 := hp (Nat.zero_le _)
    have h2 := hcount hd
    have h3 := mineCount_le_safeCount hfree hm
    omega
  · intro hle
    exact placement_finishes_of_safe cfg b hwf hfree r c hle
  · intro hlt draws hd
    obtain ⟨hm, hcount⟩ := placeMinesState_spec cfg r c draws b 0 hwf
    have h2 := hcount hd
    have h3 := mineCount_le_safeCount hfree hm
    have hbelow : (placeMinesState cfg r c draws b 0).2 < cfg.mines := by omega
    refine ⟨hbelow, ?_⟩
    rw [placeMinesLoop_eq_state, if_pos hbelow]

/-- Instance of C19: on the fresh demo board a first click on `(0, 0)` admits draws on which
the placement finishes; on the one-cell board with one mine no draws do. -/
theorem placement_finishes_iff_witness :
    (∃ draws, drawsValid demoConfig draws ∧
      (placeMinesLoop demoConfig 0 0 draws demoFresh.board 0).isSome = true) ∧
    ((placeMinesState fullConfig 0 0 [(0, 0), (0, 0)]
        (resetGame (initialState fullConfig)).board 0).2 < fullConfig.mines ∧
      placeMinesLoop fullConfig 0 0 [(0, 0), (0, 0)]
        (resetGame (initialState fullConfig)).board 0 = none) :=
  ⟨(placement_finishes_iff demoConfig demoFresh.board reachable_demoFresh.inv.wf
      (fun r c => by rw [demoFresh, cellAt_resetGame]; rfl) 0 0).1.2 (by decide),
    (placement_finishes_iff fullConfig (resetGame (initialState fullConfig)).board
      (inv_resetGame (initialState fullConfig)).wf
      (fun r c => by rw [cellAt_resetGame]; rfl) 0 0).2 (by decide) [(0, 0), (0, 0)]
      (by intro d hd
          simp only [List.mem_cons, List.mem_singleton, List.not_mem_nil, or_false,
            or_self] at hd
          subst hd
          decide)⟩

/-- C20 (all shipped presets are placeable): each entry of `DIFFICULTIES` has positive `rows`
and `cols` and `0 ≤ mines < rows * cols`, and for every in-bounds first-click cell the number
of in-bounds cells at Chebyshev distance more than one from it is at least `mines`; so on the
board `resetGame` creates there are possible random draws on which the loop of `placeMines`
exits. -/
theorem presets_placeable (d : Difficulty) :
    validConfig (DIFFICULTIES d) ∧
    ∀ r c, inBounds (DIFFICULTIES d) (r, c) →
      (DIFFICULTIES d).mines ≤ safeCount (DIFFICULTIES d) r c ∧
      ∃ draws, drawsValid (DIFFICULTIES d) draws ∧
        (placeMinesLoop (DIFFICULTIES d) r c draws
          (resetGame (initialState (DIFFICULTIES d))).board 0).isSome = true := by
  have hvalid : validConfig (DIFFICULTIES d) := by cases d <;> decide
  refine ⟨hvalid, ?_⟩
  intro r c _
  have hnine := safeCount_add_nine (DIFFICULTIES d) r c
  have hle : (DIFFICULTIES d).mines ≤ safeCount (DIFFICULTIES d) r c := by
    cases d <;> simp only [DIFFICULTIES] at hnine ⊢ <;> omega
  refine ⟨hle, ?_⟩
  exact (placement_finishes_of_safe (DIFFICULTIES d)
    (resetGame (initialState (DIFFICULTIES d))).board
    (inv_resetGame (initialState (DIFFICULTIES d))).wf
    (fun r2 c2 => by rw [cellAt_resetGame]; rfl) r c hle)

/-- Instance of C20: the easy preset and a first click in the middle of the board. -/
theorem presets_placeable_witness :
    (DIFFICULTIES Difficulty.easy).mines ≤ safeCount (DIFFICULTIES Difficulty.easy) 4 4 ∧
    ∃ draws, drawsValid (DIFFICULTIES Difficulty.easy) draws ∧
      (placeMinesLoop (DIFFICULTIES Difficulty.easy) 4 4 draws
        (resetGame (initialState (DIFFICULTIES Difficulty.easy))).board 0).isSome = true :=
  (presets_placeable Difficulty.easy).2 4 4 (by decide)

end Minesweeper
